import Mathlib

/-!
# Verification of the claude_sync synchronization engine

Shallow embedding of the claude_sync repository (Go) in Lean 4:
the JSON structural merger (`internal/mcp/sync.go`), the hooks merger
(`internal/filter/hooks.go`), the sync engine status computation,
push and pull (`internal/sync/engine.go`, `internal/sync/meta.go`),
and the directory codec (`internal/archive`).

Modelling conventions:
* Go `map[string]interface{}` documents are modelled as an inductive
  JSON value type `JVal` whose objects are association lists
  (`List (String × JVal)`); lookup is first-match, update replaces the
  first matching entry in place (appending when absent), which mirrors
  map semantics for the duplicate-free key lists produced by
  `encoding/json`.
* `reflect.DeepEqual` on decoded JSON values is structural equality,
  modelled by the boolean `JVal.beq`.
* Byte strings fed to `json.Unmarshal` are modelled by `RawDoc`:
  `.bad s` is a byte string on which unmarshalling fails, `.good o` is
  a byte string that decodes to the object `o`.  Returning an input
  verbatim preserves its (mal)formedness; serialising an object always
  yields a well-formed document.
* External I/O (file reads, terminal prompts, the gist client) is
  modelled by explicit oracle parameters; machine integers (`int`
  version counters) are `Int`.
-/

namespace ClaudeSync

/-- Decoded JSON values (`map[string]interface{}` / `[]interface{}` /
scalars as produced by `encoding/json`). -/
inductive JVal where
  | null : JVal
  | bool (b : Bool) : JVal
  | num (n : Int) : JVal
  | str (s : String) : JVal
  | arr (xs : List JVal) : JVal
  | obj (fields : List (String × JVal)) : JVal
deriving Repr

/-- A decoded JSON object: association list of fields. -/
abbrev JObj := List (String × JVal)

mutual

/-- Structural equality of JSON values (`reflect.DeepEqual`). -/
def JVal.beq : JVal → JVal → Bool
  | .null, .null => true
  | .bool a, .bool b => a == b
  | .num a, .num b => a == b
  | .str a, .str b => a == b
  | .arr xs, .arr ys => JVal.listBeq xs ys
  | .obj xs, .obj ys => JVal.objBeq xs ys
  | _, _ => false

/-- Structural equality on JSON arrays. -/
def JVal.listBeq : List JVal → List JVal → Bool
  | [], [] => true
  | x :: xs, y :: ys => JVal.beq x y && JVal.listBeq xs ys
  | _, _ => false

/-- Structural equality on JSON objects (field lists compared in order,
as decoded values of identical documents agree in order). -/
def JVal.objBeq : List (String × JVal) → List (String × JVal) → Bool
  | [], [] => true
  | (k, v) :: xs, (k', v') :: ys => k == k' && JVal.beq v v' && JVal.objBeq xs ys
  | _, _ => false

end


/-- First-match lookup in an association list (Go map read). -/
def lookupKey {κ α : Type} [DecidableEq κ] : List (κ × α) → κ → Option α
  | [], _ => none
  | (k, v) :: rest, key => if k = key then some v else lookupKey rest key

/-- Go map write `m[key] = v`: replace the first entry with that key,
append when absent. -/
def setKey {κ α : Type} [DecidableEq κ] : List (κ × α) → κ → α → List (κ × α)
  | [], key, v => [(key, v)]
  | (k, w) :: rest, key, v =>
    if k = key then (key, v) :: rest else (k, w) :: setKey rest key v

/-- The keys of an association list. -/
def keysOf {κ α : Type} (m : List (κ × α)) : List κ := m.map Prod.fst

theorem lookupKey_setKey_self {κ α : Type} [DecidableEq κ] (m : List (κ × α)) (k : κ) (v : α) :
    lookupKey (setKey m k v) k = some v := by
  induction m with
  | nil => simp [setKey, lookupKey]
  | cons hd tl ih =>
    obtain ⟨k', w⟩ := hd
    by_cases h : k' = k <;> simp [setKey, lookupKey, h, ih]

theorem lookupKey_setKey_ne {κ α : Type} [DecidableEq κ] (m : List (κ × α)) (k k' : κ) (v : α)
    (h : k ≠ k') : lookupKey (setKey m k v) k' = lookupKey m k' := by
  induction m with
  | nil => simp [setKey, lookupKey, h]
  | cons hd tl ih =>
    obtain ⟨k₀, w⟩ := hd
    by_cases h0 : k₀ = k
    · subst h0; simp [setKey, lookupKey, h]
    · simp [setKey, h0, lookupKey]
      by_cases h1 : k₀ = k' <;> simp [h1, ih]

/-- Writing back the value already stored leaves the list unchanged. -/
theorem setKey_self {κ α : Type} [DecidableEq κ] (m : List (κ × α)) (k : κ) (v : α)
    (h : lookupKey m k = some v) : setKey m k v = m := by
  induction m with
  | nil => simp [lookupKey] at h
  | cons hd tl ih =>
    obtain ⟨k₀, w⟩ := hd
    by_cases h0 : k₀ = k
    · subst h0
      simp [lookupKey] at h
      simp [setKey, h]
    · simp [lookupKey, h0] at h
      simp [setKey, h0, ih h]

theorem lookupKey_mem {κ α : Type} [DecidableEq κ] {m : List (κ × α)} {k : κ} {v : α}
    (h : lookupKey m k = some v) : (k, v) ∈ m := by
  induction m with
  | nil => simp [lookupKey] at h
  | cons hd tl ih =>
    obtain ⟨k₀, w⟩ := hd
    by_cases h0 : k₀ = k
    · subst h0
      simp [lookupKey] at h
      simp [h]
    · simp [lookupKey, h0] at h
      exact List.mem_cons_of_mem _ (ih h)

theorem lookupKey_eq_none {κ α : Type} [DecidableEq κ] {m : List (κ × α)} {k : κ}
    (h : k ∉ keysOf m) : lookupKey m k = none := by
  induction m with
  | nil => rfl
  | cons hd tl ih =>
    obtain ⟨k₀, w⟩ := hd
    simp [keysOf] at h
    have hne : ¬k₀ = k := fun hk => h.1 hk.symm
    simp [lookupKey, hne, ih (by simp [keysOf, h.2])]

/-! ## Structural merger (`internal/mcp/sync.go`) -/

/-- A byte string about to be fed to `json.Unmarshal` into a
`map[string]interface{}`: either it fails to decode (`bad`, keeping the
raw bytes) or it decodes to an object (`good`). -/
inductive RawDoc where
  | bad (s : String) : RawDoc
  | good (o : JObj) : RawDoc
deriving Repr

/-- The object underlying a document (empty for malformed input). -/
def docObj : RawDoc → JObj
  | .bad _ => []
  | .good o => o

/-- A document is syntactically valid iff it decodes. -/
def RawDoc.isValid : RawDoc → Bool
  | .bad _ => false
  | .good _ => true

/-- `x, _ := v.(map[string]interface{})` followed by a nil-check that
replaces a failed assertion with a fresh empty map. -/
def asObj : Option JVal → JObj
  | some (.obj fields) => fields
  | _ => []

/-- Read field `k` of `o` as an object (empty when absent or not an
object), as the merge functions do for `mcpServers` and `projects`. -/
def getObjField (o : JObj) (k : String) : JObj := asObj (lookupKey o k)

/-- `reflect.DeepEqual(obj[key], value)` where a missing key reads as
interface nil, which `DeepEqual` equates with decoded JSON null. -/
def beqOptVal : Option JVal → JVal → Bool
  | none, .null => true
  | none, _ => false
  | some v, w => v.beq w

/-- The four answers `askConflictResolution` can produce
(`"remote" | "local" | "remote_all" | "local_all"`; any other terminal
input is mapped to `"local"` by its default branch). -/
inductive Choice where
  | remote : Choice
  | loc : Choice
  | remoteAll : Choice
  | localAll : Choice
deriving DecidableEq, Repr

/-- The interactive user, as a deterministic oracle: given the context
string, the conflicting key and the two values shown, the answer the
user gives.  (The same prompt always receives the same answer.) -/
abbrev Oracle := String → String → JVal → JVal → Choice

/-- The two run-scoped "apply to all" flags of `mergeMCPSmart`. -/
structure Flags where
  useRemoteForAll : Bool
  useLocalForAll : Bool
deriving DecidableEq, Repr

/-- State threaded through one `for key, remoteValue := range remoteMCP`
merge loop of `mergeMCPSmart`: the map being merged into, the flags, the
`changed` accumulator, and the log of prompts issued. -/
structure MState where
  m : JObj
  flags : Flags
  changed : Bool
  prompts : List (String × String)

/-- One iteration of the conflict-negotiating key loop of
`mergeMCPSmart` (used for the global `mcpServers` and for each
project's `mcpServers`). -/
def smartMergeKeyStep (ask : Oracle) (autoYes : Bool) (ctx : String)
    (st : MState) (kv : String × JVal) : MState :=
  match lookupKey st.m kv.1 with
  | none => { st with m := setKey st.m kv.1 kv.2, changed := true }
  | some localValue =>
    if localValue.beq kv.2 then st
    else if autoYes || st.flags.useLocalForAll then st
    else if st.flags.useRemoteForAll then
      { st with m := setKey st.m kv.1 kv.2, changed := true }
    else
      let st' := { st with prompts := st.prompts ++ [(ctx, kv.1)] }
      match ask ctx kv.1 localValue kv.2 with
      | .remote => { st' with m := setKey st'.m kv.1 kv.2, changed := true }
      | .loc => st'
      | .remoteAll =>
        { st' with m := setKey st'.m kv.1 kv.2, changed := true,
                   flags := { st'.flags with useRemoteForAll := true } }
      | .localAll => { st' with flags := { st'.flags with useLocalForAll := true } }

/-- The conflict-negotiating key loop of `mergeMCPSmart`. -/
def smartMergeKeys (ask : Oracle) (autoYes : Bool) (ctx : String)
    (remote : JObj) (st : MState) : MState :=
  remote.foldl (smartMergeKeyStep ask autoYes ctx) st

/-- State threaded through the `projects` loop of `mergeMCPSmart`. -/
structure PState where
  projects : JObj
  flags : Flags
  changed : Bool
  prompts : List (String × String)

/-- One iteration of the `for projectPath, remoteProject := range
remoteProjects` loop of `mergeMCPSmart`. -/
def smartProjectStep (ask : Oracle) (autoYes : Bool)
    (st : PState) (pv : String × JVal) : PState :=
  match pv.2 with
  | .obj remoteProjectConfig =>
    let localProjectConfig := asObj (lookupKey st.projects pv.1)
    let localProjectMCP := getObjField localProjectConfig "mcpServers"
    let remoteProjectMCP := getObjField remoteProjectConfig "mcpServers"
    let ms := smartMergeKeys ask autoYes ("projects[" ++ pv.1 ++ "].mcpServers")
      remoteProjectMCP ⟨localProjectMCP, st.flags, st.changed, st.prompts⟩
    let cfg := if ms.m.isEmpty then localProjectConfig
               else setKey localProjectConfig "mcpServers" (.obj ms.m)
    { projects := setKey st.projects pv.1 (.obj cfg),
      flags := ms.flags, changed := ms.changed, prompts := ms.prompts }
  | _ => st

/-- The final loop of `mergeMCPSmart`: top-level fields other than the
`mcpServers` / `projects` registries are overwritten from remote. -/
def overlayOthers (remote : JObj) (o : JObj) : JObj :=
  remote.foldl
    (fun acc kv =>
      if kv.1 = "mcpServers" ∨ kv.1 = "projects" then acc
      else setKey acc kv.1 kv.2) o

/-- `mergeMCPSmart(localData, remoteData, autoYes)`: smart merge,
detecting conflicts and asking the user.  Also returns the list of
prompts issued (the calls to `askConflictResolution`). -/
def mergeMCPSmart (ask : Oracle) (localData remoteData : RawDoc) (autoYes : Bool) :
    RawDoc × Bool × List (String × String) :=
  match localData with
  | .bad _ => (remoteData, true, [])
  | .good localObj =>
  match remoteData with
  | .bad _ => (localData, false, [])
  | .good remoteObj =>
    let localMCP := getObjField localObj "mcpServers"
    let remoteMCP := getObjField remoteObj "mcpServers"
    let ms := smartMergeKeys ask autoYes "mcpServers" remoteMCP
      ⟨localMCP, ⟨false, false⟩, false, []⟩
    let localObj1 := if ms.m.isEmpty then localObj
                     else setKey localObj "mcpServers" (.obj ms.m)
    let localProjects := getObjField localObj1 "projects"
    let remoteProjects := getObjField remoteObj "projects"
    let ps := remoteProjects.foldl (smartProjectStep ask autoYes)
      ⟨localProjects, ms.flags, ms.changed, ms.prompts⟩
    let localObj2 := if ps.projects.isEmpty then localObj1
                     else setKey localObj1 "projects" (.obj ps.projects)
    let localObj3 := overlayOthers remoteObj localObj2
    (.good localObj3, ps.changed, ps.prompts)

/-- One iteration of the overlay loop of `mergeMCPPreferRemote`
(`localObj[key] = value`, recording whether anything changed). -/
def overlayStep (acc : JObj × Bool) (kv : String × JVal) : JObj × Bool :=
  (setKey acc.1 kv.1 kv.2, acc.2 || !beqOptVal (lookupKey acc.1 kv.1) kv.2)

/-- `mergeMCPPreferRemote`: overlay every remote top-level key onto the
local document, keeping local-only fields. -/
def mergeMCPPreferRemote (localData remoteData : RawDoc) : RawDoc × Bool :=
  match localData with
  | .bad _ => (remoteData, true)
  | .good localObj =>
  match remoteData with
  | .bad _ => (localData, false)
  | .good remoteObj =>
    let r := remoteObj.foldl overlayStep (localObj, false)
    (.good r.1, r.2)

/-- The add-only key loop of `mergeMCPKeepLocal` (adds remote keys the
local side lacks; never overwrites). -/
def keepLocalAddMissing (remote : JObj) (st : JObj × Bool) : JObj × Bool :=
  remote.foldl
    (fun (acc : JObj × Bool) kv =>
      match lookupKey acc.1 kv.1 with
      | some _ => acc
      | none => (setKey acc.1 kv.1 kv.2, true)) st

/-- One iteration of the `projects` loop of `mergeMCPKeepLocal`. -/
def keepLocalProjectStep (acc : JObj × Bool) (pv : String × JVal) : JObj × Bool :=
  match pv.2 with
  | .obj remoteProjectConfig =>
    match lookupKey acc.1 pv.1 with
    | none => (setKey acc.1 pv.1 pv.2, true)
    | some localProject =>
      let localProjectConfig := asObj (some localProject)
      let localProjectMCP := getObjField localProjectConfig "mcpServers"
      let remoteProjectMCP := getObjField remoteProjectConfig "mcpServers"
      let r := keepLocalAddMissing remoteProjectMCP (localProjectMCP, acc.2)
      let cfg := if r.1.isEmpty then localProjectConfig
                 else setKey localProjectConfig "mcpServers" (.obj r.1)
      (setKey acc.1 pv.1 (.obj cfg), r.2)
  | _ => acc

/-- The final loop of `mergeMCPKeepLocal`: top-level fields other than
the registries are added only when the local side lacks them. -/
def addMissingOthers (remote : JObj) (st : JObj × Bool) : JObj × Bool :=
  remote.foldl
    (fun (acc : JObj × Bool) kv =>
      if kv.1 = "mcpServers" ∨ kv.1 = "projects" then acc
      else match lookupKey acc.1 kv.1 with
        | some _ => acc
        | none => (setKey acc.1 kv.1 kv.2, true)) st

/-- The configuration a shared project ends with under
`mergeMCPKeepLocal`: the local project config with remote-only server
keys added. -/
def klProjectCfg (lpv : JVal) (rc : JObj) : JObj :=
  let localProjectConfig := asObj (some lpv)
  let localProjectMCP := getObjField localProjectConfig "mcpServers"
  let remoteProjectMCP := getObjField rc "mcpServers"
  let r := keepLocalAddMissing remoteProjectMCP (localProjectMCP, false)
  if r.1.isEmpty then localProjectConfig
  else setKey localProjectConfig "mcpServers" (.obj r.1)

/-- `mergeMCPKeepLocal`: keep the local configuration, only adding
entries the remote side has and the local side lacks. -/
def mergeMCPKeepLocal (localData remoteData : RawDoc) : RawDoc × Bool :=
  match localData with
  | .bad _ => (remoteData, true)
  | .good localObj =>
  match remoteData with
  | .bad _ => (localData, false)
  | .good remoteObj =>
    let localMCP := getObjField localObj "mcpServers"
    let remoteMCP := getObjField remoteObj "mcpServers"
    let r1 := keepLocalAddMissing remoteMCP (localMCP, false)
    let localObj1 := if r1.1.isEmpty then localObj
                     else setKey localObj "mcpServers" (.obj r1.1)
    let localProjects := getObjField localObj1 "projects"
    let remoteProjects := getObjField remoteObj "projects"
    let r2 := remoteProjects.foldl keepLocalProjectStep (localProjects, r1.2)
    let localObj2 := if r2.1.isEmpty then localObj1
                     else setKey localObj1 "projects" (.obj r2.1)
    let r3 := addMissingOthers remoteObj (localObj2, r2.2)
    (.good r3.1, r3.2)

/-- `MergeMCPOnPullWithStrategy`: strategy dispatch
(`"remote"` / `"local"` / smart merge otherwise). -/
def MergeMCPOnPullWithStrategy (ask : Oracle) (localData remoteData : RawDoc)
    (strategy : String) (autoYes : Bool) : RawDoc × Bool × List (String × String) :=
  if strategy = "remote" then
    let r := mergeMCPPreferRemote localData remoteData
    (r.1, r.2, [])
  else if strategy = "local" then
    let r := mergeMCPKeepLocal localData remoteData
    (r.1, r.2, [])
  else
    mergeMCPSmart ask localData remoteData autoYes

/-- Relation between the flag state reached by a first merge pass and
the flag state of the replaying second pass at the same loop position:
the second pass has never turned on use-remote-for-all, and its
use-local-for-all flag mirrors the first pass's unless the first pass
went remote-for-all (in which case neither pass has the local flag). -/
def FlagsRel (fA gB : Flags) : Prop :=
  gB.useRemoteForAll = false ∧
  (fA.useRemoteForAll = false → gB.useLocalForAll = fA.useLocalForAll) ∧
  (fA.useRemoteForAll = true → gB.useLocalForAll = false ∧ fA.useLocalForAll = false)

/-- The nested key-loop state a project iteration of `mergeMCPSmart`
runs with (the project's local server registry, under the run's current
flags and accumulators). -/
def projMS (ask : Oracle) (ay : Bool) (st : PState) (p : String) (rc : JObj) : MState :=
  smartMergeKeys ask ay ("projects[" ++ p ++ "].mcpServers")
    (getObjField rc "mcpServers")
    ⟨getObjField (asObj (lookupKey st.projects p)) "mcpServers",
      st.flags, st.changed, st.prompts⟩

/-- The configuration a project ends with after one `projects` iteration
of `mergeMCPSmart`. -/
def projCfg (ask : Oracle) (ay : Bool) (st : PState) (p : String) (rc : JObj) : JObj :=
  if (projMS ask ay st p rc).m.isEmpty then asObj (lookupKey st.projects p)
  else setKey (asObj (lookupKey st.projects p)) "mcpServers"
    (.obj (projMS ask ay st p rc).m)

/-- The global `mcpServers` key-loop result of `mergeMCPSmart` on two
well-formed documents. -/
def smartMS (ask : Oracle) (ay : Bool) (lobj robj : JObj) : MState :=
  smartMergeKeys ask ay "mcpServers" (getObjField robj "mcpServers")
    ⟨getObjField lobj "mcpServers", ⟨false, false⟩, false, []⟩

/-- The local document after `mergeMCPSmart` writes the merged global
registry back. -/
def smartL1 (ask : Oracle) (ay : Bool) (lobj robj : JObj) : JObj :=
  if (smartMS ask ay lobj robj).m.isEmpty then lobj
  else setKey lobj "mcpServers" (.obj (smartMS ask ay lobj robj).m)

/-- The `projects` loop result of `mergeMCPSmart`. -/
def smartPS (ask : Oracle) (ay : Bool) (lobj robj : JObj) : PState :=
  List.foldl (smartProjectStep ask ay)
    ⟨getObjField (smartL1 ask ay lobj robj) "projects",
      (smartMS ask ay lobj robj).flags, (smartMS ask ay lobj robj).changed,
      (smartMS ask ay lobj robj).prompts⟩
    (getObjField robj "projects")

/-- The local document after `mergeMCPSmart` writes the merged projects
map back. -/
def smartL2 (ask : Oracle) (ay : Bool) (lobj robj : JObj) : JObj :=
  if (smartPS ask ay lobj robj).projects.isEmpty then smartL1 ask ay lobj robj
  else setKey (smartL1 ask ay lobj robj) "projects"
    (.obj (smartPS ask ay lobj robj).projects)

/-- The merged document `mergeMCPSmart` produces on two well-formed
documents. -/
def smartOut (ask : Oracle) (ay : Bool) (lobj robj : JObj) : JObj :=
  overlayOthers robj (smartL2 ask ay lobj robj)

/-! ## Hooks merger (`internal/filter/hooks.go`) -/

/-- `MergeHooksSelectively(local, remote, skipLocalContent)`.
`hasLocalPat` is the oracle for "the serialised hook config matches one
of the device-identifying `LocalPatterns` regexes". -/
def MergeHooksSelectively (hasLocalPat : JVal → Bool)
    (localData remoteData : RawDoc) (skipLocalContent : Bool) : RawDoc :=
  let localObj := match localData with
    | .bad _ => ([] : JObj)
    | .good o => o
  match remoteData with
  | .bad _ => localData
  | .good remoteObj =>
    let localHooks := getObjField localObj "hooks"
    match lookupKey remoteObj "hooks" with
    | some (.obj remoteHooks) =>
      let localHooks1 := remoteHooks.foldl
        (fun acc kv =>
          if skipLocalContent && hasLocalPat kv.2 then acc
          else setKey acc kv.1 kv.2) localHooks
      let localObj1 := setKey localObj "hooks" (.obj localHooks1)
      let localObj2 := remoteObj.foldl
        (fun acc kv => if kv.1 = "hooks" then acc else setKey acc kv.1 kv.2) localObj1
      .good localObj2
    | _ =>
      .good (setKey localObj "hooks" (.obj localHooks))

/-! ## Sync engine (`internal/sync/engine.go`, `internal/sync/meta.go`) -/

/-- `syncMeta`: the remote version-meta blob (`version`, `repo`). -/
structure SyncMeta where
  version : Int
  repo : String
deriving DecidableEq, Repr

/-- The gist file name of the version-meta blob. -/
def syncMetaFile : String := "claude_sync.meta.json"

/-- `config.RepoURL`. -/
def repoURL : String := "https://github.com/yxuechao007/claude_sync"

/-- A character `strings.TrimSpace` strips. -/
def isSpaceChar (c : Char) : Bool :=
  c = ' ' || c = '\t' || c = '\n' || c = '\r' || c = '\x0b' || c = '\x0c'

/-- `strings.TrimSpace`. -/
def trimSpace (s : String) : String :=
  String.mk (((s.data.dropWhile isSpaceChar).reverse.dropWhile isSpaceChar).reverse)

/-- `readSyncMeta`: blank content is a zero meta; otherwise the blob is
unmarshalled (`parseMeta` is the `encoding/json` oracle). -/
def readSyncMeta (parseMeta : String → Except String SyncMeta) (content : String) :
    Except String SyncMeta :=
  if trimSpace content = "" then .ok ⟨0, ""⟩
  else match parseMeta content with
    | .error e => .error e
    | .ok m => .ok m

/-- `ensureSyncMetaRepo`: fill in a missing repo tag; the flag reports
whether the meta needs rewriting. -/
def ensureSyncMetaRepo (m : SyncMeta) : SyncMeta × Bool :=
  if m.repo ≠ "" then (m, false) else ({ m with repo := repoURL }, true)

/-- `SyncStatus` (the `""` zero value never escapes the engine: every
snapshot is classified before being returned). -/
inductive SStatus where
  | synced : SStatus
  | localAhead : SStatus
  | remoteAhead : SStatus
  | conflict : SStatus
  | error : SStatus
  | new : SStatus
deriving DecidableEq, Repr

/-- `syncDirection`. -/
inductive SyncDirection where
  | synced : SyncDirection
  | localDir : SyncDirection
  | remoteDir : SyncDirection
  | conflict : SyncDirection
deriving DecidableEq, Repr

/-- `ItemStatus` (the path fields, irrelevant to the logic, are
omitted; `Error` is the optional message `errMsg`). -/
structure ItemStatusR where
  name : String
  status : SStatus
  localHash : String
  remoteHash : String
  errMsg : Option String
deriving DecidableEq, Repr

/-- `config.ItemState` (the last-sync timestamp is not modelled). -/
structure ItemStateR where
  localHash : String
  remoteHash : String
deriving DecidableEq, Repr

/-- `config.SyncState`: the persisted local state. -/
structure SyncStateR where
  version : Int
  items : List (String × ItemStateR)
deriving DecidableEq, Repr

/-- `config.SyncItem` (name, gist file, `"file"`/`"directory"`). -/
structure SyncItemR where
  name : String
  gistFile : String
  itemType : String
deriving DecidableEq, Repr

/-- `gist.Gist`: the remote snapshot, file name ↦ content. -/
structure GistR where
  files : List (String × String)
deriving DecidableEq, Repr

/-- `statusInfo`. -/
structure StatusInfoR where
  meta : SyncMeta
  metaNeedsUpdate : Bool
  remoteVersion : Int
  effectiveRemoteVersion : Int
  localVersion : Int
  localDirty : Bool
  remoteDirty : Bool
  direction : SyncDirection
deriving DecidableEq, Repr

/-- The engine's static environment: the enabled items
(`cfg.GetEnabledItems()`), the `encoding/json` oracle for the meta
blob, `calculateHash` (SHA-256 hex of a content string),
`calculateLocalHash` per item name, `getLocalContent` per item name
(`.ok none` is the skip case), the configured merge strategy and the
auto-confirm flag. -/
structure EngineEnv where
  items : List SyncItemR
  parseMeta : String → Except String SyncMeta
  hash : String → String
  localHashOf : String → Except String String
  localContentOf : String → Except String (Option String)
  mergeStrategy : String
  autoYes : Bool

/-- `GetMergeStrategy` (empty defaults to smart merge). -/
def getMergeStrategy (e : EngineEnv) : String :=
  if e.mergeStrategy = "" then "merge" else e.mergeStrategy

/-- `findItem`: first configured item with the given name. -/
def findItem (env : EngineEnv) (name : String) : Option SyncItemR :=
  env.items.find? (fun it => it.name == name)

/-- `itemSnapshot` of `getStatusWithRemote`. -/
structure SnapshotR where
  status : ItemStatusR
  localHash : String
  remoteHash : String
  localChanged : Bool
  remoteChanged : Bool
deriving DecidableEq, Repr

/-- The per-item snapshot loop body of `getStatusWithRemote`: local
hash via `calculateLocalHash` (errors degrade the item), remote hash of
the gist blob content when present, change flags against the persisted
item state ("never seen" when absent). -/
def mkSnapshot (env : EngineEnv) (state : SyncStateR) (g : GistR)
    (item : SyncItemR) : SnapshotR :=
  match env.localHashOf item.name with
  | .error e => ⟨⟨item.name, .error, "", "", some e⟩, "", "", false, false⟩
  | .ok lh =>
    let rh := match lookupKey g.files item.gistFile with
      | some c => env.hash c
      | none => ""
    let flags := match lookupKey state.items item.name with
      | none => (lh != "", rh != "")
      | some st => (lh != st.localHash, rh != st.remoteHash)
    ⟨⟨item.name, .new, lh, rh, none⟩, lh, rh, flags.1, flags.2⟩

/-- The per-item status cascade of `getStatusWithRemote` (equal hashes
override everything; both-changed resolves through the global
direction; the unreachable neither-changed-but-different case is a
defensive conflict). -/
def classifySnapshot (dir : SyncDirection) (snap : SnapshotR) : ItemStatusR :=
  if snap.status.status = .error then snap.status
  else
    let s : SStatus :=
      if snap.localHash = snap.remoteHash then .synced
      else if snap.localChanged && !snap.remoteChanged then .localAhead
      else if !snap.localChanged && snap.remoteChanged then .remoteAhead
      else if snap.localChanged && snap.remoteChanged then
        match dir with
        | .localDir => .localAhead
        | .remoteDir => .remoteAhead
        | _ => .conflict
      else .conflict
    { snap.status with status := s }

/-- The global direction switch of `getStatusWithRemote` (the clean
case first, then the first-sync special case, then version comparison,
then the dirty-flag fallbacks). -/
def computeDirection (stateVersion remoteVersion localVersion effectiveRemoteVersion : Int)
    (localDirty remoteDirty : Bool) : SyncDirection :=
  if !localDirty && !remoteDirty then .synced
  else if stateVersion = 0 ∧ remoteVersion > 0 then .remoteDir
  else if localVersion > effectiveRemoteVersion then .localDir
  else if effectiveRemoteVersion > localVersion then .remoteDir
  else if localDirty && remoteDirty then .conflict
  else if localDirty then .localDir
  else .remoteDir

/-- Body of `getStatusWithRemote` after the meta blob has parsed:
snapshot every enabled item, compute dirtiness, version arithmetic, the
global direction and the per-item statuses. -/
def computeStatusCore (env : EngineEnv) (state : SyncStateR) (g : GistR)
    (meta0 : SyncMeta) : List ItemStatusR × StatusInfoR :=
  let em := ensureSyncMetaRepo meta0
  let meta := em.1
  let remoteVersion := meta.version
  let snapshots := env.items.map (mkSnapshot env state g)
  let localDirty := snapshots.any (·.localChanged)
  let remoteDirty := snapshots.any (·.remoteChanged)
  let localVersion := state.version + (if localDirty then 1 else 0)
  let effectiveRemoteVersion :=
    if remoteDirty && decide (remoteVersion ≤ state.version) then state.version + 1
    else remoteVersion
  let direction := computeDirection state.version remoteVersion localVersion
    effectiveRemoteVersion localDirty remoteDirty
  let statuses := snapshots.map (classifySnapshot direction)
  (statuses, ⟨meta, em.2, remoteVersion, effectiveRemoteVersion,
              localVersion, localDirty, remoteDirty, direction⟩)

/-- `getStatusWithRemote`: parse the version meta (an unparsable blob
aborts), then classify. -/
def computeStatus (env : EngineEnv) (state : SyncStateR) (g : GistR) :
    Except String (List ItemStatusR × StatusInfoR) :=
  match readSyncMeta env.parseMeta
      (match lookupKey g.files syncMetaFile with | some c => c | none => "") with
  | .error e => .error ("failed to parse sync meta: " ++ e)
  | .ok meta0 => .ok (computeStatusCore env state g meta0)

/-- Accumulator of the `Push` item loop: the reported statuses, the
staged gist updates and, for bookkeeping, the uploaded (name, content)
pairs. -/
structure PushAcc where
  results : List ItemStatusR
  updates : List (String × String)
  uploaded : List (String × String)
deriving DecidableEq, Repr

/-- The upload half of a `Push` iteration (`getLocalContent`, hash,
stage the update, mark the item synced). -/
def pushUpload (env : EngineEnv) (acc : PushAcc) (item : SyncItemR)
    (status : ItemStatusR) : PushAcc :=
  match env.localContentOf item.name with
  | .error e =>
    { acc with results := acc.results ++ [{ status with errMsg := some e, status := .error }] }
  | .ok none => { acc with results := acc.results ++ [status] }
  | .ok (some content) =>
    { results := acc.results ++
        [{ status with localHash := env.hash content, status := .synced }],
      updates := setKey acc.updates item.gistFile content,
      uploaded := acc.uploaded ++ [(item.name, content)] }

/-- One iteration of the `Push` loop: unknown items are skipped,
conflicts without `--force` and remote-ahead items get a per-item
message, synced/error items pass through, eligible items upload. -/
def pushStep (env : EngineEnv) (force : Bool) (acc : PushAcc)
    (status : ItemStatusR) : PushAcc :=
  match findItem env status.name with
  | none => acc
  | some item =>
    match status.status with
    | .localAhead => pushUpload env acc item status
    | .new => pushUpload env acc item status
    | .conflict =>
      if force then pushUpload env acc item status
      else { acc with results := acc.results ++
        [{ status with errMsg := some "conflict detected, use --force to override" }] }
    | .remoteAhead =>
      { acc with results := acc.results ++
        [{ status with errMsg := some "remote is ahead, run pull first" }] }
    | .synced => { acc with results := acc.results ++ [status] }
    | .error => { acc with results := acc.results ++ [status] }

/-- Outcome of a `Push` run: reported statuses, the gist content blobs
actually written, the uploaded items, the meta blob written (if any)
and the persisted state afterwards. -/
structure PushOutcome where
  results : List ItemStatusR
  contentWrites : List (String × String)
  uploaded : List (String × String)
  metaWritten : Option SyncMeta
  stateAfter : SyncStateR
deriving DecidableEq, Repr

/-- The state-items update loop after a successful push: every synced
result with a non-empty hash records `(newHash, newHash)`. -/
def pushStateItems (results : List ItemStatusR)
    (items : List (String × ItemStateR)) : List (String × ItemStateR) :=
  results.foldl
    (fun its r =>
      if r.status = .synced && r.localHash != "" then
        setKey its r.name ⟨r.localHash, r.localHash⟩
      else its) items

/-- `Push`: status computation, the item loop, then — when anything was
staged and this is not a dry run — the version bump
(`max(meta, state, remote) + 1` written to the meta blob and persisted
locally) and the item-state overwrite; a meta-only repair write when
nothing was staged but the repo tag was missing. -/
def pushCore (env : EngineEnv) (state : SyncStateR)
    (dryRun force : Bool) (si : List ItemStatusR × StatusInfoR) : PushOutcome :=
  let info := si.2
  let acc := si.1.foldl (pushStep env force) ⟨[], [], []⟩
  if !dryRun && !acc.updates.isEmpty then
    let m1 := if info.meta.version < state.version then
                { info.meta with version := state.version } else info.meta
    let m2 := { m1 with version := max m1.version info.remoteVersion + 1 }
    let m3 := (ensureSyncMetaRepo m2).1
    ⟨acc.results, acc.updates, acc.uploaded, some m3,
     ⟨m3.version, pushStateItems acc.results state.items⟩⟩
  else if !dryRun && acc.updates.isEmpty && info.metaNeedsUpdate then
    let m1 := if info.meta.version < state.version then
                { info.meta with version := state.version } else info.meta
    let m3 := (ensureSyncMetaRepo m1).1
    ⟨acc.results, [], acc.uploaded, some m3, state⟩
  else
    ⟨acc.results, [], acc.uploaded, none, state⟩

/-- `Push`: status computation then the push body. -/
def push (env : EngineEnv) (state : SyncStateR) (g : GistR)
    (dryRun force : Bool) : Except String PushOutcome :=
  match computeStatus env state g with
  | .error e => .error e
  | .ok si => .ok (pushCore env state dryRun force si)

/-- `diff.ConfirmResult`. -/
inductive ConfirmResult where
  | yes : ConfirmResult
  | no : ConfirmResult
  | all : ConfirmResult
  | quit : ConfirmResult
  | preview : ConfirmResult
deriving DecidableEq, Repr

/-- The I/O collaborators of `Pull`, as oracles per item name:
`prepareWriteContent` (result content and the skip-write flag),
the local file read used for the diff display, `writeLocalContent`, and
`calculateLocalHash` recomputed after the write. -/
structure PullOracles where
  prepareWrite : String → String → Except String (String × Bool)
  localRead : String → Option String
  writeLocal : String → String → Except String Unit
  localHashAfter : String → Except String String
  confirms : List ConfirmResult

/-- State threaded through the `Pull` item loop. -/
structure PullLoop where
  results : List ItemStatusR
  keptLocal : List (String × String)
  writes : List (String × String)
  autoYes : Bool
  appliedAny : Bool
  confirms : List ConfirmResult
  aborted : Bool
deriving Repr

/-- `diff.ConfirmChange`: auto-confirm answers yes without touching the
terminal; otherwise the next queued answer is consumed (exhausted input
reads as a refusal). -/
def nextConfirm (autoYes : Bool) (cs : List ConfirmResult) :
    ConfirmResult × List ConfirmResult :=
  if autoYes then (.yes, cs)
  else match cs with
    | [] => (.no, [])
    | c :: rest => (c, rest)

/-- Tail of a pulled item: under the keep-local strategy a hash
mismatch keeps the local version (recording the remote hash), otherwise
the item is synced. -/
def pullFinishItem (env : EngineEnv) (st : PullLoop) (status : ItemStatusR) : PullLoop :=
  if getMergeStrategy env = "local" && status.localHash != status.remoteHash then
    { st with results := st.results ++ [{ status with status := .localAhead }],
              keptLocal := setKey st.keptLocal status.name status.remoteHash }
  else
    { st with results := st.results ++ [{ status with status := .synced }] }

/-- Recompute the local hash after the write and finish the item. -/
def pullRehash (env : EngineEnv) (oc : PullOracles) (st : PullLoop)
    (item : SyncItemR) (status : ItemStatusR) : PullLoop :=
  match oc.localHashAfter item.name with
  | .error e =>
    { st with results := st.results ++ [{ status with errMsg := some e, status := .error }] }
  | .ok lh => pullFinishItem env st { status with localHash := lh }

/-- Write the prepared content locally (unless skipped) and finish. -/
def pullConfirmed (env : EngineEnv) (oc : PullOracles) (st : PullLoop)
    (item : SyncItemR) (status : ItemStatusR) (prepared : String)
    (skipWrite : Bool) : PullLoop :=
  if !skipWrite then
    match oc.writeLocal item.name prepared with
    | .error e =>
      { st with results := st.results ++ [{ status with errMsg := some e, status := .error }] }
    | .ok _ =>
      pullRehash env oc
        { st with writes := st.writes ++ [(item.name, prepared)], appliedAny := true }
        item status
  else pullRehash env oc st item status

/-- The non-dry-run body of a pulled item: empty remote file contents
are skipped for files, the write content is prepared, the diff is shown
and confirmed interactively for files with local content, then the
write/rehash tail runs. -/
def pullApplyNonDry (env : EngineEnv) (oc : PullOracles) (st : PullLoop)
    (item : SyncItemR) (status : ItemStatusR) (remoteContent : String) : PullLoop :=
  if remoteContent = "" && item.itemType != "directory" then
    { st with results := st.results ++ [status] }
  else
    match oc.prepareWrite item.name remoteContent with
    | .error e =>
      { st with results := st.results ++ [{ status with errMsg := some e, status := .error }] }
    | .ok pw =>
      let localContent := if item.itemType != "directory" then
        (oc.localRead item.name).getD "" else ""
      if item.itemType != "directory" && localContent != "" && !pw.2 then
        let c1 := nextConfirm st.autoYes st.confirms
        let st1 := { st with confirms := c1.2 }
        match c1.1 with
        | .no =>
          { st1 with results := st1.results ++ [{ status with status := .localAhead }],
                     keptLocal := setKey st1.keptLocal status.name status.remoteHash }
        | .quit => { st1 with aborted := true }
        | .all => pullConfirmed env oc { st1 with autoYes := true } item status pw.1 pw.2
        | .preview =>
          let c2 := nextConfirm st1.autoYes st1.confirms
          let st2 := { st1 with confirms := c2.2 }
          match c2.1 with
          | .no =>
            { st2 with results := st2.results ++ [{ status with status := .localAhead }],
                       keptLocal := setKey st2.keptLocal status.name status.remoteHash }
          | .quit => { st2 with aborted := true }
          | .all => pullConfirmed env oc { st2 with autoYes := true } item status pw.1 pw.2
          | _ => pullConfirmed env oc st2 item status pw.1 pw.2
        | .yes => pullConfirmed env oc st1 item status pw.1 pw.2
      else pullConfirmed env oc st item status pw.1 pw.2

/-- The fetch half of a pulled item: missing remote blobs pass the
status through; dry runs skip the apply body. -/
def pullFetch (env : EngineEnv) (oc : PullOracles) (g : GistR) (dryRun : Bool)
    (st : PullLoop) (item : SyncItemR) (status : ItemStatusR) : PullLoop :=
  match lookupKey g.files item.gistFile with
  | none => { st with results := st.results ++ [status] }
  | some remoteContent =>
    if !dryRun then pullApplyNonDry env oc st item status remoteContent
    else pullFinishItem env st status

/-- One iteration of the `Pull` loop (an aborted run processes nothing
further; the absent `StatusNew` switch case reports nothing). -/
def pullStep (env : EngineEnv) (oc : PullOracles) (g : GistR)
    (force dryRun : Bool) (st : PullLoop) (status : ItemStatusR) : PullLoop :=
  if st.aborted then st
  else match findItem env status.name with
  | none => st
  | some item =>
    match status.status with
    | .remoteAhead => pullFetch env oc g dryRun st item status
    | .conflict =>
      if force then pullFetch env oc g dryRun st item status
      else { st with results := st.results ++
        [{ status with errMsg := some "conflict detected, use --force to override" }] }
    | .synced => { st with results := st.results ++ [status] }
    | .localAhead => { st with results := st.results ++ [status] }
    | .error => { st with results := st.results ++ [status] }
    | .new => st

/-- Outcome of a `Pull` run (`aborted` models the user-quit error
return: partial results, no state save, no meta write). -/
structure PullOutcome where
  results : List ItemStatusR
  writes : List (String × String)
  metaWritten : Option SyncMeta
  stateAfter : SyncStateR
  aborted : Bool
deriving Repr

/-- The state-items update after a pull: synced results with a remote
hash record `(localHash, remoteHash)`, then kept-local items record
`(remoteHash, remoteHash)`. -/
def pullStateItems (results : List ItemStatusR) (keptLocal : List (String × String))
    (items : List (String × ItemStateR)) : List (String × ItemStateR) :=
  let items1 := results.foldl
    (fun its r =>
      if r.status = .synced && r.remoteHash != "" then
        setKey its r.name ⟨r.localHash, r.remoteHash⟩
      else its) items
  keptLocal.foldl (fun its kv => setKey its kv.1 ⟨kv.2, kv.2⟩) items1

/-- `Pull`: status computation, the item loop, then — unless dry or
aborted — the state overwrite, the version raise to the effective
remote version, and the conditional meta rewrite. -/
def pullCore (env : EngineEnv) (oc : PullOracles) (state : SyncStateR) (g : GistR)
    (dryRun force : Bool) (si : List ItemStatusR × StatusInfoR) : PullOutcome :=
  let info := si.2
  let fin := si.1.foldl (pullStep env oc g force dryRun)
    ⟨[], [], [], env.autoYes, false, oc.confirms, false⟩
  if fin.aborted then
    ⟨fin.results, fin.writes, none, state, true⟩
  else if dryRun then
    ⟨fin.results, fin.writes, none, state, false⟩
  else
    let newItems := pullStateItems fin.results fin.keptLocal state.items
    let newVersion := if info.effectiveRemoteVersion > state.version then
      info.effectiveRemoteVersion else state.version
    let metaW :=
      if fin.appliedAny &&
          (decide (info.effectiveRemoteVersion > info.remoteVersion) || info.metaNeedsUpdate) then
        some ((ensureSyncMetaRepo { info.meta with version := info.effectiveRemoteVersion }).1)
      else none
    ⟨fin.results, fin.writes, metaW, ⟨newVersion, newItems⟩, false⟩

/-- `Pull`: status computation then the pull body. -/
def pull (env : EngineEnv) (oc : PullOracles) (state : SyncStateR) (g : GistR)
    (dryRun force : Bool) : Except String PullOutcome :=
  match computeStatus env state g with
  | .error e => .error e
  | .ok si => .ok (pullCore env oc state g dryRun force si)

/-! ## Directory codec (`internal/archive`, src/unnamed/part_006) -/

/-- Tar entry kinds: directory, regular file, or any other typeflag
(the extraction switch silently skips those). -/
inductive EntryKind where
  | dir : EntryKind
  | reg : EntryKind
  | other : EntryKind
deriving DecidableEq, Repr

/-- One tar entry: archive-relative name (slash-separated), kind and file
content. -/
structure TarEntry where
  name : String
  kind : EntryKind
  content : String
deriving DecidableEq, Repr

/-- The packed blob: `none` models the empty string `""`
(`PackDirectory` of a missing directory), `some es` a base64-encoded
gzipped tar stream listing `es` in order (the base64/gzip/tar layers
are faithful encodings and are elided). -/
abbrev Blob := Option (List TarEntry)

/-- Filesystem model: existing directories and files, as absolute
`/`-separated component paths. -/
structure FSR where
  dirs : List (List String)
  files : List (List String × String)
deriving DecidableEq, Repr

/-- Split a character list on `/` (string splitting, spelled out on the
character list so that it evaluates). -/
def splitPathAux : List Char → List Char → List String
  | [], cur => [String.mk cur.reverse]
  | c :: rest, cur =>
    if c = '/' then String.mk cur.reverse :: splitPathAux rest []
    else splitPathAux rest (c :: cur)

/-- Split a tar entry name on `/`. -/
def splitPath (s : String) : List String := splitPathAux s.data []

/-- `filepath.Clean` on an absolute path's components: empty and `"."`
components are dropped, `".."` pops the stack (the root's parent is the
root). -/
def cleanComps (cs : List String) : List String :=
  cs.foldl
    (fun acc c =>
      if c = "" || c = "." then acc
      else if c = ".." then acc.dropLast
      else acc ++ [c]) []

/-- `filepath.Rel(base, target)` on cleaned absolute component lists:
strip the common prefix, one `".."` per remaining base component, then
the remaining target components. -/
def relComps : List String → List String → List String
  | b :: bs, t :: ts =>
    if b = t then relComps bs ts
    else List.replicate (bs.length + 1) ".." ++ (t :: ts)
  | [], ts => ts
  | bs, [] => List.replicate bs.length ".."

/-- `os.MkdirAll`: create the directory and every missing ancestor. -/
def mkdirAll (fs : FSR) (p : List String) : FSR :=
  { fs with dirs := fs.dirs ++
      (((List.range p.length).map (fun i => p.take (i + 1))).filter
        (fun q => q ∉ fs.dirs)) }

/-- `os.OpenFile(..., O_CREATE|O_WRONLY|O_TRUNC, ...)` + write. -/
def writeFS (fs : FSR) (p : List String) (c : String) : FSR :=
  { fs with files := setKey fs.files p c }

/-- The extraction loop of `UnpackDirectory`: per entry, the cleaned
joined target path is checked against the target directory
(path-traversal guard: a relative path starting with `".."` aborts the
whole unpack with an error); directories are created, regular files
written, other typeflags skipped.  The filesystem reached so far is
returned alongside the error, as aborting does not undo prior writes. -/
def unpackLoop (dirPath : List String) : FSR → List TarEntry → FSR × Option String
  | fs, [] => (fs, none)
  | fs, e :: rest =>
    let targetPath := cleanComps (dirPath ++ splitPath e.name)
    let rel := relComps (cleanComps dirPath) targetPath
    if rel.head? = some ".." then
      (fs, some ("invalid file path in archive: " ++ e.name))
    else
      match e.kind with
      | .dir => unpackLoop dirPath (mkdirAll fs targetPath) rest
      | .reg =>
        unpackLoop dirPath (writeFS (mkdirAll fs targetPath.dropLast) targetPath e.content) rest
      | .other => unpackLoop dirPath fs rest

/-- `UnpackDirectory(encoded, dirPath)`: the empty string creates an
empty target directory; otherwise the target directory is created and
the entries extracted in order. -/
def UnpackDirectory (blob : Blob) (dirPath : List String) (fs : FSR) :
    FSR × Option String :=
  match blob with
  | none => (mkdirAll fs dirPath, none)
  | some entries => unpackLoop dirPath (mkdirAll fs dirPath) entries

/-- A walked path is skipped when any component below the root starts
with the hidden-file marker (`filepath.SkipDir` prunes whole hidden
subtrees). -/
def visibleRel (rel : List String) : Bool :=
  rel.all (fun c => !(c.startsWith "."))

/-- Lexicographic order on relative paths, mirroring `filepath.Walk`
order on the joined name. -/
def pathLe (a b : List String) : Bool :=
  String.intercalate "/" a ≤ String.intercalate "/" b

/-- `filepath.Walk` of the packer: every directory and file strictly
under the root, hidden subtrees skipped, in lexical order, emitted with
archive-relative names. -/
def walkEntries (fs : FSR) (dirPath : List String) : List TarEntry :=
  let subdirs := fs.dirs.filter
    (fun d => dirPath.isPrefixOf d && d ≠ dirPath && visibleRel (d.drop dirPath.length))
  let subfiles := fs.files.filter
    (fun f => dirPath.isPrefixOf f.1 && f.1 ≠ dirPath && visibleRel (f.1.drop dirPath.length))
  let paths := (subdirs.map (fun d => (d.drop dirPath.length, EntryKind.dir, ""))) ++
    (subfiles.map (fun f => (f.1.drop dirPath.length, EntryKind.reg, f.2)))
  let sorted := paths.mergeSort (fun a b => pathLe a.1 b.1)
  sorted.map (fun p => ⟨String.intercalate "/" p.1, p.2.1, p.2.2⟩)

/-- `PackDirectory(dirPath)`: a missing path packs to the empty string,
a non-directory is an error, a directory packs its walked entries. -/
def PackDirectory (fs : FSR) (dirPath : List String) : Except String Blob :=
  if dirPath ∈ fs.dirs then .ok (some (walkEntries fs dirPath))
  else if (lookupKey fs.files dirPath).isSome then
    .error "path is not a directory"
  else .ok none

/-! ## Lemmas about the merge loops -/

mutual

theorem JVal.beq_refl : ∀ v : JVal, v.beq v = true
  | .null => rfl
  | .bool b => by simp [JVal.beq]
  | .num n => by simp [JVal.beq]
  | .str s => by simp [JVal.beq]
  | .arr xs => by simp [JVal.beq, JVal.listBeq_refl xs]
  | .obj xs => by simp [JVal.beq, JVal.objBeq_refl xs]

theorem JVal.listBeq_refl : ∀ xs : List JVal, JVal.listBeq xs xs = true
  | [] => rfl
  | x :: xs => by simp [JVal.listBeq, JVal.beq_refl x, JVal.listBeq_refl xs]

theorem JVal.objBeq_refl : ∀ xs : List (String × JVal), JVal.objBeq xs xs = true
  | [] => rfl
  | (k, v) :: xs => by simp [JVal.objBeq, JVal.beq_refl v, JVal.objBeq_refl xs]

end


theorem lookupKey_ne_nil {α : Type} {m : List (String × α)} {k : String} {v : α}
    (h : lookupKey m k = some v) : m ≠ [] := by
  intro he; subst he; simp [lookupKey] at h

theorem keysOf_cons {α : Type} (kv : String × α) (rest : List (String × α)) :
    keysOf (kv :: rest) = kv.1 :: keysOf rest := rfl

theorem mem_keysOf {α : Type} {m : List (String × α)} {k : String} {v : α}
    (h : (k, v) ∈ m) : k ∈ keysOf m := List.mem_map_of_mem Prod.fst h

theorem not_mem_keysOf_cons {α : Type} {kv : String × α} {rest : List (String × α)}
    {k : String} (h : k ∉ keysOf (kv :: rest)) : kv.1 ≠ k ∧ k ∉ keysOf rest := by
  rw [keysOf_cons] at h
  exact ⟨fun he => h (he ▸ List.mem_cons_self _ _),
         fun hin => h (List.mem_cons_of_mem _ hin)⟩

theorem nodup_keysOf_cons {α : Type} {kv : String × α} {rest : List (String × α)}
    (h : (keysOf (kv :: rest)).Nodup) : kv.1 ∉ keysOf rest ∧ (keysOf rest).Nodup := by
  rw [keysOf_cons] at h
  exact ⟨(List.nodup_cons.1 h).1, (List.nodup_cons.1 h).2⟩

theorem overlay_preserve (remote : JObj) (init : JObj × Bool) (k : String)
    (h : k ∉ keysOf remote) :
    lookupKey (remote.foldl overlayStep init).1 k = lookupKey init.1 k := by
  induction remote generalizing init with
  | nil => rfl
  | cons kv rest ih =>
    obtain ⟨h1, h2⟩ := not_mem_keysOf_cons h
    rw [List.foldl_cons, ih _ h2]
    simp [overlayStep, lookupKey_setKey_ne _ _ _ _ h1]

theorem overlay_hit (remote : JObj) (init : JObj × Bool) (k : String) (v : JVal)
    (hnd : (keysOf remote).Nodup) (hmem : (k, v) ∈ remote) :
    lookupKey (remote.foldl overlayStep init).1 k = some v := by
  induction remote generalizing init with
  | nil => simp at hmem
  | cons kv rest ih =>
    obtain ⟨hnd1, hnd2⟩ := nodup_keysOf_cons hnd
    rcases List.mem_cons.1 hmem with h | h
    · have hk : kv.1 = k := (Prod.ext_iff.1 h.symm).1
      have hv : kv.2 = v := (Prod.ext_iff.1 h.symm).2
      have hnotin : k ∉ keysOf rest := hk ▸ hnd1
      rw [List.foldl_cons, overlay_preserve _ _ _ hnotin]
      simp [overlayStep, hk, hv, lookupKey_setKey_self]
    · rw [List.foldl_cons]
      exact ih _ hnd2 h

theorem overlayOthers_cons (kv : String × JVal) (rest : List (String × JVal)) (o : JObj) :
    overlayOthers (kv :: rest) o =
      overlayOthers rest
        (if kv.1 = "mcpServers" ∨ kv.1 = "projects" then o else setKey o kv.1 kv.2) := by
  rw [overlayOthers, overlayOthers, List.foldl_cons]

theorem overlayOthers_preserve (remote : JObj) (o : JObj) (k : String)
    (h : k ∉ keysOf remote ∨ k = "mcpServers" ∨ k = "projects") :
    lookupKey (overlayOthers remote o) k = lookupKey o k := by
  induction remote generalizing o with
  | nil => rfl
  | cons kv rest ih =>
    rw [overlayOthers_cons]
    rcases h with h | h
    · obtain ⟨h1, h2⟩ := not_mem_keysOf_cons h
      rw [ih _ (Or.inl h2)]
      by_cases hreg : kv.1 = "mcpServers" ∨ kv.1 = "projects"
      · simp [hreg]
      · simp [hreg, lookupKey_setKey_ne _ _ _ _ h1]
    · rw [ih _ (Or.inr h)]
      by_cases hreg : kv.1 = "mcpServers" ∨ kv.1 = "projects"
      · simp [hreg]
      · have h1 : kv.1 ≠ k := by
          rcases h with h | h <;> (intro he; rw [he, h] at hreg; simp at hreg)
        simp [hreg, lookupKey_setKey_ne _ _ _ _ h1]

theorem overlayOthers_hit (remote : JObj) (o : JObj) (k : String) (v : JVal)
    (hnd : (keysOf remote).Nodup) (hmem : (k, v) ∈ remote)
    (h1 : k ≠ "mcpServers") (h2 : k ≠ "projects") :
    lookupKey (overlayOthers remote o) k = some v := by
  induction remote generalizing o with
  | nil => simp at hmem
  | cons kv rest ih =>
    obtain ⟨hnd1, hnd2⟩ := nodup_keysOf_cons hnd
    rcases List.mem_cons.1 hmem with h | h
    · have hk : kv.1 = k := (Prod.ext_iff.1 h.symm).1
      have hv : kv.2 = v := (Prod.ext_iff.1 h.symm).2
      have hnotin : k ∉ keysOf rest := hk ▸ hnd1
      have hreg : ¬(kv.1 = "mcpServers" ∨ kv.1 = "projects") := by
        rw [hk]; simp [h1, h2]
      rw [overlayOthers_cons, overlayOthers_preserve _ _ _ (Or.inl hnotin), hk, hv]
      simp [h1, h2, lookupKey_setKey_self]
    · rw [overlayOthers_cons]
      exact ih _ hnd2 h

theorem keepLocalAddMissing_cons (kv : String × JVal) (rest : List (String × JVal))
    (init : JObj × Bool) :
    keepLocalAddMissing (kv :: rest) init =
      keepLocalAddMissing rest
        (match lookupKey init.1 kv.1 with
         | some _ => init
         | none => (setKey init.1 kv.1 kv.2, true)) := by
  rw [keepLocalAddMissing, keepLocalAddMissing, List.foldl_cons]

theorem addMissing_keep (remote : JObj) (init : JObj × Bool) (k : String) (v : JVal)
    (h : lookupKey init.1 k = some v) :
    lookupKey (keepLocalAddMissing remote init).1 k = some v := by
  induction remote generalizing init with
  | nil => exact h
  | cons kv rest ih =>
    rw [keepLocalAddMissing_cons]
    rcases hl : lookupKey init.1 kv.1 with _ | w
    · by_cases hk : kv.1 = k
      · rw [hk, h] at hl; cases hl
      · exact ih _ (by simpa [lookupKey_setKey_ne _ _ _ _ hk] using h)
    · exact ih _ h

theorem addMissing_preserve (remote : JObj) (init : JObj × Bool) (k : String)
    (h : k ∉ keysOf remote) :
    lookupKey (keepLocalAddMissing remote init).1 k = lookupKey init.1 k := by
  induction remote generalizing init with
  | nil => rfl
  | cons kv rest ih =>
    obtain ⟨h1, h2⟩ := not_mem_keysOf_cons h
    rw [keepLocalAddMissing_cons]
    rcases hl : lookupKey init.1 kv.1 with _ | w
    · simpa [lookupKey_setKey_ne _ _ _ _ h1] using ih (setKey init.1 kv.1 kv.2, true) h2
    · exact ih init h2

theorem addMissing_hit (remote : JObj) (init : JObj × Bool) (k : String) (v : JVal)
    (hnd : (keysOf remote).Nodup) (hmem : (k, v) ∈ remote)
    (h : lookupKey init.1 k = none) :
    lookupKey (keepLocalAddMissing remote init).1 k = some v := by
  induction remote generalizing init with
  | nil => simp at hmem
  | cons kv rest ih =>
    obtain ⟨hnd1, hnd2⟩ := nodup_keysOf_cons hnd
    rcases List.mem_cons.1 hmem with hh | hh
    · have hk : kv.1 = k := (Prod.ext_iff.1 hh.symm).1
      have hv : kv.2 = v := (Prod.ext_iff.1 hh.symm).2
      have hnotin : k ∉ keysOf rest := hk ▸ hnd1
      rw [keepLocalAddMissing_cons, hk, h, addMissing_preserve _ _ _ hnotin]
      simp [hv, lookupKey_setKey_self]
    · have hk : kv.1 ≠ k := fun he => hnd1 (he ▸ mem_keysOf hh)
      rw [keepLocalAddMissing_cons]
      rcases hl : lookupKey init.1 kv.1 with _ | w
      · exact ih _ hnd2 hh (by simpa [lookupKey_setKey_ne _ _ _ _ hk] using h)
      · exact ih _ hnd2 hh h

/-! ## Status computation: I1 and the first-sync rule (C1, C2) -/

theorem computeStatus_ok {env : EngineEnv} {state : SyncStateR} {g : GistR}
    {statuses : List ItemStatusR} {info : StatusInfoR}
    (h : computeStatus env state g = .ok (statuses, info)) :
    ∃ meta0, (statuses, info) = computeStatusCore env state g meta0 := by
  unfold computeStatus at h
  rcases hm : readSyncMeta env.parseMeta
      (match lookupKey g.files syncMetaFile with | some c => c | none => "") with e | m
  · rw [hm] at h; cases h
  · rw [hm] at h
    exact ⟨m, by cases h; rfl⟩

theorem computeStatusCore_fst (env : EngineEnv) (state : SyncStateR) (g : GistR)
    (meta0 : SyncMeta) :
    (computeStatusCore env state g meta0).1 =
      (env.items.map (mkSnapshot env state g)).map
        (classifySnapshot (computeStatusCore env state g meta0).2.direction) := rfl

theorem mkSnapshot_fields (env : EngineEnv) (state : SyncStateR) (g : GistR)
    (item : SyncItemR) :
    (mkSnapshot env state g item).status.status = .error ∨
      ((mkSnapshot env state g item).status.status = .new ∧
       (mkSnapshot env state g item).status.localHash = (mkSnapshot env state g item).localHash ∧
       (mkSnapshot env state g item).status.remoteHash = (mkSnapshot env state g item).remoteHash) := by
  unfold mkSnapshot
  rcases h : env.localHashOf item.name with e | lh
  · exact Or.inl rfl
  · exact Or.inr ⟨rfl, rfl, rfl⟩

theorem classify_status_of_error (dir : SyncDirection) (snap : SnapshotR)
    (h : snap.status.status = .error) : classifySnapshot dir snap = snap.status := by
  simp [classifySnapshot, h]

theorem classify_hash_eq (dir : SyncDirection) (snap : SnapshotR)
    (hok : snap.status.status ≠ .error)
    (hfl : snap.status.localHash = snap.localHash)
    (hfr : snap.status.remoteHash = snap.remoteHash)
    (heq : (classifySnapshot dir snap).localHash = (classifySnapshot dir snap).remoteHash) :
    (classifySnapshot dir snap).status = .synced := by
  by_cases hlr : snap.localHash = snap.remoteHash
  · simp [classifySnapshot, hok, hlr]
  · exfalso
    apply hlr
    rw [← hfl, ← hfr]
    simpa [classifySnapshot, hok] using heq

/-- C1: in a status computation, every item whose canonical hashes were
computed (no per-item error) and agree is reported `synced`, whatever
the persisted version, the remote meta version or the global direction
(Invariant I1). -/
theorem c1_equal_hashes_imply_synced (env : EngineEnv) (state : SyncStateR) (g : GistR)
    (statuses : List ItemStatusR) (info : StatusInfoR)
    (hrun : computeStatus env state g = .ok (statuses, info))
    (st : ItemStatusR) (hmem : st ∈ statuses)
    (herr : st.status ≠ .error)
    (heq : st.localHash = st.remoteHash) :
    st.status = .synced := by
  obtain ⟨meta0, hcore⟩ := computeStatus_ok hrun
  have hfst : statuses = (env.items.map (mkSnapshot env state g)).map
      (classifySnapshot (computeStatusCore env state g meta0).2.direction) := by
    have h1 : statuses = (computeStatusCore env state g meta0).1 :=
      congrArg Prod.fst hcore
    rw [h1, computeStatusCore_fst]
  rw [hfst] at hmem
  obtain ⟨snap, hsnap, hst⟩ := List.mem_map.1 hmem
  obtain ⟨item, hitem, hmk⟩ := List.mem_map.1 hsnap
  subst hst
  subst hmk
  rcases mkSnapshot_fields env state g item with he | ⟨h1, h2, h3⟩
  · exact absurd (by rw [classify_status_of_error _ _ he]; exact he) herr
  · exact classify_hash_eq _ _ (by rw [h1]; decide) h2 h3 heq

/-- C1 witness: a concrete one-item run with matching hashes. -/
theorem c1_witness :
    (⟨"settings", .synced, "H(x)", "H(x)", none⟩ : ItemStatusR).status = .synced := by
  refine c1_equal_hashes_imply_synced
    ⟨[⟨"settings", "settings.json", "file"⟩],
     fun _ => .ok ⟨1, repoURL⟩,
     fun c => "H(" ++ c ++ ")",
     fun _ => .ok "H(x)",
     fun _ => .ok (some "x"), "", false⟩
    ⟨1, [("settings", ⟨"H(x)", "H(x)"⟩)]⟩
    ⟨[("settings.json", "x"), (syncMetaFile, "m")]⟩
    [⟨"settings", .synced, "H(x)", "H(x)", none⟩]
    ⟨⟨1, repoURL⟩, false, 1, 1, 1, false, false, .synced⟩
    (by rfl) _ (List.mem_singleton.2 rfl) (by decide) rfl

theorem computeStatusCore_direction (env : EngineEnv) (state : SyncStateR) (g : GistR)
    (meta0 : SyncMeta) :
    (computeStatusCore env state g meta0).2.direction =
      computeDirection state.version (computeStatusCore env state g meta0).2.remoteVersion
        (computeStatusCore env state g meta0).2.localVersion
        (computeStatusCore env state g meta0).2.effectiveRemoteVersion
        (computeStatusCore env state g meta0).2.localDirty
        (computeStatusCore env state g meta0).2.remoteDirty := rfl

/-- C2 counterexample: a fresh replica (`state.Version = 0`) against a
remote whose meta version is 5, with no item changed on either side,
is classified `synced`, not `remote`: the clean-case arm of the switch
precedes the first-sync special case. -/
theorem c2_counterexample :
    (0 : Int) = 0 ∧ (5 : Int) > 0 ∧
    computeStatus
      ⟨[⟨"settings", "settings.json", "file"⟩],
       fun _ => .ok ⟨5, repoURL⟩,
       fun c => "H(" ++ c ++ ")",
       fun _ => .ok "H(x)",
       fun _ => .ok (some "x"), "", false⟩
      ⟨0, [("settings", ⟨"H(x)", "H(x)"⟩)]⟩
      ⟨[("settings.json", "x"), (syncMetaFile, "m")]⟩ =
      .ok ([⟨"settings", .synced, "H(x)", "H(x)", none⟩],
           ⟨⟨5, repoURL⟩, false, 5, 5, 0, false, false, .synced⟩) ∧
    SyncDirection.synced ≠ SyncDirection.remoteDir :=
  ⟨rfl, by decide, by rfl, by decide⟩

/-- C2 (amended): when the persisted local version is 0, the remote
meta version is positive, and at least one side is dirty, the direction
is forced to `remote`; with neither side dirty the run is `synced`
(that arm of the switch comes first). -/
theorem c2_fresh_replica_defers_to_remote (env : EngineEnv) (state : SyncStateR)
    (g : GistR) (statuses : List ItemStatusR) (info : StatusInfoR)
    (hrun : computeStatus env state g = .ok (statuses, info))
    (hv : state.version = 0) (hr : info.remoteVersion > 0)
    (hd : info.localDirty = true ∨ info.remoteDirty = true) :
    info.direction = .remoteDir := by
  obtain ⟨meta0, hcore⟩ := computeStatus_ok hrun
  have hinfo : info = (computeStatusCore env state g meta0).2 :=
    congrArg Prod.snd hcore
  rw [hinfo, computeStatusCore_direction, ← hinfo]
  unfold computeDirection
  have hnd : ¬(!info.localDirty && !info.remoteDirty) = true := by
    rcases hd with h | h <;> simp [h]
  rw [if_neg hnd, if_pos ⟨hv, hr⟩]

/-- C2 witness: a fresh replica with a locally changed item against a
version-5 remote is directed to `remote`. -/
theorem c2_witness :
    (⟨⟨5, repoURL⟩, false, 5, 5, 1, true, false,
      .remoteDir⟩ : StatusInfoR).direction = .remoteDir := by
  refine c2_fresh_replica_defers_to_remote
    ⟨[⟨"settings", "settings.json", "file"⟩],
     fun _ => .ok ⟨5, repoURL⟩,
     fun c => "H(" ++ c ++ ")",
     fun _ => .ok "H(y)",
     fun _ => .ok (some "y"), "", false⟩
    ⟨0, [("settings", ⟨"H(x)", "H(x)"⟩)]⟩
    ⟨[("settings.json", "x"), (syncMetaFile, "m")]⟩
    [⟨"settings", .localAhead, "H(y)", "H(x)", none⟩]
    ⟨⟨5, repoURL⟩, false, 5, 5, 1, true, false, .remoteDir⟩
    (by rfl) rfl (by decide) (Or.inl rfl)


/-! ## Version monotonicity (C4, C3) -/

theorem push_ok_core {env : EngineEnv} {state : SyncStateR} {g : GistR}
    {si : List ItemStatusR × StatusInfoR} (d f : Bool)
    (h : computeStatus env state g = .ok si) :
    push env state g d f = .ok (pushCore env state d f si) := by
  unfold push; rw [h]

theorem pull_ok_core {env : EngineEnv} {oc : PullOracles} {state : SyncStateR} {g : GistR}
    {si : List ItemStatusR × StatusInfoR} (d f : Bool)
    (h : computeStatus env state g = .ok si) :
    pull env oc state g d f = .ok (pullCore env oc state g d f si) := by
  unfold pull; rw [h]

theorem ensure_version (m : SyncMeta) : ((ensureSyncMetaRepo m).1).version = m.version := by
  unfold ensureSyncMetaRepo
  split <;> rfl

theorem ite_eff_ge (rd : Bool) (rv sv : Int) :
    rv ≤ (if rd && decide (rv ≤ sv) then sv + 1 else rv) := by
  by_cases h : (rd && decide (rv ≤ sv)) = true
  · rw [if_pos h]
    simp only [Bool.and_eq_true, decide_eq_true_eq] at h
    omega
  · rw [if_neg h]

theorem core_eff_ge (env : EngineEnv) (state : SyncStateR) (g : GistR) (meta0 : SyncMeta) :
    (computeStatusCore env state g meta0).2.remoteVersion ≤
      (computeStatusCore env state g meta0).2.effectiveRemoteVersion :=
  ite_eff_ge _ _ _

theorem pushCore_monotone (env : EngineEnv) (state : SyncStateR) (d f : Bool)
    (si : List ItemStatusR × StatusInfoR) :
    state.version ≤ (pushCore env state d f si).stateAfter.version ∧
      (∀ m, (pushCore env state d f si).metaWritten = some m →
        (si.2.meta.version ≤ m.version ∧ state.version ≤ m.version) ∨
        m.version = max (max si.2.meta.version state.version) si.2.remoteVersion + 1) := by
  unfold pushCore
  dsimp only
  set acc := List.foldl (pushStep env f) ⟨[], [], []⟩ si.1 with hacc
  by_cases h1 : (!d && !acc.updates.isEmpty) = true
  · simp only [h1, if_true]
    constructor
    · rw [ensure_version]
      by_cases h : si.2.meta.version < state.version <;> simp only [h, if_pos, if_neg,
        ite_true, ite_false] <;> omega
    · intro m hm
      cases hm
      right
      rw [ensure_version]
      by_cases h : si.2.meta.version < state.version <;>
        simp only [h, ite_true, ite_false] <;> omega
  · simp only [h1, if_false, Bool.false_eq_true, ite_false]
    by_cases h2 : (!d && acc.updates.isEmpty && si.2.metaNeedsUpdate) = true
    · simp only [h2, if_true]
      refine ⟨le_refl _, fun m hm => ?_⟩
      cases hm
      left
      rw [ensure_version]
      by_cases h : si.2.meta.version < state.version <;>
        simp only [h, ite_true, ite_false] <;> omega
    · simp only [h2, if_false, Bool.false_eq_true, ite_false]
      exact ⟨le_refl _, fun m hm => by cases hm⟩

theorem pullCore_monotone (env : EngineEnv) (oc : PullOracles) (state : SyncStateR)
    (g : GistR) (d f : Bool) (si : List ItemStatusR × StatusInfoR) :
    state.version ≤ (pullCore env oc state g d f si).stateAfter.version ∧
      (∀ m, (pullCore env oc state g d f si).metaWritten = some m →
        m.version = si.2.effectiveRemoteVersion) := by
  unfold pullCore
  dsimp only
  set fin := List.foldl (pullStep env oc g f d)
    ⟨[], [], [], env.autoYes, false, oc.confirms, false⟩ si.1 with hfin
  by_cases hab : fin.aborted = true
  · simp only [hab, if_true]
    exact ⟨le_refl _, fun m hm => by cases hm⟩
  · simp only [hab, if_false, Bool.false_eq_true, ite_false]
    by_cases hd : d = true
    · simp only [hd, if_true]
      exact ⟨le_refl _, fun m hm => by cases hm⟩
    · simp only [hd, if_false, Bool.false_eq_true, ite_false]
      constructor
      · by_cases h : si.2.effectiveRemoteVersion > state.version <;>
          simp only [h, ite_true, ite_false] <;> omega
      · intro m hm
        by_cases h2 : (fin.appliedAny &&
            (decide (si.2.effectiveRemoteVersion > si.2.remoteVersion) ||
             si.2.metaNeedsUpdate)) = true
        · simp only [h2, if_true] at hm
          cases hm
          rw [ensure_version]
        · simp only [h2, if_false, Bool.false_eq_true, ite_false] at hm
          cases hm

theorem setKey_ne_nil {κ α : Type} [DecidableEq κ] (m : List (κ × α)) (k : κ) (v : α) :
    setKey m k v ≠ [] := by
  cases m with
  | nil => simp [setKey]
  | cons hd tl =>
    obtain ⟨k0, w⟩ := hd
    by_cases h : k0 = k <;> simp [setKey, h]

theorem pushStep_shape (env : EngineEnv) (force : Bool) (acc : PushAcc)
    (s : ItemStatusR) :
    ∃ δr δu, (pushStep env force acc s).results = acc.results ++ δr ∧
      (pushStep env force acc s).uploaded = acc.uploaded ++ δu ∧
      List.Sublist (δr.map (·.name)) [s.name] ∧
      ∀ p ∈ δu, ∃ r ∈ δr, r.name = p.1 ∧ r.status = .synced ∧
        r.localHash = env.hash p.2 := by
  unfold pushStep
  rcases hfi : findItem env s.name with _ | item
  · exact ⟨[], [], by simp, by simp, by simp, by simp⟩
  · dsimp only
    have hname : item.name = s.name := by
      have := List.find?_some hfi
      simpa using this
    have hupl : ∃ δr δu, (pushUpload env acc item s).results = acc.results ++ δr ∧
        (pushUpload env acc item s).uploaded = acc.uploaded ++ δu ∧
        List.Sublist (δr.map (·.name)) [s.name] ∧
        ∀ p ∈ δu, ∃ r ∈ δr, r.name = p.1 ∧ r.status = .synced ∧
          r.localHash = env.hash p.2 := by
      unfold pushUpload
      rcases hc : env.localContentOf item.name with e | oc
      · exact ⟨[{ s with errMsg := some e, status := .error }], [],
          by simp, by simp, by simp, by simp⟩
      · rcases oc with _ | content
        · exact ⟨[s], [], by simp, by simp, by simp, by simp⟩
        · refine ⟨[{ s with localHash := env.hash content, status := .synced }],
            [(item.name, content)], by simp, by simp, by simp, ?_⟩
          intro p hp
          rcases List.mem_singleton.1 hp with rfl
          exact ⟨_, List.mem_singleton.2 rfl, hname.symm, rfl, rfl⟩
    cases hs : s.status <;> dsimp only
    · exact ⟨[s], [], by simp, by simp, by simp, by simp⟩
    · exact hupl
    · exact ⟨[⟨s.name, .remoteAhead, s.localHash, s.remoteHash,
          some "remote is ahead, run pull first"⟩], [],
        by simp [hs], by simp, by simp, by simp⟩
    · by_cases hf : force = true
      · rw [if_pos hf]
        exact hupl
      · rw [if_neg hf]
        exact ⟨[⟨s.name, .conflict, s.localHash, s.remoteHash,
            some "conflict detected, use --force to override"⟩], [],
          by simp [hs], by simp, by simp, by simp⟩
    · exact ⟨[s], [], by simp, by simp, by simp, by simp⟩
    · exact hupl

theorem pushFold_shape (env : EngineEnv) (force : Bool) :
    ∀ (statuses : List ItemStatusR) (acc : PushAcc),
    ∃ δr δu, (statuses.foldl (pushStep env force) acc).results = acc.results ++ δr ∧
      (statuses.foldl (pushStep env force) acc).uploaded = acc.uploaded ++ δu ∧
      List.Sublist (δr.map (·.name)) (statuses.map (·.name)) ∧
      ∀ p ∈ δu, ∃ r ∈ δr, r.name = p.1 ∧ r.status = .synced ∧
        r.localHash = env.hash p.2
  | [], acc => ⟨[], [], by simp, by simp, by simp, by simp⟩
  | s :: rest, acc => by
    obtain ⟨δr1, δu1, h1r, h1u, h1s, h1p⟩ := pushStep_shape env force acc s
    obtain ⟨δr2, δu2, h2r, h2u, h2s, h2p⟩ :=
      pushFold_shape env force rest (pushStep env force acc s)
    refine ⟨δr1 ++ δr2, δu1 ++ δu2, ?_, ?_, ?_, ?_⟩
    · rw [List.foldl_cons, h2r, h1r, List.append_assoc]
    · rw [List.foldl_cons, h2u, h1u, List.append_assoc]
    · simpa using List.Sublist.append h1s h2s
    · intro p hp
      rcases List.mem_append.1 hp with hp | hp
      · obtain ⟨r, hr, h⟩ := h1p p hp
        exact ⟨r, List.mem_append.1 (List.mem_append_left _ hr) |>.elim
          (fun h => List.mem_append_left _ h) (fun h => List.mem_append_right _ h), h⟩
      · obtain ⟨r, hr, h⟩ := h2p p hp
        exact ⟨r, List.mem_append_right _ hr, h⟩

theorem pushStep_updates_inv (env : EngineEnv) (force : Bool) (acc : PushAcc)
    (s : ItemStatusR) (h : acc.updates.isEmpty → acc.uploaded = []) :
    (pushStep env force acc s).updates.isEmpty → (pushStep env force acc s).uploaded = [] := by
  unfold pushStep
  rcases hfi : findItem env s.name with _ | item
  · exact h
  · dsimp only
    have hupl : (pushUpload env acc item s).updates.isEmpty →
        (pushUpload env acc item s).uploaded = [] := by
      unfold pushUpload
      rcases hc : env.localContentOf item.name with e | oc
      · exact h
      · rcases oc with _ | content
        · exact h
        · intro hemp
          exfalso
          have := setKey_ne_nil acc.updates item.gistFile content
          simp [List.isEmpty_iff] at hemp
          exact this hemp
    cases s.status <;> dsimp only
    · exact h
    · exact hupl
    · exact h
    · by_cases hf : force = true
      · rw [if_pos hf]; exact hupl
      · rw [if_neg hf]; exact h
    · exact h
    · exact hupl

theorem pushFold_updates_inv (env : EngineEnv) (force : Bool) :
    ∀ (statuses : List ItemStatusR) (acc : PushAcc),
      (acc.updates.isEmpty → acc.uploaded = []) →
      ((statuses.foldl (pushStep env force) acc).updates.isEmpty →
        (statuses.foldl (pushStep env force) acc).uploaded = [])
  | [], _, h => h
  | s :: rest, acc, h => by
    rw [List.foldl_cons]
    exact pushFold_updates_inv env force rest _ (pushStep_updates_inv env force acc s h)

theorem pushStateItems_cons (r : ItemStatusR) (rs : List ItemStatusR)
    (items : List (String × ItemStateR)) :
    pushStateItems (r :: rs) items =
      pushStateItems rs
        (if r.status = .synced && r.localHash != "" then
          setKey items r.name ⟨r.localHash, r.localHash⟩
        else items) := by
  rw [pushStateItems, pushStateItems, List.foldl_cons]

theorem pushStateItems_preserve (results : List ItemStatusR)
    (items : List (String × ItemStateR)) (n : String)
    (h : ∀ r ∈ results, r.name ≠ n) :
    lookupKey (pushStateItems results items) n = lookupKey items n := by
  induction results generalizing items with
  | nil => rfl
  | cons r rs ih =>
    rw [pushStateItems_cons]
    have hr : r.name ≠ n := h r (List.mem_cons_self _ _)
    by_cases hcond : (r.status = .synced && r.localHash != "") = true
    · rw [if_pos hcond, ih _ (fun r' hr' => h r' (List.mem_cons_of_mem _ hr'))]
      exact lookupKey_setKey_ne _ _ _ _ hr
    · rw [if_neg hcond, ih _ (fun r' hr' => h r' (List.mem_cons_of_mem _ hr'))]

theorem pushStateItems_hit (results : List ItemStatusR)
    (items : List (String × ItemStateR)) (r : ItemStatusR)
    (hnd : (results.map (·.name)).Nodup) (hmem : r ∈ results)
    (hs : r.status = .synced) (hh : r.localHash ≠ "") :
    lookupKey (pushStateItems results items) r.name =
      some ⟨r.localHash, r.localHash⟩ := by
  induction results generalizing items with
  | nil => simp at hmem
  | cons a rs ih =>
    have hnd1 : a.name ∉ rs.map (·.name) := (List.nodup_cons.1 hnd).1
    have hnd2 : (rs.map (·.name)).Nodup := (List.nodup_cons.1 hnd).2
    rw [pushStateItems_cons]
    rcases List.mem_cons.1 hmem with rfl | hmem2
    · have hcond : (r.status = .synced && r.localHash != "") = true := by
        simp [hs, hh]
      rw [if_pos hcond]
      have hpre : ∀ r2 ∈ rs, r2.name ≠ r.name := by
        intro r2 hr2 hn
        exact hnd1 (by rw [← hn]; exact List.mem_map_of_mem _ hr2)
      rw [pushStateItems_preserve _ _ _ hpre]
      exact lookupKey_setKey_self _ _ _
    · exact ih _ hnd2 hmem2

theorem pushCore_uploaded (env : EngineEnv) (state : SyncStateR) (d f : Bool)
    (si : List ItemStatusR × StatusInfoR) :
    (pushCore env state d f si).uploaded =
      (List.foldl (pushStep env f) ⟨[], [], []⟩ si.1).uploaded := by
  unfold pushCore
  by_cases h1 : (!d && !(List.foldl (pushStep env f) ⟨[], [], []⟩ si.1).updates.isEmpty) = true
  · simp only [h1, if_true]
  · simp only [h1, if_false, Bool.false_eq_true, ite_false]
    by_cases h2 : (!d && (List.foldl (pushStep env f) ⟨[], [], []⟩ si.1).updates.isEmpty &&
        si.2.metaNeedsUpdate) = true
    · simp only [h2, if_true]
    · simp only [h2, if_false, Bool.false_eq_true, ite_false]

/-- C3: a push that uploads at least one item writes
`max(remote meta version, local version) + 1` both to the remote meta
and to the persisted local version, and records Item State
`(newHash, newHash)` for every uploaded item, `newHash` being the hash
of the uploaded content. -/
theorem c3_push_bumps_version_and_records_state
    (env : EngineEnv) (state : SyncStateR) (g : GistR) (force : Bool)
    (out : PushOutcome) (statuses : List ItemStatusR) (info : StatusInfoR)
    (hstat : computeStatus env state g = .ok (statuses, info))
    (hpush : push env state g false force = .ok out)
    (hnd : (statuses.map (·.name)).Nodup)
    (hup : out.uploaded ≠ [])
    (hhash : ∀ p ∈ out.uploaded, env.hash p.2 ≠ "") :
    (∃ m, out.metaWritten = some m ∧
      m.version = max info.remoteVersion state.version + 1 ∧
      out.stateAfter.version = m.version) ∧
    ∀ p ∈ out.uploaded,
      lookupKey out.stateAfter.items p.1 = some ⟨env.hash p.2, env.hash p.2⟩ := by
  have h := push_ok_core false force hstat
  rw [hpush] at h
  have hout : out = pushCore env state false force (statuses, info) := by injection h
  subst hout
  obtain ⟨meta0, hcore⟩ := computeStatus_ok hstat
  have hrv : info.remoteVersion = info.meta.version := by
    have hinfo : info = (computeStatusCore env state g meta0).2 :=
      congrArg Prod.snd hcore
    rw [hinfo]; rfl
  have hupl_eq : (pushCore env state false force (statuses, info)).uploaded =
      (List.foldl (pushStep env force) ⟨[], [], []⟩ statuses).uploaded :=
    pushCore_uploaded env state false force (statuses, info)
  set acc := List.foldl (pushStep env force) ⟨[], [], []⟩ statuses with hacc
  have hinv : acc.updates.isEmpty → acc.uploaded = [] :=
    pushFold_updates_inv env force statuses ⟨[], [], []⟩ (by simp)
  have hb : (!false && !acc.updates.isEmpty) = true := by
    by_cases he : acc.updates.isEmpty
    · rw [hupl_eq] at hup
      exact absurd (hinv he) hup
    · simp [he]
  obtain ⟨δr, δu, hr, hu, hsub, hp⟩ := pushFold_shape env force statuses ⟨[], [], []⟩
  rw [← hacc] at hr hu
  simp only [List.nil_append] at hr hu
  unfold pushCore
  rw [← hacc]
  simp only [hb, if_true]
  constructor
  · refine ⟨_, rfl, ?_, rfl⟩
    rw [ensure_version]
    by_cases hlt : info.meta.version < state.version <;>
      simp only [hlt, ite_true, ite_false] <;> omega
  · intro p hpmem
    have hpmem2 : p ∈ δu := by
      rw [← hu]
      exact hpmem
    obtain ⟨r, hrmem, hrn, hrs, hrh⟩ := hp p hpmem2
    have hrmem2 : r ∈ acc.results := by rw [hr]; exact hrmem
    have hndr : (acc.results.map (·.name)).Nodup := by
      rw [hr]
      exact hsub.nodup hnd
    have hph : env.hash p.2 ≠ "" := hhash p (by rw [hupl_eq]; exact hpmem)
    have hlook := pushStateItems_hit acc.results state.items r hndr hrmem2 hrs (by
      rw [hrh]; exact hph)
    rw [← hrn, hlook, hrh]

/-- C3 witness: the concrete push of one locally-changed item records
`(hash, hash)` for it and bumps the version to `max(1, 1) + 1 = 2`. -/
theorem c3_witness :
    lookupKey [("settings", (⟨"H(y)", "H(y)"⟩ : ItemStateR))] "settings" =
      some ⟨"H(y)", "H(y)"⟩ := by
  have h := c3_push_bumps_version_and_records_state
    ⟨[⟨"settings", "settings.json", "file"⟩],
     fun _ => .ok ⟨1, repoURL⟩,
     fun c => "H(" ++ c ++ ")",
     fun _ => .ok "H(y)",
     fun _ => .ok (some "y"), "", false⟩
    ⟨1, [("settings", ⟨"H(x)", "H(x)"⟩)]⟩
    ⟨[("settings.json", "x"), (syncMetaFile, "m")]⟩
    false
    ⟨[⟨"settings", .synced, "H(y)", "H(x)", none⟩],
     [("settings.json", "y")], [("settings", "y")],
     some ⟨2, repoURL⟩,
     ⟨2, [("settings", ⟨"H(y)", "H(y)"⟩)]⟩⟩
    [⟨"settings", .localAhead, "H(y)", "H(x)", none⟩]
    ⟨⟨1, repoURL⟩, false, 1, 1, 2, true, false, .localDir⟩
    (by rfl) (by rfl) (by simp) (by simp) (by decide)
  exact h.2 ("settings", "y") (List.mem_singleton.2 rfl)

/-! ## Conflict refusal (C5) -/

theorem lookup_none_not_mem {κ α : Type} [DecidableEq κ] {m : List (κ × α)} {k : κ}
    (h : lookupKey m k = none) : ∀ v, (k, v) ∉ m := by
  induction m with
  | nil => simp
  | cons hd tl ih =>
    obtain ⟨k0, w⟩ := hd
    by_cases h0 : k0 = k
    · subst h0; simp [lookupKey] at h
    · simp [lookupKey, h0] at h
      intro v hv
      rcases List.mem_cons.1 hv with he | he
      · exact h0 (Prod.ext_iff.1 he.symm).1
      · exact ih h v he

theorem pullFinishItem_shape (env : EngineEnv) (st : PullLoop) (status : ItemStatusR) :
    (∃ δr, (pullFinishItem env st status).results = st.results ++ δr ∧
      List.Sublist (δr.map (·.name)) [status.name]) ∧
    (pullFinishItem env st status).writes = st.writes ∧
    (∀ m, m ≠ status.name →
      lookupKey (pullFinishItem env st status).keptLocal m = lookupKey st.keptLocal m) ∧
    (pullFinishItem env st status).aborted = st.aborted := by
  unfold pullFinishItem
  by_cases h : (getMergeStrategy env = "local" && status.localHash != status.remoteHash) = true
  · rw [if_pos h]
    exact ⟨⟨[{ status with status := .localAhead }], rfl, by simp⟩, rfl,
      fun m hm => lookupKey_setKey_ne _ _ _ _ (Ne.symm hm), rfl⟩
  · rw [if_neg h]
    exact ⟨⟨[{ status with status := .synced }], rfl, by simp⟩, rfl,
      fun m _ => rfl, rfl⟩

theorem pullRehash_shape (env : EngineEnv) (oc : PullOracles) (st : PullLoop)
    (item : SyncItemR) (status : ItemStatusR) :
    (∃ δr, (pullRehash env oc st item status).results = st.results ++ δr ∧
      List.Sublist (δr.map (·.name)) [status.name]) ∧
    (pullRehash env oc st item status).writes = st.writes ∧
    (∀ m, m ≠ status.name →
      lookupKey (pullRehash env oc st item status).keptLocal m = lookupKey st.keptLocal m) ∧
    (pullRehash env oc st item status).aborted = st.aborted := by
  unfold pullRehash
  rcases h : oc.localHashAfter item.name with e | lh
  · exact ⟨⟨[{ status with errMsg := some e, status := .error }], rfl, by simp⟩, rfl,
      fun m _ => rfl, rfl⟩
  · exact pullFinishItem_shape env st { status with localHash := lh }

theorem pullConfirmed_shape (env : EngineEnv) (oc : PullOracles) (st : PullLoop)
    (item : SyncItemR) (status : ItemStatusR) (prepared : String) (skipWrite : Bool) :
    (∃ δr, (pullConfirmed env oc st item status prepared skipWrite).results =
        st.results ++ δr ∧ List.Sublist (δr.map (·.name)) [status.name]) ∧
    (∀ p ∈ (pullConfirmed env oc st item status prepared skipWrite).writes,
      p ∈ st.writes ∨ p.1 = item.name) ∧
    (∀ m, m ≠ status.name →
      lookupKey (pullConfirmed env oc st item status prepared skipWrite).keptLocal m =
        lookupKey st.keptLocal m) ∧
    (pullConfirmed env oc st item status prepared skipWrite).aborted = st.aborted := by
  unfold pullConfirmed
  by_cases hs : (!skipWrite) = true
  · rw [if_pos hs]
    rcases h : oc.writeLocal item.name prepared with e | u
    · exact ⟨⟨[{ status with errMsg := some e, status := .error }], rfl, by simp⟩,
        fun p hp => Or.inl hp, fun m _ => rfl, rfl⟩
    · obtain ⟨⟨δr, hr, hsub⟩, hw, hk, hab⟩ := pullRehash_shape env oc
        { st with writes := st.writes ++ [(item.name, prepared)], appliedAny := true }
        item status
      refine ⟨⟨δr, by simpa using hr, hsub⟩, ?_, fun m hm => by simpa using hk m hm,
        by simpa using hab⟩
      intro p hp
      rw [hw] at hp
      simp at hp
      rcases hp with hp | hp
      · exact Or.inl hp
      · right
        rw [hp]
  · rw [if_neg hs]
    obtain ⟨⟨δr, hr, hsub⟩, hw, hk, hab⟩ := pullRehash_shape env oc st item status
    exact ⟨⟨δr, hr, hsub⟩, fun p hp => Or.inl (hw ▸ hp), hk, hab⟩

theorem pullApplyNonDry_shape (env : EngineEnv) (oc : PullOracles) (st : PullLoop)
    (item : SyncItemR) (status : ItemStatusR) (remoteContent : String) :
    (∃ δr, (pullApplyNonDry env oc st item status remoteContent).results =
        st.results ++ δr ∧ List.Sublist (δr.map (·.name)) [status.name]) ∧
    (∀ p ∈ (pullApplyNonDry env oc st item status remoteContent).writes,
      p ∈ st.writes ∨ p.1 = item.name) ∧
    (∀ m, m ≠ status.name →
      lookupKey (pullApplyNonDry env oc st item status remoteContent).keptLocal m =
        lookupKey st.keptLocal m) := by
  unfold pullApplyNonDry
  by_cases h0 : (remoteContent = "" && item.itemType != "directory") = true
  · rw [if_pos h0]
    exact ⟨⟨[status], rfl, by simp⟩, fun p hp => Or.inl hp, fun m _ => rfl⟩
  · rw [if_neg h0]
    rcases hpw : oc.prepareWrite item.name remoteContent with e | pw
    · exact ⟨⟨[{ status with errMsg := some e, status := .error }], rfl, by simp⟩,
        fun p hp => Or.inl hp, fun m _ => rfl⟩
    · dsimp only
      by_cases h1 : (item.itemType != "directory" &&
          (if item.itemType != "directory" then (oc.localRead item.name).getD "" else "") != "" &&
          !pw.2) = true
      · rw [if_pos h1]
        rcases hc1 : (nextConfirm st.autoYes st.confirms).1 with _ | _ | _ | _ | _
        · -- yes
          dsimp only
          obtain ⟨⟨δr, hr, hsub⟩, hw, hk, _⟩ := pullConfirmed_shape env oc
            { st with confirms := (nextConfirm st.autoYes st.confirms).2 } item status pw.1 pw.2
          exact ⟨⟨δr, hr, hsub⟩, hw, hk⟩
        · -- no
          dsimp only
          exact ⟨⟨[{ status with status := .localAhead }], rfl, by simp⟩,
            fun p hp => Or.inl hp,
            fun m hm => lookupKey_setKey_ne _ _ _ _ (Ne.symm hm)⟩
        · -- all
          dsimp only
          obtain ⟨⟨δr, hr, hsub⟩, hw, hk, _⟩ := pullConfirmed_shape env oc
            { st with confirms := (nextConfirm st.autoYes st.confirms).2, autoYes := true }
            item status pw.1 pw.2
          exact ⟨⟨δr, hr, hsub⟩, hw, hk⟩
        · -- quit
          dsimp only
          exact ⟨⟨[], by simp, by simp⟩, fun p hp => Or.inl hp, fun m _ => rfl⟩
        · -- preview
          dsimp only
          rcases hc2 : (nextConfirm st.autoYes
              (nextConfirm st.autoYes st.confirms).2).1 with _ | _ | _ | _ | _
          · dsimp only
            obtain ⟨⟨δr, hr, hsub⟩, hw, hk, _⟩ := pullConfirmed_shape env oc
              { st with confirms := (nextConfirm st.autoYes
                  (nextConfirm st.autoYes st.confirms).2).2 } item status pw.1 pw.2
            exact ⟨⟨δr, hr, hsub⟩, hw, hk⟩
          · dsimp only
            exact ⟨⟨[{ status with status := .localAhead }], rfl, by simp⟩,
              fun p hp => Or.inl hp,
              fun m hm => lookupKey_setKey_ne _ _ _ _ (Ne.symm hm)⟩
          · dsimp only
            obtain ⟨⟨δr, hr, hsub⟩, hw, hk, _⟩ := pullConfirmed_shape env oc
              { st with confirms := (nextConfirm st.autoYes
                  (nextConfirm st.autoYes st.confirms).2).2, autoYes := true }
              item status pw.1 pw.2
            exact ⟨⟨δr, hr, hsub⟩, hw, hk⟩
          · dsimp only
            exact ⟨⟨[], by simp, by simp⟩, fun p hp => Or.inl hp, fun m _ => rfl⟩
          · dsimp only
            obtain ⟨⟨δr, hr, hsub⟩, hw, hk, _⟩ := pullConfirmed_shape env oc
              { st with confirms := (nextConfirm st.autoYes
                  (nextConfirm st.autoYes st.confirms).2).2 } item status pw.1 pw.2
            exact ⟨⟨δr, hr, hsub⟩, hw, hk⟩
      · rw [if_neg h1]
        obtain ⟨⟨δr, hr, hsub⟩, hw, hk, _⟩ := pullConfirmed_shape env oc st item status pw.1 pw.2
        exact ⟨⟨δr, hr, hsub⟩, hw, hk⟩

theorem pullFetch_shape (env : EngineEnv) (oc : PullOracles) (g : GistR) (dryRun : Bool)
    (st : PullLoop) (item : SyncItemR) (status : ItemStatusR) :
    (∃ δr, (pullFetch env oc g dryRun st item status).results = st.results ++ δr ∧
      List.Sublist (δr.map (·.name)) [status.name]) ∧
    (∀ p ∈ (pullFetch env oc g dryRun st item status).writes,
      p ∈ st.writes ∨ p.1 = item.name) ∧
    (∀ m, m ≠ status.name →
      lookupKey (pullFetch env oc g dryRun st item status).keptLocal m =
        lookupKey st.keptLocal m) := by
  unfold pullFetch
  rcases lookupKey g.files item.gistFile with _ | remoteContent
  · exact ⟨⟨[status], rfl, by simp⟩, fun p hp => Or.inl hp, fun m _ => rfl⟩
  · dsimp only
    by_cases hd : (!dryRun) = true
    · rw [if_pos hd]
      exact pullApplyNonDry_shape env oc st item status remoteContent
    · rw [if_neg hd]
      obtain ⟨h1, h2, h3, _⟩ := pullFinishItem_shape env st status
      exact ⟨h1, fun p hp => Or.inl (h2 ▸ hp), h3⟩

theorem findItem_name {env : EngineEnv} {n : String} {item : SyncItemR}
    (h : findItem env n = some item) : item.name = n := by
  have := List.find?_some h
  simpa using this

theorem pullStep_shape (env : EngineEnv) (oc : PullOracles) (g : GistR)
    (force dryRun : Bool) (st : PullLoop) (s : ItemStatusR) :
    (∃ δr, (pullStep env oc g force dryRun st s).results = st.results ++ δr ∧
      List.Sublist (δr.map (·.name)) [s.name]) ∧
    (∀ p ∈ (pullStep env oc g force dryRun st s).writes,
      p ∈ st.writes ∨ p.1 = s.name) ∧
    (∀ m, m ≠ s.name →
      lookupKey (pullStep env oc g force dryRun st s).keptLocal m =
        lookupKey st.keptLocal m) := by
  unfold pullStep
  by_cases hab : st.aborted = true
  · rw [if_pos hab]
    exact ⟨⟨[], by simp, by simp⟩, fun p hp => Or.inl hp, fun m _ => rfl⟩
  · rw [if_neg hab]
    rcases hfi : findItem env s.name with _ | item
    · exact ⟨⟨[], by simp, by simp⟩, fun p hp => Or.inl hp, fun m _ => rfl⟩
    · dsimp only
      have hname : item.name = s.name := findItem_name hfi
      have hfetch := pullFetch_shape env oc g dryRun st item s
      rw [hname] at hfetch
      cases s.status <;> dsimp only
      · exact ⟨⟨[s], rfl, by simp⟩, fun p hp => Or.inl hp, fun m _ => rfl⟩
      · exact ⟨⟨[s], rfl, by simp⟩, fun p hp => Or.inl hp, fun m _ => rfl⟩
      · exact hfetch
      · by_cases hf : force = true
        · rw [if_pos hf]
          exact hfetch
        · rw [if_neg hf]
          exact ⟨⟨[⟨s.name, .conflict, s.localHash, s.remoteHash,
            some "conflict detected, use --force to override"⟩],
            rfl, by simp⟩, fun p hp => Or.inl hp, fun m _ => rfl⟩
      · exact ⟨⟨[s], rfl, by simp⟩, fun p hp => Or.inl hp, fun m _ => rfl⟩
      · exact ⟨⟨[], by simp, by simp⟩, fun p hp => Or.inl hp, fun m _ => rfl⟩

theorem pushStep_conflict_eq (env : EngineEnv) (acc : PushAcc) (s : ItemStatusR)
    (item : SyncItemR) (hfi : findItem env s.name = some item)
    (hs : s.status = .conflict) :
    pushStep env false acc s =
      { acc with results := acc.results ++
          [{ s with errMsg := some "conflict detected, use --force to override" }] } := by
  unfold pushStep
  rw [hfi]
  dsimp only
  rw [hs]
  rfl

theorem pullStep_conflict_eq (env : EngineEnv) (oc : PullOracles) (g : GistR)
    (dryRun : Bool) (st : PullLoop) (s : ItemStatusR) (item : SyncItemR)
    (hab : st.aborted = false) (hfi : findItem env s.name = some item)
    (hs : s.status = .conflict) :
    pullStep env oc g false dryRun st s =
      { st with results := st.results ++
          [{ s with errMsg := some "conflict detected, use --force to override" }] } := by
  unfold pullStep
  rw [if_neg (by rw [hab]; exact Bool.false_ne_true)]
  rw [hfi]
  dsimp only
  rw [hs]
  rfl

theorem pullStep_aborted_mono (env : EngineEnv) (oc : PullOracles) (g : GistR)
    (force dryRun : Bool) (st : PullLoop) (s : ItemStatusR)
    (h : (pullStep env oc g force dryRun st s).aborted = false) :
    st.aborted = false := by
  cases hsab : st.aborted
  · rfl
  · unfold pullStep at h
    rw [if_pos hsab] at h
    rw [hsab] at h
    cases h

theorem pullFold_aborted_mono (env : EngineEnv) (oc : PullOracles) (g : GistR)
    (force dryRun : Bool) :
    ∀ (statuses : List ItemStatusR) (st : PullLoop),
    (List.foldl (pullStep env oc g force dryRun) st statuses).aborted = false →
    st.aborted = false
  | [], _, h => h
  | s :: rest, st, h => by
    rw [List.foldl_cons] at h
    exact pullStep_aborted_mono env oc g force dryRun st s
      (pullFold_aborted_mono env oc g force dryRun rest _ h)

theorem pullFold_results_shape (env : EngineEnv) (oc : PullOracles) (g : GistR)
    (force dryRun : Bool) :
    ∀ (statuses : List ItemStatusR) (st : PullLoop),
    ∃ δr, (List.foldl (pullStep env oc g force dryRun) st statuses).results =
      st.results ++ δr
  | [], _ => ⟨[], by simp⟩
  | s :: rest, st => by
    rw [List.foldl_cons]
    obtain ⟨δ1, h1, _⟩ := (pullStep_shape env oc g force dryRun st s).1
    obtain ⟨δ2, h2⟩ := pullFold_results_shape env oc g force dryRun rest
      (pullStep env oc g force dryRun st s)
    exact ⟨δ1 ++ δ2, by rw [h2, h1, List.append_assoc]⟩

theorem pullStep_name (env : EngineEnv) (oc : PullOracles) (g : GistR) (dryRun : Bool)
    (n : String) (st : PullLoop) (s : ItemStatusR)
    (h : s.name = n → s.status = .conflict) :
    (∀ c, (n, c) ∈ (pullStep env oc g false dryRun st s).writes → (n, c) ∈ st.writes) ∧
    lookupKey (pullStep env oc g false dryRun st s).keptLocal n =
      lookupKey st.keptLocal n ∧
    (∀ r ∈ (pullStep env oc g false dryRun st s).results, r.name = n →
      r ∈ st.results ∨ (r.status = .synced && r.remoteHash != "") = false) := by
  by_cases hn : s.name = n
  · have hs := h hn
    by_cases hab : st.aborted = true
    · have heq : pullStep env oc g false dryRun st s = st := by
        unfold pullStep
        rw [if_pos hab]
      rw [heq]
      exact ⟨fun c hc => hc, rfl, fun r hr _ => Or.inl hr⟩
    · rcases hfi : findItem env s.name with _ | item
      · have heq : pullStep env oc g false dryRun st s = st := by
          unfold pullStep
          rw [if_neg hab, hfi]
        rw [heq]
        exact ⟨fun c hc => hc, rfl, fun r hr _ => Or.inl hr⟩
      · rw [pullStep_conflict_eq env oc g dryRun st s item
          (Bool.not_eq_true _ ▸ hab) hfi hs]
        refine ⟨fun c hc => hc, rfl, fun r hr hrn => ?_⟩
        rcases List.mem_append.1 hr with hr | hr
        · exact Or.inl hr
        · right
          rcases List.mem_singleton.1 hr with rfl
          simp [hs]
  · obtain ⟨⟨δr, hres, hsub⟩, hw, hk⟩ := pullStep_shape env oc g false dryRun st s
    refine ⟨fun c hc => ?_, hk n (fun he => hn he.symm), fun r hr hrn => ?_⟩
    · rcases hw (n, c) hc with hc2 | hc2
      · exact hc2
      · exact absurd hc2.symm hn
    · rw [hres] at hr
      rcases List.mem_append.1 hr with hr | hr
      · exact Or.inl hr
      · exfalso
        have : r.name ∈ δr.map (·.name) := List.mem_map_of_mem _ hr
        have := hsub.subset this
        rcases List.mem_singleton.1 this with he
        exact hn (hrn ▸ he.symm)

theorem pullFold_name (env : EngineEnv) (oc : PullOracles) (g : GistR) (dryRun : Bool)
    (n : String) :
    ∀ (statuses : List ItemStatusR) (st : PullLoop),
    (∀ s ∈ statuses, s.name = n → s.status = .conflict) →
    (∀ c, (n, c) ∈ (List.foldl (pullStep env oc g false dryRun) st statuses).writes →
      (n, c) ∈ st.writes) ∧
    lookupKey (List.foldl (pullStep env oc g false dryRun) st statuses).keptLocal n =
      lookupKey st.keptLocal n ∧
    (∀ r ∈ (List.foldl (pullStep env oc g false dryRun) st statuses).results, r.name = n →
      r ∈ st.results ∨ (r.status = .synced && r.remoteHash != "") = false)
  | [], _, _ => ⟨fun _ hc => hc, rfl, fun r hr _ => Or.inl hr⟩
  | s :: rest, st, h => by
    rw [List.foldl_cons]
    obtain ⟨hw1, hk1, hr1⟩ := pullStep_name env oc g dryRun n st s
      (fun he => h s (List.mem_cons_self _ _) he)
    obtain ⟨hw2, hk2, hr2⟩ := pullFold_name env oc g dryRun n rest
      (pullStep env oc g false dryRun st s)
      (fun s2 hs2 he => h s2 (List.mem_cons_of_mem _ hs2) he)
    refine ⟨fun c hc => hw1 c (hw2 c hc), by rw [hk2, hk1], fun r hr hrn => ?_⟩
    rcases hr2 r hr hrn with hr3 | hr3
    · exact hr1 r hr3 hrn
    · exact Or.inr hr3

theorem pullStateItems_fst_cons (r : ItemStatusR) (rs : List ItemStatusR)
    (items : List (String × ItemStateR)) :
    (r :: rs).foldl
      (fun its q =>
        if q.status = .synced && q.remoteHash != "" then
          setKey its q.name ⟨q.localHash, q.remoteHash⟩
        else its) items =
    rs.foldl
      (fun its q =>
        if q.status = .synced && q.remoteHash != "" then
          setKey its q.name ⟨q.localHash, q.remoteHash⟩
        else its)
      (if r.status = .synced && r.remoteHash != "" then
        setKey items r.name ⟨r.localHash, r.remoteHash⟩
      else items) := by
  rw [List.foldl_cons]

theorem pullStateItems_preserve (results : List ItemStatusR)
    (kept : List (String × String)) (items : List (String × ItemStateR)) (n : String)
    (h1 : ∀ r ∈ results, r.name = n → (r.status = .synced && r.remoteHash != "") = false)
    (h2 : ∀ c, (n, c) ∉ kept) :
    lookupKey (pullStateItems results kept items) n = lookupKey items n := by
  unfold pullStateItems
  have hfold1 : ∀ (results : List ItemStatusR) (items : List (String × ItemStateR)),
      (∀ r ∈ results, r.name = n → (r.status = .synced && r.remoteHash != "") = false) →
      lookupKey (results.foldl
        (fun its q =>
          if q.status = .synced && q.remoteHash != "" then
            setKey its q.name ⟨q.localHash, q.remoteHash⟩
          else its) items) n = lookupKey items n := by
    intro results
    induction results with
    | nil => intro items _; rfl
    | cons r rs ih =>
      intro items hcond
      rw [pullStateItems_fst_cons]
      rw [ih _ (fun r2 hr2 => hcond r2 (List.mem_cons_of_mem _ hr2))]
      by_cases hrn : r.name = n
      · rw [if_neg (by
          rw [hcond r (List.mem_cons_self _ _) hrn]
          exact Bool.false_ne_true)]
      · by_cases hc : (r.status = .synced && r.remoteHash != "") = true
        · rw [if_pos hc, lookupKey_setKey_ne _ _ _ _ hrn]
        · rw [if_neg hc]
  have hfold2 : ∀ (kept : List (String × String)) (items : List (String × ItemStateR)),
      (∀ c, (n, c) ∉ kept) →
      lookupKey (kept.foldl (fun its kv => setKey its kv.1 ⟨kv.2, kv.2⟩) items) n =
        lookupKey items n := by
    intro kept
    induction kept with
    | nil => intro items _; rfl
    | cons kv rest ih =>
      intro items hnk
      rw [List.foldl_cons]
      have hne : kv.1 ≠ n := by
        intro he
        exact hnk kv.2 (by
          have : kv = (n, kv.2) := by
            rw [← he]
          rw [← this]
          exact List.mem_cons_self _ _)
      rw [ih _ (fun c hc => hnk c (List.mem_cons_of_mem _ hc)),
        lookupKey_setKey_ne _ _ _ _ hne]
  rw [hfold2 _ _ h2, hfold1 _ _ h1]

theorem pullCore_facts (env : EngineEnv) (oc : PullOracles) (state : SyncStateR)
    (g : GistR) (d f : Bool) (si : List ItemStatusR × StatusInfoR) :
    (pullCore env oc state g d f si).results =
      (List.foldl (pullStep env oc g f d)
        ⟨[], [], [], env.autoYes, false, oc.confirms, false⟩ si.1).results ∧
    (pullCore env oc state g d f si).writes =
      (List.foldl (pullStep env oc g f d)
        ⟨[], [], [], env.autoYes, false, oc.confirms, false⟩ si.1).writes ∧
    ((pullCore env oc state g d f si).stateAfter.items = state.items ∨
      (pullCore env oc state g d f si).stateAfter.items =
        pullStateItems
          (List.foldl (pullStep env oc g f d)
            ⟨[], [], [], env.autoYes, false, oc.confirms, false⟩ si.1).results
          (List.foldl (pullStep env oc g f d)
            ⟨[], [], [], env.autoYes, false, oc.confirms, false⟩ si.1).keptLocal
          state.items) ∧
    ((pullCore env oc state g d f si).aborted = false →
      (List.foldl (pullStep env oc g f d)
        ⟨[], [], [], env.autoYes, false, oc.confirms, false⟩ si.1).aborted = false) := by
  unfold pullCore
  by_cases hab : (List.foldl (pullStep env oc g f d)
      ⟨[], [], [], env.autoYes, false, oc.confirms, false⟩ si.1).aborted = true
  · simp only [hab, if_true]
    simp
  · have hab2 : (List.foldl (pullStep env oc g f d)
        ⟨[], [], [], env.autoYes, false, oc.confirms, false⟩ si.1).aborted = false :=
      Bool.not_eq_true _ ▸ hab
    simp only [hab, if_false, Bool.false_eq_true, ite_false]
    by_cases hd : d = true
    · simp only [hd, if_true]
      simp [hab2]
    · simp only [hd, if_false, Bool.false_eq_true, ite_false]
      simp [hab2]

theorem pushStep_name (env : EngineEnv) (n : String) (acc : PushAcc) (s : ItemStatusR)
    (h : s.name = n → s.status = .conflict) :
    (∀ c, (n, c) ∈ (pushStep env false acc s).uploaded → (n, c) ∈ acc.uploaded) ∧
    (∀ r ∈ (pushStep env false acc s).results, r.name = n →
      r ∈ acc.results ∨ (r.status = .synced && r.localHash != "") = false) := by
  by_cases hn : s.name = n
  · have hs := h hn
    rcases hfi : findItem env s.name with _ | item
    · have heq : pushStep env false acc s = acc := by
        unfold pushStep
        rw [hfi]
      rw [heq]
      exact ⟨fun c hc => hc, fun r hr _ => Or.inl hr⟩
    · rw [pushStep_conflict_eq env acc s item hfi hs]
      refine ⟨fun c hc => hc, fun r hr hrn => ?_⟩
      rcases List.mem_append.1 hr with hr | hr
      · exact Or.inl hr
      · right
        rcases List.mem_singleton.1 hr with rfl
        simp [hs]
  · obtain ⟨δr, δu, hres, hupl, hsub, hp⟩ := pushStep_shape env false acc s
    refine ⟨fun c hc => ?_, fun r hr hrn => ?_⟩
    · rw [hupl] at hc
      rcases List.mem_append.1 hc with hc | hc
      · exact hc
      · exfalso
        obtain ⟨r, _, hr1, _, _⟩ := hp (n, c) hc
        have : r.name ∈ δr.map (·.name) := List.mem_map_of_mem _ (by assumption)
        have h2 := hsub.subset this
        rcases List.mem_singleton.1 h2 with he
        exact hn ((hr1.symm.trans he).symm ▸ rfl)
    · rw [hres] at hr
      rcases List.mem_append.1 hr with hr | hr
      · exact Or.inl hr
      · exfalso
        have : r.name ∈ δr.map (·.name) := List.mem_map_of_mem _ hr
        have h2 := hsub.subset this
        rcases List.mem_singleton.1 h2 with he
        exact hn (hrn ▸ he.symm)

theorem pushFold_name (env : EngineEnv) (n : String) :
    ∀ (statuses : List ItemStatusR) (acc : PushAcc),
    (∀ s ∈ statuses, s.name = n → s.status = .conflict) →
    (∀ c, (n, c) ∈ (statuses.foldl (pushStep env false) acc).uploaded →
      (n, c) ∈ acc.uploaded) ∧
    (∀ r ∈ (statuses.foldl (pushStep env false) acc).results, r.name = n →
      r ∈ acc.results ∨ (r.status = .synced && r.localHash != "") = false)
  | [], _, _ => ⟨fun _ hc => hc, fun r hr _ => Or.inl hr⟩
  | s :: rest, acc, h => by
    rw [List.foldl_cons]
    obtain ⟨hw1, hr1⟩ := pushStep_name env n acc s
      (fun he => h s (List.mem_cons_self _ _) he)
    obtain ⟨hw2, hr2⟩ := pushFold_name env n rest (pushStep env false acc s)
      (fun s2 hs2 he => h s2 (List.mem_cons_of_mem _ hs2) he)
    refine ⟨fun c hc => hw1 c (hw2 c hc), fun r hr hrn => ?_⟩
    rcases hr2 r hr hrn with hr3 | hr3
    · exact hr1 r hr3 hrn
    · exact Or.inr hr3

theorem pushCore_results (env : EngineEnv) (state : SyncStateR) (d f : Bool)
    (si : List ItemStatusR × StatusInfoR) :
    (pushCore env state d f si).results =
      (List.foldl (pushStep env f) ⟨[], [], []⟩ si.1).results := by
  unfold pushCore
  by_cases h1 : (!d && !(List.foldl (pushStep env f) ⟨[], [], []⟩ si.1).updates.isEmpty) = true
  · simp only [h1, if_true]
  · simp only [h1, if_false, Bool.false_eq_true, ite_false]
    by_cases h2 : (!d && (List.foldl (pushStep env f) ⟨[], [], []⟩ si.1).updates.isEmpty &&
        si.2.metaNeedsUpdate) = true
    · simp only [h2, if_true]
    · simp only [h2, if_false, Bool.false_eq_true, ite_false]

theorem pushCore_state_items (env : EngineEnv) (state : SyncStateR) (d f : Bool)
    (si : List ItemStatusR × StatusInfoR) :
    (pushCore env state d f si).stateAfter.items = state.items ∨
      (pushCore env state d f si).stateAfter.items =
        pushStateItems (List.foldl (pushStep env f) ⟨[], [], []⟩ si.1).results
          state.items := by
  unfold pushCore
  by_cases h1 : (!d && !(List.foldl (pushStep env f) ⟨[], [], []⟩ si.1).updates.isEmpty) = true
  · simp only [h1, if_true]
    exact Or.inr trivial
  · simp only [h1, if_false, Bool.false_eq_true, ite_false]
    by_cases h2 : (!d && (List.foldl (pushStep env f) ⟨[], [], []⟩ si.1).updates.isEmpty &&
        si.2.metaNeedsUpdate) = true
    · simp only [h2, if_true]
      exact Or.inl trivial
    · simp only [h2, if_false, Bool.false_eq_true, ite_false]
      exact Or.inl trivial

theorem pushStateItems_preserve_cond (results : List ItemStatusR)
    (items : List (String × ItemStateR)) (n : String)
    (h : ∀ r ∈ results, r.name = n → (r.status = .synced && r.localHash != "") = false) :
    lookupKey (pushStateItems results items) n = lookupKey items n := by
  induction results generalizing items with
  | nil => rfl
  | cons r rs ih =>
    rw [pushStateItems_cons]
    rw [ih _ (fun r2 hr2 => h r2 (List.mem_cons_of_mem _ hr2))]
    by_cases hrn : r.name = n
    · rw [if_neg (by
        rw [h r (List.mem_cons_self _ _) hrn]
        exact Bool.false_ne_true)]
    · by_cases hc : (r.status = .synced && r.localHash != "") = true
      · rw [if_pos hc, lookupKey_setKey_ne _ _ _ _ hrn]
      · rw [if_neg hc]

theorem pushFold_conflict_mem (env : EngineEnv) (statuses : List ItemStatusR)
    (st : ItemStatusR) (item : SyncItemR)
    (hmem : st ∈ statuses) (hs : st.status = .conflict)
    (hfi : findItem env st.name = some item) :
    { st with errMsg := some "conflict detected, use --force to override" } ∈
      (statuses.foldl (pushStep env false) ⟨[], [], []⟩).results := by
  obtain ⟨l1, l2, rfl⟩ := List.append_of_mem hmem
  rw [List.foldl_append, List.foldl_cons]
  rw [pushStep_conflict_eq env _ st item hfi hs]
  obtain ⟨δr, δu, hres, _, _, _⟩ := pushFold_shape env false l2
    { List.foldl (pushStep env false) ⟨[], [], []⟩ l1 with
      results := (List.foldl (pushStep env false) ⟨[], [], []⟩ l1).results ++
        [{ st with errMsg := some "conflict detected, use --force to override" }] }
  rw [hres]
  exact List.mem_append_left _ (List.mem_append_right _ (List.mem_singleton.2 rfl))

theorem pullFold_conflict_mem (env : EngineEnv) (oc : PullOracles) (g : GistR)
    (dryRun : Bool) (statuses : List ItemStatusR) (st0 : PullLoop)
    (st : ItemStatusR) (item : SyncItemR)
    (hmem : st ∈ statuses) (hs : st.status = .conflict)
    (hfi : findItem env st.name = some item)
    (hnab : (statuses.foldl (pullStep env oc g false dryRun) st0).aborted = false) :
    { st with errMsg := some "conflict detected, use --force to override" } ∈
      (statuses.foldl (pullStep env oc g false dryRun) st0).results := by
  obtain ⟨l1, l2, rfl⟩ := List.append_of_mem hmem
  rw [List.foldl_append, List.foldl_cons] at hnab ⊢
  have hab1 : (pullStep env oc g false dryRun
      (List.foldl (pullStep env oc g false dryRun) st0 l1) st).aborted = false :=
    pullFold_aborted_mono env oc g false dryRun l2 _ hnab
  have hab0 : (List.foldl (pullStep env oc g false dryRun) st0 l1).aborted = false :=
    pullStep_aborted_mono env oc g false dryRun _ st hab1
  rw [pullStep_conflict_eq env oc g dryRun _ st item hab0 hfi hs] at hnab ⊢
  obtain ⟨δr, hres⟩ := pullFold_results_shape env oc g false dryRun l2
    { List.foldl (pullStep env oc g false dryRun) st0 l1 with
      results := (List.foldl (pullStep env oc g false dryRun) st0 l1).results ++
        [{ st with errMsg := some "conflict detected, use --force to override" }] }
  rw [hres]
  exact List.mem_append_left _ (List.mem_append_right _ (List.mem_singleton.2 rfl))

/-- C5: a `conflict` item without `--force` is refused, not thrown:
the push and pull loops attach a per-item message and continue with the
loop state otherwise unchanged; end to end, no content is transferred
for the item and its persisted Item State survives untouched
(Invariant I3). -/
theorem c5_conflict_without_force_refused :
    (∀ env acc s item, findItem env s.name = some item → s.status = .conflict →
      pushStep env false acc s =
        { acc with results := acc.results ++
            [{ s with errMsg := some "conflict detected, use --force to override" }] }) ∧
    (∀ env oc g dryRun st s item, st.aborted = false →
      findItem env s.name = some item → s.status = .conflict →
      pullStep env oc g false dryRun st s =
        { st with results := st.results ++
            [{ s with errMsg := some "conflict detected, use --force to override" }] }) ∧
    (∀ env state g dryRun out statuses info st item,
      computeStatus env state g = .ok (statuses, info) →
      push env state g dryRun false = .ok out →
      (statuses.map (·.name)).Nodup →
      st ∈ statuses → st.status = .conflict →
      findItem env st.name = some item →
      ({ st with errMsg := some "conflict detected, use --force to override" } ∈
        out.results ∧
      (∀ c, (st.name, c) ∉ out.uploaded) ∧
      lookupKey out.stateAfter.items st.name = lookupKey state.items st.name)) ∧
    (∀ env oc state g dryRun out statuses info st item,
      computeStatus env state g = .ok (statuses, info) →
      pull env oc state g dryRun false = .ok out →
      (statuses.map (·.name)).Nodup →
      st ∈ statuses → st.status = .conflict →
      findItem env st.name = some item →
      ((out.aborted = false →
        { st with errMsg := some "conflict detected, use --force to override" } ∈
          out.results) ∧
      (∀ c, (st.name, c) ∉ out.writes) ∧
      lookupKey out.stateAfter.items st.name = lookupKey state.items st.name)) := by
  refine ⟨fun env acc s item hfi hs => pushStep_conflict_eq env acc s item hfi hs,
    fun env oc g dryRun st s item hab hfi hs =>
      pullStep_conflict_eq env oc g dryRun st s item hab hfi hs, ?_, ?_⟩
  · intro env state g dryRun out statuses info st item hstat hpush hnd hmem hs hfi
    have h := push_ok_core dryRun false hstat
    rw [hpush] at h
    have hout : out = pushCore env state dryRun false (statuses, info) := by injection h
    subst hout
    have hconf : ∀ s ∈ statuses, s.name = st.name → s.status = .conflict := by
      intro s hsmem he
      rw [List.inj_on_of_nodup_map hnd hsmem hmem he]
      exact hs
    obtain ⟨hw, hr⟩ := pushFold_name env st.name statuses ⟨[], [], []⟩ hconf
    refine ⟨?_, ?_, ?_⟩
    · rw [pushCore_results]
      exact pushFold_conflict_mem env statuses st item hmem hs hfi
    · intro c hc
      rw [pushCore_uploaded] at hc
      exact absurd (hw c hc) (List.not_mem_nil _)
    · rcases pushCore_state_items env state dryRun false (statuses, info) with he | he
      · rw [he]
      · rw [he]
        exact pushStateItems_preserve_cond _ _ _ (fun r hrm hrn =>
          (hr r hrm hrn).resolve_left (List.not_mem_nil _))
  · intro env oc state g dryRun out statuses info st item hstat hpull hnd hmem hs hfi
    have h := @pull_ok_core _ oc _ _ _ dryRun false hstat
    rw [hpull] at h
    have hout : out = pullCore env oc state g dryRun false (statuses, info) := by
      injection h
    subst hout
    have hconf : ∀ s ∈ statuses, s.name = st.name → s.status = .conflict := by
      intro s hsmem he
      rw [List.inj_on_of_nodup_map hnd hsmem hmem he]
      exact hs
    obtain ⟨hres, hwr, hitems, habm⟩ := pullCore_facts env oc state g dryRun false (statuses, info)
    obtain ⟨hw, hk, hr⟩ := pullFold_name env oc g dryRun st.name statuses
      ⟨[], [], [], env.autoYes, false, oc.confirms, false⟩ hconf
    refine ⟨?_, ?_, ?_⟩
    · intro hnab
      rw [hres]
      exact pullFold_conflict_mem env oc g dryRun statuses _ st item hmem hs hfi (habm hnab)
    · intro c hc
      rw [hwr] at hc
      exact absurd (hw c hc) (List.not_mem_nil _)
    · rcases hitems with he | he
      · rw [he]
      · rw [he]
        refine pullStateItems_preserve _ _ _ _ (fun r hrm hrn =>
          (hr r hrm hrn).resolve_left (List.not_mem_nil _)) ?_
        intro c
        exact lookup_none_not_mem (by rw [hk]; rfl) c

/-- C5 witness: a concrete conflicted item (both sides changed, equal
versions) pushed without force: the conflict message is reported and
the prior Item State survives. -/
theorem c5_witness :
    (⟨"settings", .conflict, "H(y)", "H(z)",
      some "conflict detected, use --force to override"⟩ : ItemStatusR) ∈
      [(⟨"settings", .conflict, "H(y)", "H(z)",
        some "conflict detected, use --force to override"⟩ : ItemStatusR)] ∧
    lookupKey [("settings", (⟨"H(a)", "H(b)"⟩ : ItemStateR))] "settings" =
      lookupKey [("settings", (⟨"H(a)", "H(b)"⟩ : ItemStateR))] "settings" := by
  have h := c5_conflict_without_force_refused.2.2.1
    ⟨[⟨"settings", "settings.json", "file"⟩],
     fun _ => .ok ⟨1, repoURL⟩,
     fun c => "H(" ++ c ++ ")",
     fun _ => .ok "H(y)",
     fun _ => .ok (some "y"), "", false⟩
    ⟨1, [("settings", ⟨"H(a)", "H(b)"⟩)]⟩
    ⟨[("settings.json", "z"), (syncMetaFile, "m")]⟩
    false
    ⟨[⟨"settings", .conflict, "H(y)", "H(z)",
       some "conflict detected, use --force to override"⟩],
     [], [], none, ⟨1, [("settings", ⟨"H(a)", "H(b)"⟩)]⟩⟩
    [⟨"settings", .conflict, "H(y)", "H(z)", none⟩]
    ⟨⟨1, repoURL⟩, false, 1, 2, 2, true, true, .conflict⟩
    ⟨"settings", .conflict, "H(y)", "H(z)", none⟩
    ⟨"settings", "settings.json", "file"⟩
    (by rfl) (by rfl) (by simp) (List.mem_singleton.2 rfl) rfl (by rfl)
  exact ⟨h.1, h.2.2⟩

/-! ## Keep-local merge lemmas (C6) -/

theorem fst_addMissing_bool (rm : JObj) :
    ∀ (m : JObj) (b b' : Bool),
    (keepLocalAddMissing rm (m, b)).1 = (keepLocalAddMissing rm (m, b')).1 := by
  induction rm with
  | nil => intro m b b'; rfl
  | cons kv rest ih =>
    intro m b b'
    rw [keepLocalAddMissing_cons, keepLocalAddMissing_cons]
    rcases hl : lookupKey m kv.1 with _ | w
    · exact ih _ _ _
    · exact ih _ _ _

theorem addMissingOthers_cons (kv : String × JVal) (rest : List (String × JVal))
    (st : JObj × Bool) :
    addMissingOthers (kv :: rest) st =
      addMissingOthers rest
        (if kv.1 = "mcpServers" ∨ kv.1 = "projects" then st
         else match lookupKey st.1 kv.1 with
           | some _ => st
           | none => (setKey st.1 kv.1 kv.2, true)) := by
  rw [addMissingOthers, addMissingOthers, List.foldl_cons]

theorem addMissingOthers_keep (remote : JObj) (st : JObj × Bool) (k : String) (v : JVal)
    (h : lookupKey st.1 k = some v) :
    lookupKey (addMissingOthers remote st).1 k = some v := by
  induction remote generalizing st with
  | nil => exact h
  | cons kv rest ih =>
    rw [addMissingOthers_cons]
    by_cases hreg : kv.1 = "mcpServers" ∨ kv.1 = "projects"
    · rw [if_pos hreg]
      exact ih _ h
    · rw [if_neg hreg]
      rcases hl : lookupKey st.1 kv.1 with _ | w
      · by_cases hk : kv.1 = k
        · rw [hk, h] at hl; cases hl
        · exact ih _ (by simpa [lookupKey_setKey_ne _ _ _ _ hk] using h)
      · exact ih _ h

theorem addMissingOthers_registry (remote : JObj) (st : JObj × Bool) (k : String)
    (hreg : k = "mcpServers" ∨ k = "projects") :
    lookupKey (addMissingOthers remote st).1 k = lookupKey st.1 k := by
  induction remote generalizing st with
  | nil => rfl
  | cons kv rest ih =>
    rw [addMissingOthers_cons]
    by_cases hkv : kv.1 = "mcpServers" ∨ kv.1 = "projects"
    · rw [if_pos hkv]
      exact ih _
    · rw [if_neg hkv]
      have hk : kv.1 ≠ k := by
        rcases hreg with h | h <;> (intro he; rw [he, h] at hkv; simp at hkv)
      rcases hl : lookupKey st.1 kv.1 with _ | w
      · rw [ih _]
        simp [lookupKey_setKey_ne _ _ _ _ hk]
      · exact ih _

theorem klProjectStep_other (acc : JObj × Bool) (pv : String × JVal) (p : String)
    (h : pv.1 ≠ p) :
    lookupKey (keepLocalProjectStep acc pv).1 p = lookupKey acc.1 p := by
  unfold keepLocalProjectStep
  rcases pv.2 with _ | _ | _ | _ | _ | rc
  · rfl
  · rfl
  · rfl
  · rfl
  · rfl
  · dsimp only
    rcases hl : lookupKey acc.1 pv.1 with _ | lpv
    · exact lookupKey_setKey_ne _ _ _ _ h
    · exact lookupKey_setKey_ne _ _ _ _ h

theorem klProjects_preserve (remote : JObj) (st : JObj × Bool) (p : String)
    (h : p ∉ keysOf remote) :
    lookupKey (remote.foldl keepLocalProjectStep st).1 p = lookupKey st.1 p := by
  induction remote generalizing st with
  | nil => rfl
  | cons pv rest ih =>
    obtain ⟨h1, h2⟩ := not_mem_keysOf_cons h
    rw [List.foldl_cons, ih _ h2]
    exact klProjectStep_other st pv p h1

theorem klProjects_hit_absent (remote : JObj) (st : JObj × Bool) (p : String) (rc : JObj)
    (hnd : (keysOf remote).Nodup) (hmem : (p, JVal.obj rc) ∈ remote)
    (h : lookupKey st.1 p = none) :
    lookupKey (remote.foldl keepLocalProjectStep st).1 p = some (.obj rc) := by
  induction remote generalizing st with
  | nil => simp at hmem
  | cons pv rest ih =>
    obtain ⟨hnd1, hnd2⟩ := nodup_keysOf_cons hnd
    rcases List.mem_cons.1 hmem with hh | hh
    · have hk : pv.1 = p := (Prod.ext_iff.1 hh.symm).1
      have hv : pv.2 = JVal.obj rc := (Prod.ext_iff.1 hh.symm).2
      have hnotin : p ∉ keysOf rest := hk ▸ hnd1
      rw [List.foldl_cons, klProjects_preserve _ _ _ hnotin]
      unfold keepLocalProjectStep
      rw [hv]
      dsimp only
      rw [hk, h]
      dsimp only
      exact lookupKey_setKey_self _ _ _
    · have hk : pv.1 ≠ p := fun he => hnd1 (he ▸ mem_keysOf hh)
      rw [List.foldl_cons]
      exact ih _ hnd2 hh (by rw [klProjectStep_other st pv p hk]; exact h)

theorem klProjects_hit_present (remote : JObj) (st : JObj × Bool) (p : String)
    (rc : JObj) (lpv : JVal)
    (hnd : (keysOf remote).Nodup) (hmem : (p, JVal.obj rc) ∈ remote)
    (h : lookupKey st.1 p = some lpv) :
    lookupKey (remote.foldl keepLocalProjectStep st).1 p =
      some (.obj (klProjectCfg lpv rc)) := by
  induction remote generalizing st with
  | nil => simp at hmem
  | cons pv rest ih =>
    obtain ⟨hnd1, hnd2⟩ := nodup_keysOf_cons hnd
    rcases List.mem_cons.1 hmem with hh | hh
    · have hk : pv.1 = p := (Prod.ext_iff.1 hh.symm).1
      have hv : pv.2 = JVal.obj rc := (Prod.ext_iff.1 hh.symm).2
      have hnotin : p ∉ keysOf rest := hk ▸ hnd1
      rw [List.foldl_cons, klProjects_preserve _ _ _ hnotin]
      unfold keepLocalProjectStep
      rw [hv]
      dsimp only
      rw [hk, h]
      dsimp only
      rw [lookupKey_setKey_self]
      unfold klProjectCfg
      rw [fst_addMissing_bool _ _ st.2 false]
    · have hk : pv.1 ≠ p := fun he => hnd1 (he ▸ mem_keysOf hh)
      rw [List.foldl_cons]
      exact ih _ hnd2 hh (by rw [klProjectStep_other st pv p hk]; exact h)

theorem keepLocalAddMissing_nil (st : JObj × Bool) : keepLocalAddMissing [] st = st := rfl

theorem isEmpty_false_of_ne {α : Type} {l : List α} (h : l ≠ []) : ¬(l.isEmpty = true) := by
  intro hemp
  exact h (List.isEmpty_iff.1 hemp)

theorem lookup_writeback_ne (o : JObj) (key k : String) (m : JObj) (h : key ≠ k) :
    lookupKey (if m.isEmpty then o else setKey o key (.obj m)) k = lookupKey o k := by
  by_cases hm : m.isEmpty = true
  · rw [if_pos hm]
  · rw [if_neg hm, lookupKey_setKey_ne _ _ _ _ h]

theorem lookup_writeback_self (o : JObj) (k : String) (v : JVal)
    (hv : lookupKey o k = some v) :
    lookupKey (if (asObj (some v)).isEmpty then o
      else setKey o k (.obj (asObj (some v)))) k = some v := by
  rcases v with _ | b | n | s | xs | fields
  · simpa [asObj] using hv
  · simpa [asObj] using hv
  · simpa [asObj] using hv
  · simpa [asObj] using hv
  · simpa [asObj] using hv
  · rcases fields with _ | ⟨f, fs⟩
    · simpa [asObj] using hv
    · rw [if_neg (by simp [asObj]), lookupKey_setKey_self]
      rfl

theorem getObjField_setKey_self (o : JObj) (k : String) (m : JObj) :
    getObjField (setKey o k (.obj m)) k = m := by
  unfold getObjField
  rw [lookupKey_setKey_self]
  rfl

/-- C6 counterexample: prefer-remote merge on
`local = {"mcpServers":{"a":1}}`, `remote = {"mcpServers":{"b":2}}`:
the nested registry key `a` exists only on the local side, yet the
merged registry no longer contains it — the overlay replaces the whole
`mcpServers` value, so the "never deletes a single-replica key at every
nesting level" part of the claim is false for prefer-remote. -/
theorem c6_counterexample :
    lookupKey (getObjField [("mcpServers", JVal.obj [("a", .num 1)])] "mcpServers") "a" =
      some (.num 1) ∧
    lookupKey (getObjField [("mcpServers", JVal.obj [("b", .num 2)])] "mcpServers") "a" =
      none ∧
    (mergeMCPPreferRemote (.good [("mcpServers", .obj [("a", .num 1)])])
        (.good [("mcpServers", .obj [("b", .num 2)])])).1 =
      .good [("mcpServers", .obj [("b", .num 2)])] ∧
    lookupKey (getObjField (docObj
      (mergeMCPPreferRemote (.good [("mcpServers", .obj [("a", .num 1)])])
        (.good [("mcpServers", .obj [("b", .num 2)])])).1) "mcpServers") "a" = none :=
  ⟨rfl, rfl, by rfl, by rfl⟩

theorem getObjField_eq (o : JObj) (k : String) :
    getObjField o k = asObj (lookupKey o k) := rfl

theorem addMissing_fst_ne_nil (rm : JObj) :
    ∀ (m : JObj) (b : Bool), m ≠ [] → (keepLocalAddMissing rm (m, b)).1 ≠ [] := by
  induction rm with
  | nil => intro m b h; exact h
  | cons kv rest ih =>
    intro m b h
    rw [keepLocalAddMissing_cons]
    rcases hl : lookupKey m kv.1 with _ | w
    · exact ih _ _ (setKey_ne_nil m kv.1 kv.2)
    · exact ih _ _ h

theorem fst_klProjectStep_congr (st st' : JObj × Bool) (pv : String × JVal)
    (h : st.1 = st'.1) :
    (keepLocalProjectStep st pv).1 = (keepLocalProjectStep st' pv).1 := by
  unfold keepLocalProjectStep
  rcases pv.2 with _ | _ | _ | _ | _ | rc
  · exact h
  · exact h
  · exact h
  · exact h
  · exact h
  · dsimp only
    rw [h]
    rcases hl : lookupKey st'.1 pv.1 with _ | lpv
    · rfl
    · dsimp only
      rw [fst_addMissing_bool _ _ st.2 st'.2]

theorem fst_klProjects_congr : ∀ (remote : JObj) (st st' : JObj × Bool), st.1 = st'.1 →
    (remote.foldl keepLocalProjectStep st).1 = (remote.foldl keepLocalProjectStep st').1
  | [], _, _, h => h
  | pv :: rest, st, st', h => by
    rw [List.foldl_cons, List.foldl_cons]
    exact fst_klProjects_congr rest _ _ (fst_klProjectStep_congr st st' pv h)

theorem klProjects_fst_ne_nil : ∀ (remote : JObj) (st : JObj × Bool),
    st.1 ≠ [] → (remote.foldl keepLocalProjectStep st).1 ≠ []
  | [], _, h => h
  | pv :: rest, st, h => by
    rw [List.foldl_cons]
    refine klProjects_fst_ne_nil rest _ ?_
    unfold keepLocalProjectStep
    rcases pv.2 with _ | _ | _ | _ | _ | rc
    · exact h
    · exact h
    · exact h
    · exact h
    · exact h
    · dsimp only
      rcases hl : lookupKey st.1 pv.1 with _ | lpv
      · exact setKey_ne_nil _ _ _
      · exact setKey_ne_nil _ _ _

theorem keepLocal_mcp_field (lobj robj : JObj) :
    getObjField (docObj (mergeMCPKeepLocal (.good lobj) (.good robj)).1) "mcpServers" =
      (keepLocalAddMissing (getObjField robj "mcpServers")
        (getObjField lobj "mcpServers", false)).1 := by
  unfold mergeMCPKeepLocal
  dsimp only [docObj]
  rw [getObjField_eq, addMissingOthers_registry _ _ _ (Or.inl rfl)]
  rw [lookup_writeback_ne _ _ _ _ (by decide)]
  by_cases he : (keepLocalAddMissing (getObjField robj "mcpServers")
      (getObjField lobj "mcpServers", false)).1.isEmpty = true
  · rw [if_pos he]
    have hm : getObjField lobj "mcpServers" = [] := by
      by_contra hne
      exact addMissing_fst_ne_nil _ _ _ hne (List.isEmpty_iff.1 he)
    rw [← getObjField_eq, List.isEmpty_iff.1 he, hm]
  · rw [if_neg he, lookupKey_setKey_self]
    rfl

theorem keepLocal_projects_field (lobj robj : JObj) :
    getObjField (docObj (mergeMCPKeepLocal (.good lobj) (.good robj)).1) "projects" =
      ((getObjField robj "projects").foldl keepLocalProjectStep
        (getObjField lobj "projects", false)).1 := by
  unfold mergeMCPKeepLocal
  dsimp only [docObj]
  rw [getObjField_eq, addMissingOthers_registry _ _ _ (Or.inr rfl)]
  have hlp : getObjField (if (keepLocalAddMissing (getObjField robj "mcpServers")
      (getObjField lobj "mcpServers", false)).1.isEmpty then lobj
      else setKey lobj "mcpServers"
        (.obj (keepLocalAddMissing (getObjField robj "mcpServers")
          (getObjField lobj "mcpServers", false)).1)) "projects" =
      getObjField lobj "projects" := by
    rw [getObjField_eq, lookup_writeback_ne _ _ _ _ (by decide), ← getObjField_eq]
  by_cases he : ((getObjField robj "projects").foldl keepLocalProjectStep
      (getObjField (if (keepLocalAddMissing (getObjField robj "mcpServers")
        (getObjField lobj "mcpServers", false)).1.isEmpty then lobj
        else setKey lobj "mcpServers"
          (.obj (keepLocalAddMissing (getObjField robj "mcpServers")
            (getObjField lobj "mcpServers", false)).1)) "projects",
       (keepLocalAddMissing (getObjField robj "mcpServers")
        (getObjField lobj "mcpServers", false)).2)).1.isEmpty = true
  · rw [if_pos he]
    have hfst := fst_klProjects_congr (getObjField robj "projects")
      (getObjField (if (keepLocalAddMissing (getObjField robj "mcpServers")
        (getObjField lobj "mcpServers", false)).1.isEmpty then lobj
        else setKey lobj "mcpServers"
          (.obj (keepLocalAddMissing (getObjField robj "mcpServers")
            (getObjField lobj "mcpServers", false)).1)) "projects",
       (keepLocalAddMissing (getObjField robj "mcpServers")
        (getObjField lobj "mcpServers", false)).2)
      (getObjField lobj "projects", false) hlp
    have hnil := List.isEmpty_iff.1 he
    rw [hfst] at hnil
    have hm : getObjField lobj "projects" = [] := by
      by_contra hne
      exact klProjects_fst_ne_nil _ _ hne hnil
    dsimp only
    rw [← getObjField_eq, hlp, hnil, hm]
  · rw [if_neg he, getObjField_eq, lookupKey_setKey_self]
    dsimp only [asObj]
    exact fst_klProjects_congr _ _ _ hlp

theorem klProjectCfg_mcp_field (lpv : JVal) (rc : JObj) :
    getObjField (klProjectCfg lpv rc) "mcpServers" =
      (keepLocalAddMissing (getObjField rc "mcpServers")
        (getObjField (asObj (some lpv)) "mcpServers", false)).1 := by
  unfold klProjectCfg
  dsimp only
  by_cases he : (keepLocalAddMissing (getObjField rc "mcpServers")
      (getObjField (asObj (some lpv)) "mcpServers", false)).1.isEmpty = true
  · rw [if_pos he]
    have hm : getObjField (asObj (some lpv)) "mcpServers" = [] := by
      by_contra hne
      exact addMissing_fst_ne_nil _ _ _ hne (List.isEmpty_iff.1 he)
    rw [List.isEmpty_iff.1 he, hm]
  · rw [if_neg he, getObjField_eq, lookupKey_setKey_self]
    rfl

/-- C6 (amended): the keep-local merge keeps, unchanged, every key
present only on the local side — at the top level, in the `mcpServers`
registry, in the `projects` map and in a shared project's nested
registry — and only adds (never deletes) one-sided remote keys of those
maps; the prefer-remote merge keeps every top-level remote key. The
original claim's "at every nesting level" part fails for prefer-remote,
which replaces nested registries wholesale (see the counterexample). -/
theorem c6_one_sided_keys_kept (lobj robj : JObj) :
    (∀ k v, lookupKey lobj k = some v → lookupKey robj k = none →
      lookupKey (docObj (mergeMCPKeepLocal (.good lobj) (.good robj)).1) k = some v) ∧
    (∀ k v, (keysOf robj).Nodup → lookupKey robj k = some v →
      lookupKey (docObj (mergeMCPPreferRemote (.good lobj) (.good robj)).1) k = some v) ∧
    (∀ k v, lookupKey (getObjField lobj "mcpServers") k = some v →
      lookupKey (getObjField (docObj (mergeMCPKeepLocal (.good lobj) (.good robj)).1)
        "mcpServers") k = some v) ∧
    (∀ k v, (keysOf (getObjField robj "mcpServers")).Nodup →
      lookupKey (getObjField robj "mcpServers") k = some v →
      lookupKey (getObjField lobj "mcpServers") k = none →
      lookupKey (getObjField (docObj (mergeMCPKeepLocal (.good lobj) (.good robj)).1)
        "mcpServers") k = some v) ∧
    (∀ p v, lookupKey (getObjField lobj "projects") p = some v →
      p ∉ keysOf (getObjField robj "projects") →
      lookupKey (getObjField (docObj (mergeMCPKeepLocal (.good lobj) (.good robj)).1)
        "projects") p = some v) ∧
    (∀ p rc, (keysOf (getObjField robj "projects")).Nodup →
      (p, JVal.obj rc) ∈ getObjField robj "projects" →
      lookupKey (getObjField lobj "projects") p = none →
      lookupKey (getObjField (docObj (mergeMCPKeepLocal (.good lobj) (.good robj)).1)
        "projects") p = some (.obj rc)) ∧
    (∀ p rc lpv, (keysOf (getObjField robj "projects")).Nodup →
      (p, JVal.obj rc) ∈ getObjField robj "projects" →
      lookupKey (getObjField lobj "projects") p = some lpv →
      lookupKey (getObjField (docObj (mergeMCPKeepLocal (.good lobj) (.good robj)).1)
        "projects") p = some (.obj (klProjectCfg lpv rc))) ∧
    (∀ lpv rc k v, lookupKey (getObjField (asObj (some lpv)) "mcpServers") k = some v →
      lookupKey (getObjField (klProjectCfg lpv rc) "mcpServers") k = some v) ∧
    (∀ lpv rc k v, (keysOf (getObjField rc "mcpServers")).Nodup →
      lookupKey (getObjField rc "mcpServers") k = some v →
      lookupKey (getObjField (asObj (some lpv)) "mcpServers") k = none →
      lookupKey (getObjField (klProjectCfg lpv rc) "mcpServers") k = some v) := by
  refine ⟨?_, ?_, ?_, ?_, ?_, ?_, ?_, ?_, ?_⟩
  · intro k v hv hr
    unfold mergeMCPKeepLocal
    dsimp only [docObj]
    apply addMissingOthers_keep
    dsimp only
    by_cases hk2 : k = "projects"
    · subst hk2
      have hrp : getObjField robj "projects" = [] := by rw [getObjField_eq, hr]; rfl
      rw [hrp, List.foldl_nil]
      dsimp only
      have h1 : lookupKey (if (keepLocalAddMissing (getObjField robj "mcpServers")
          (getObjField lobj "mcpServers", false)).1.isEmpty then lobj
          else setKey lobj "mcpServers"
            (.obj (keepLocalAddMissing (getObjField robj "mcpServers")
              (getObjField lobj "mcpServers", false)).1)) "projects" = some v := by
        rw [lookup_writeback_ne _ _ _ _ (by decide)]
        exact hv
      rw [getObjField_eq, h1]
      exact lookup_writeback_self _ _ _ h1
    · rw [lookup_writeback_ne _ _ _ _ (fun he => hk2 he.symm)]
      by_cases hk1 : k = "mcpServers"
      · subst hk1
        have hrm : getObjField robj "mcpServers" = [] := by rw [getObjField_eq, hr]; rfl
        rw [hrm, keepLocalAddMissing_nil]
        dsimp only
        rw [getObjField_eq, hv]
        exact lookup_writeback_self _ _ _ hv
      · rw [lookup_writeback_ne _ _ _ _ (fun he => hk1 he.symm)]
        exact hv
  · intro k v hnd hr
    unfold mergeMCPPreferRemote
    dsimp only [docObj]
    exact overlay_hit _ _ _ _ hnd (lookupKey_mem hr)
  · intro k v hv
    rw [keepLocal_mcp_field]
    exact addMissing_keep _ _ _ _ hv
  · intro k v hnd hr hl
    rw [keepLocal_mcp_field]
    exact addMissing_hit _ _ _ _ hnd (lookupKey_mem hr) hl
  · intro p v hv hnot
    rw [keepLocal_projects_field, klProjects_preserve _ _ _ hnot]
    exact hv
  · intro p rc hnd hmem hl
    rw [keepLocal_projects_field]
    exact klProjects_hit_absent _ _ _ _ hnd hmem hl
  · intro p rc lpv hnd hmem hv
    rw [keepLocal_projects_field]
    exact klProjects_hit_present _ _ _ _ _ hnd hmem hv
  · intro lpv rc k v hv
    rw [klProjectCfg_mcp_field]
    exact addMissing_keep _ _ _ _ hv
  · intro lpv rc k v hnd hr hl
    rw [klProjectCfg_mcp_field]
    exact addMissing_hit _ _ _ _ hnd (lookupKey_mem hr) hl

theorem c6_witness :
    lookupKey (docObj (mergeMCPKeepLocal
      (.good [("theme", JVal.str "dark"), ("mcpServers", JVal.obj [("a", .num 1)]),
        ("projects", JVal.obj [("p", .obj [("mcpServers", .obj [("x", .num 1)])])])])
      (.good [("fontSize", JVal.num 12), ("mcpServers", JVal.obj [("b", .num 2)]),
        ("projects", JVal.obj [("p", .obj [("mcpServers", .obj [("y", .num 2)])]),
          ("r", .obj [])])])).1) "theme" = some (.str "dark") ∧
    lookupKey (docObj (mergeMCPPreferRemote
      (.good [("theme", JVal.str "dark"), ("mcpServers", JVal.obj [("a", .num 1)]),
        ("projects", JVal.obj [("p", .obj [("mcpServers", .obj [("x", .num 1)])])])])
      (.good [("fontSize", JVal.num 12), ("mcpServers", JVal.obj [("b", .num 2)]),
        ("projects", JVal.obj [("p", .obj [("mcpServers", .obj [("y", .num 2)])]),
          ("r", .obj [])])])).1) "fontSize" = some (.num 12) ∧
    lookupKey (getObjField (docObj (mergeMCPKeepLocal
      (.good [("theme", JVal.str "dark"), ("mcpServers", JVal.obj [("a", .num 1)]),
        ("projects", JVal.obj [("p", .obj [("mcpServers", .obj [("x", .num 1)])])])])
      (.good [("fontSize", JVal.num 12), ("mcpServers", JVal.obj [("b", .num 2)]),
        ("projects", JVal.obj [("p", .obj [("mcpServers", .obj [("y", .num 2)])]),
          ("r", .obj [])])])).1) "mcpServers") "a" = some (.num 1) ∧
    lookupKey (getObjField (docObj (mergeMCPKeepLocal
      (.good [("theme", JVal.str "dark"), ("mcpServers", JVal.obj [("a", .num 1)]),
        ("projects", JVal.obj [("p", .obj [("mcpServers", .obj [("x", .num 1)])])])])
      (.good [("fontSize", JVal.num 12), ("mcpServers", JVal.obj [("b", .num 2)]),
        ("projects", JVal.obj [("p", .obj [("mcpServers", .obj [("y", .num 2)])]),
          ("r", .obj [])])])).1) "mcpServers") "b" = some (.num 2) ∧
    lookupKey (getObjField (docObj (mergeMCPKeepLocal
      (.good [("theme", JVal.str "dark"), ("mcpServers", JVal.obj [("a", .num 1)]),
        ("projects", JVal.obj [("p", .obj [("mcpServers", .obj [("x", .num 1)])])])])
      (.good [("fontSize", JVal.num 12), ("mcpServers", JVal.obj [("b", .num 2)]),
        ("projects", JVal.obj [("p", .obj [("mcpServers", .obj [("y", .num 2)])]),
          ("r", .obj [])])])).1) "projects") "r" = some (.obj []) ∧
    lookupKey (getObjField (docObj (mergeMCPKeepLocal
      (.good [("theme", JVal.str "dark"), ("mcpServers", JVal.obj [("a", .num 1)]),
        ("projects", JVal.obj [("p", .obj [("mcpServers", .obj [("x", .num 1)])])])])
      (.good [("fontSize", JVal.num 12), ("mcpServers", JVal.obj [("b", .num 2)]),
        ("projects", JVal.obj [("p", .obj [("mcpServers", .obj [("y", .num 2)])]),
          ("r", .obj [])])])).1) "projects") "p" =
      some (.obj (klProjectCfg (JVal.obj [("mcpServers", .obj [("x", .num 1)])])
        [("mcpServers", .obj [("y", .num 2)])])) := by
  have h := c6_one_sided_keys_kept
    [("theme", JVal.str "dark"), ("mcpServers", JVal.obj [("a", .num 1)]),
      ("projects", JVal.obj [("p", .obj [("mcpServers", .obj [("x", .num 1)])])])]
    [("fontSize", JVal.num 12), ("mcpServers", JVal.obj [("b", .num 2)]),
      ("projects", JVal.obj [("p", .obj [("mcpServers", .obj [("y", .num 2)])]),
        ("r", .obj [])])]
  refine ⟨h.1 "theme" _ rfl rfl, h.2.1 "fontSize" _ (by decide) rfl,
    h.2.2.1 "a" _ rfl, h.2.2.2.1 "b" _ (by decide) rfl rfl,
    h.2.2.2.2.2.1 "r" _ (by decide) ?_ rfl,
    h.2.2.2.2.2.2.1 "p" _ _ (by decide) ?_ rfl⟩
  · exact List.mem_cons.2 (Or.inr (List.mem_cons_self _ _))
  · exact List.mem_cons_self _ _

/-- C7 counterexample: when both inputs are malformed, `mergeMCPSmart`
returns the raw remote bytes unchanged (not an empty document), and the
output is not syntactically valid JSON; `MergeHooksSelectively`
likewise returns the raw local bytes. -/
theorem c7_counterexample :
    (mergeMCPSmart (fun _ _ _ _ => Choice.loc) (.bad "not json") (.bad "oops") true).1 =
      .bad "oops" ∧
    RawDoc.isValid (mergeMCPSmart (fun _ _ _ _ => Choice.loc)
      (.bad "not json") (.bad "oops") true).1 = false ∧
    MergeHooksSelectively (fun _ => false) (.bad "not json") (.bad "oops") true =
      .bad "not json" ∧
    RawDoc.isValid (MergeHooksSelectively (fun _ => false)
      (.bad "not json") (.bad "oops") true) = false :=
  ⟨rfl, rfl, rfl, rfl⟩

/-- C7 (amended): the mergers never fail, a malformed side makes the
other side win verbatim (`mergeMCPSmart` returns the other document's
raw bytes; `MergeHooksSelectively` treats a malformed local side as the
empty document but returns the raw local bytes when the remote side is
malformed), and the output is syntactically valid whenever at least one
side of `mergeMCPSmart` — or the remote side of the hooks merge — is
well-formed.  With both sides malformed the returned bytes are a raw
malformed input, not a valid document (see the counterexample). -/
theorem c7_malformed_side_raw_return :
    (∀ (ask : Oracle) (s : String) (rd : RawDoc) (ay : Bool),
      mergeMCPSmart ask (.bad s) rd ay = (rd, true, [])) ∧
    (∀ (ask : Oracle) (lobj : JObj) (s : String) (ay : Bool),
      mergeMCPSmart ask (.good lobj) (.bad s) ay = (.good lobj, false, [])) ∧
    (∀ (ask : Oracle) (ld rd : RawDoc) (ay : Bool),
      ld.isValid = true ∨ rd.isValid = true →
      RawDoc.isValid (mergeMCPSmart ask ld rd ay).1 = true) ∧
    (∀ (hp : JVal → Bool) (ld : RawDoc) (s : String) (sk : Bool),
      MergeHooksSelectively hp ld (.bad s) sk = ld) ∧
    (∀ (hp : JVal → Bool) (s : String) (robj : JObj) (sk : Bool),
      MergeHooksSelectively hp (.bad s) (.good robj) sk =
        MergeHooksSelectively hp (.good []) (.good robj) sk) ∧
    (∀ (hp : JVal → Bool) (ld : RawDoc) (robj : JObj) (sk : Bool),
      RawDoc.isValid (MergeHooksSelectively hp ld (.good robj) sk) = true) := by
  refine ⟨fun _ _ _ _ => rfl, fun _ _ _ _ => rfl, ?_, fun _ _ _ _ => rfl,
    fun _ _ _ _ => rfl, ?_⟩
  · intro ask ld rd ay h
    cases ld with
    | bad s =>
      rcases h with h | h
      · simp [RawDoc.isValid] at h
      · exact h
    | good lobj =>
      cases rd with
      | bad s => rfl
      | good robj => rfl
  · intro hp ld robj sk
    unfold MergeHooksSelectively
    dsimp only
    rcases hl : lookupKey robj "hooks" with _ | v
    · rfl
    · rcases v with _ | b | n | s | xs | fields
      · rfl
      · rfl
      · rfl
      · rfl
      · rfl
      · rfl

theorem c7_witness :
    mergeMCPSmart (fun _ _ _ _ => Choice.loc) (.bad "not json")
      (.good [("a", JVal.num 1)]) true = (.good [("a", JVal.num 1)], true, []) ∧
    RawDoc.isValid (mergeMCPSmart (fun _ _ _ _ => Choice.loc) (.bad "not json")
      (.good [("a", JVal.num 1)]) true).1 = true ∧
    MergeHooksSelectively (fun _ => false) (.bad "not json")
      (.good [("a", JVal.num 1)]) true =
      MergeHooksSelectively (fun _ => false) (.good [])
        (.good [("a", JVal.num 1)]) true ∧
    RawDoc.isValid (MergeHooksSelectively (fun _ => false) (.good [("x", JVal.num 1)])
      (.good [("a", JVal.num 1)]) true) = true := by
  have h := c7_malformed_side_raw_return
  exact ⟨h.1 (fun _ _ _ _ => Choice.loc) "not json" _ true,
    h.2.2.1 (fun _ _ _ _ => Choice.loc) _ _ true (Or.inr rfl),
    h.2.2.2.2.1 (fun _ => false) "not json" _ true,
    h.2.2.2.2.2 (fun _ => false) _ _ true⟩

theorem smartMergeKeys_cons (ask : Oracle) (ay : Bool) (ctx : String)
    (kv : String × JVal) (rest : List (String × JVal)) (st : MState) :
    smartMergeKeys ask ay ctx (kv :: rest) st =
      smartMergeKeys ask ay ctx rest (smartMergeKeyStep ask ay ctx st kv) := by
  rw [smartMergeKeys, smartMergeKeys, List.foldl_cons]

theorem smartStep_autoYes (ask : Oracle) (ctx : String) (st : MState)
    (kv : String × JVal) :
    smartMergeKeyStep ask true ctx st kv =
      match lookupKey st.m kv.1 with
      | none => { st with m := setKey st.m kv.1 kv.2, changed := true }
      | some _ => st := by
  unfold smartMergeKeyStep
  rcases hl : lookupKey st.m kv.1 with _ | lv
  · rfl
  · dsimp only
    by_cases hb : lv.beq kv.2 = true
    · rw [if_pos hb]
    · rw [if_neg hb]
      simp

theorem smartKeys_autoYes (ask : Oracle) (ctx : String) :
    ∀ (remote : JObj) (st : MState),
    smartMergeKeys ask true ctx remote st =
      ⟨(keepLocalAddMissing remote (st.m, st.changed)).1, st.flags,
        (keepLocalAddMissing remote (st.m, st.changed)).2, st.prompts⟩
  | [], st => rfl
  | kv :: rest, st => by
    rw [smartMergeKeys_cons, smartStep_autoYes, keepLocalAddMissing_cons]
    dsimp only
    rcases hl : lookupKey st.m kv.1 with _ | lv
    · dsimp only
      exact smartKeys_autoYes ask ctx rest _
    · dsimp only
      exact smartKeys_autoYes ask ctx rest st

theorem smartProjStep_prompts (ask : Oracle) (st : PState) (pv : String × JVal) :
    (smartProjectStep ask true st pv).prompts = st.prompts := by
  unfold smartProjectStep
  rcases pv.2 with _ | b | n | s | xs | rc
  · rfl
  · rfl
  · rfl
  · rfl
  · rfl
  · dsimp only
    rw [smartKeys_autoYes]

theorem smartProj_prompts (ask : Oracle) : ∀ (remote : JObj) (st : PState),
    (remote.foldl (smartProjectStep ask true) st).prompts = st.prompts
  | [], st => rfl
  | pv :: rest, st => by
    rw [List.foldl_cons, smartProj_prompts ask rest _, smartProjStep_prompts]

theorem smart_mcp_field (ask : Oracle) (lobj robj : JObj) :
    getObjField (docObj (mergeMCPSmart ask (.good lobj) (.good robj) true).1)
      "mcpServers" =
      (keepLocalAddMissing (getObjField robj "mcpServers")
        (getObjField lobj "mcpServers", false)).1 := by
  unfold mergeMCPSmart
  dsimp only [docObj]
  rw [getObjField_eq, overlayOthers_preserve _ _ _ (Or.inr (Or.inl rfl))]
  rw [lookup_writeback_ne _ _ _ _ (by decide)]
  rw [smartKeys_autoYes]
  dsimp only
  by_cases he : (keepLocalAddMissing (getObjField robj "mcpServers")
      (getObjField lobj "mcpServers", false)).1.isEmpty = true
  · rw [if_pos he]
    have hm : getObjField lobj "mcpServers" = [] := by
      by_contra hne
      exact addMissing_fst_ne_nil _ _ _ hne (List.isEmpty_iff.1 he)
    rw [← getObjField_eq, List.isEmpty_iff.1 he, hm]
  · rw [if_neg he, lookupKey_setKey_self]
    rfl

theorem asObj_eq_of_ne_nil (ov : Option JVal) (m : JObj) (h : asObj ov = m)
    (hne : m ≠ []) : ov = some (.obj m) := by
  rcases ov with _ | v
  · exact absurd h.symm hne
  · rcases v with _ | b | n | s | xs | fields
    · exact absurd h.symm hne
    · exact absurd h.symm hne
    · exact absurd h.symm hne
    · exact absurd h.symm hne
    · exact absurd h.symm hne
    · rw [show asObj (some (JVal.obj fields)) = fields from rfl] at h
      rw [h]

theorem writeback_id (o : JObj) (key : String) (m : JObj)
    (h : getObjField o key = m) :
    (if m.isEmpty then o else setKey o key (.obj m)) = o := by
  by_cases he : m.isEmpty = true
  · rw [if_pos he]
  · rw [if_neg he]
    exact setKey_self _ _ _
      (asObj_eq_of_ne_nil _ _ h (fun hn => he (by rw [hn]; rfl)))

theorem overlayOthers_id (remote : JObj) :
    ∀ (o : JObj),
    (∀ kv, kv ∈ remote → ¬(kv.1 = "mcpServers" ∨ kv.1 = "projects") →
      lookupKey o kv.1 = some kv.2) →
    overlayOthers remote o = o := by
  induction remote with
  | nil => intro o _; rfl
  | cons kv rest ih =>
    intro o h
    rw [overlayOthers_cons]
    by_cases hreg : kv.1 = "mcpServers" ∨ kv.1 = "projects"
    · rw [if_pos hreg]
      exact ih o (fun x hx => h x (List.mem_cons_of_mem _ hx))
    · rw [if_neg hreg, setKey_self _ _ _ (h kv (List.mem_cons_self _ _) hreg)]
      exact ih o (fun x hx => h x (List.mem_cons_of_mem _ hx))

theorem smartStep_m_cases (ask : Oracle) (ay : Bool) (ctx : String) (st : MState)
    (kv : String × JVal) :
    (smartMergeKeyStep ask ay ctx st kv).m = st.m ∨
    (smartMergeKeyStep ask ay ctx st kv).m = setKey st.m kv.1 kv.2 := by
  unfold smartMergeKeyStep
  rcases hl : lookupKey st.m kv.1 with _ | lv
  · exact Or.inr rfl
  · dsimp only
    by_cases hb : lv.beq kv.2 = true
    · rw [if_pos hb]; exact Or.inl rfl
    · rw [if_neg hb]
      by_cases ha : (ay || st.flags.useLocalForAll) = true
      · rw [if_pos ha]; exact Or.inl rfl
      · rw [if_neg ha]
        by_cases hr : st.flags.useRemoteForAll = true
        · rw [if_pos hr]; exact Or.inr rfl
        · rw [if_neg hr]
          rcases ask ctx kv.1 lv kv.2 with _ | _ | _ | _
          · exact Or.inr rfl
          · exact Or.inl rfl
          · exact Or.inr rfl
          · exact Or.inl rfl

theorem smartKeys_m_preserve (ask : Oracle) (ay : Bool) (ctx : String) :
    ∀ (ks : JObj) (st : MState) (k : String), k ∉ keysOf ks →
    lookupKey (smartMergeKeys ask ay ctx ks st).m k = lookupKey st.m k := by
  intro ks
  induction ks with
  | nil => intro st k _; rfl
  | cons kv rest ih =>
    intro st k h
    obtain ⟨h1, h2⟩ := not_mem_keysOf_cons h
    rw [smartMergeKeys_cons, ih _ _ h2]
    rcases smartStep_m_cases ask ay ctx st kv with hc | hc
    · rw [hc]
    · rw [hc, lookupKey_setKey_ne _ _ _ _ h1]

theorem smartKeys_m_ne_nil (ask : Oracle) (ay : Bool) (ctx : String) :
    ∀ (ks : JObj) (st : MState), st.m ≠ [] →
    (smartMergeKeys ask ay ctx ks st).m ≠ [] := by
  intro ks
  induction ks with
  | nil => intro st h; exact h
  | cons kv rest ih =>
    intro st h
    rw [smartMergeKeys_cons]
    refine ih _ ?_
    rcases smartStep_m_cases ask ay ctx st kv with hc | hc
    · rw [hc]; exact h
    · rw [hc]; exact setKey_ne_nil _ _ _

theorem smartProjStep_projects_cases (ask : Oracle) (ay : Bool) (st : PState)
    (pv : String × JVal) :
    (smartProjectStep ask ay st pv).projects = st.projects ∨
    ∃ c, (smartProjectStep ask ay st pv).projects = setKey st.projects pv.1 (.obj c) := by
  unfold smartProjectStep
  rcases pv.2 with _ | b | n | s | xs | rc
  · exact Or.inl rfl
  · exact Or.inl rfl
  · exact Or.inl rfl
  · exact Or.inl rfl
  · exact Or.inl rfl
  · exact Or.inr ⟨_, rfl⟩

theorem smartProj_preserve (ask : Oracle) (ay : Bool) :
    ∀ (ks : JObj) (st : PState) (p : String), p ∉ keysOf ks →
    lookupKey (List.foldl (smartProjectStep ask ay) st ks).projects p =
      lookupKey st.projects p := by
  intro ks
  induction ks with
  | nil => intro st p _; rfl
  | cons pv rest ih =>
    intro st p h
    obtain ⟨h1, h2⟩ := not_mem_keysOf_cons h
    rw [List.foldl_cons, ih _ _ h2]
    rcases smartProjStep_projects_cases ask ay st pv with hc | ⟨c, hc⟩
    · rw [hc]
    · rw [hc, lookupKey_setKey_ne _ _ _ _ h1]

theorem smartProj_ne_nil (ask : Oracle) (ay : Bool) :
    ∀ (ks : JObj) (st : PState), st.projects ≠ [] →
    (List.foldl (smartProjectStep ask ay) st ks).projects ≠ [] := by
  intro ks
  induction ks with
  | nil => intro st h; exact h
  | cons pv rest ih =>
    intro st h
    rw [List.foldl_cons]
    refine ih _ ?_
    rcases smartProjStep_projects_cases ask ay st pv with hc | ⟨c, hc⟩
    · rw [hc]; exact h
    · rw [hc]; exact setKey_ne_nil _ _ _

theorem smartKeys_replay (ask : Oracle) (ay : Bool) (ctx : String) :
    ∀ (ks : JObj) (stA : MState) (gB : Flags) (dB : Bool)
      (qB : List (String × String)),
    (keysOf ks).Nodup → FlagsRel stA.flags gB →
    (smartMergeKeys ask ay ctx ks
        ⟨(smartMergeKeys ask ay ctx ks stA).m, gB, dB, qB⟩).m =
      (smartMergeKeys ask ay ctx ks stA).m ∧
    FlagsRel (smartMergeKeys ask ay ctx ks stA).flags
      (smartMergeKeys ask ay ctx ks
        ⟨(smartMergeKeys ask ay ctx ks stA).m, gB, dB, qB⟩).flags := by
  intro ks
  induction ks with
  | nil => intro stA gB dB qB _ hrel; exact ⟨rfl, hrel⟩
  | cons kv rest ih =>
    intro stA gB dB qB hnd hrel
    obtain ⟨hnd1, hnd2⟩ := nodup_keysOf_cons hnd
    obtain ⟨hg1, hg2, hg3⟩ := hrel
    simp only [smartMergeKeys_cons]
    rcases hl : lookupKey stA.m kv.1 with _ | lv
    · have hstepA : smartMergeKeyStep ask ay ctx stA kv =
          ⟨setKey stA.m kv.1 kv.2, stA.flags, true, stA.prompts⟩ := by
        unfold smartMergeKeyStep
        rw [hl]
      rw [hstepA]
      have hlB : lookupKey (smartMergeKeys ask ay ctx rest
          ⟨setKey stA.m kv.1 kv.2, stA.flags, true, stA.prompts⟩).m kv.1 = some kv.2 := by
        rw [smartKeys_m_preserve ask ay ctx rest _ kv.1 hnd1]
        exact lookupKey_setKey_self _ _ _
      have hstepB : smartMergeKeyStep ask ay ctx
          ⟨(smartMergeKeys ask ay ctx rest
            ⟨setKey stA.m kv.1 kv.2, stA.flags, true, stA.prompts⟩).m, gB, dB, qB⟩ kv =
          ⟨(smartMergeKeys ask ay ctx rest
            ⟨setKey stA.m kv.1 kv.2, stA.flags, true, stA.prompts⟩).m, gB, dB, qB⟩ := by
        unfold smartMergeKeyStep
        rw [hlB]
        dsimp only
        rw [if_pos (JVal.beq_refl kv.2)]
      rw [hstepB]
      exact ih _ gB dB qB hnd2 ⟨hg1, hg2, hg3⟩
    · by_cases hb : lv.beq kv.2 = true
      · have hstepA : smartMergeKeyStep ask ay ctx stA kv = stA := by
          unfold smartMergeKeyStep
          rw [hl]
          dsimp only
          rw [if_pos hb]
        rw [hstepA]
        have hlB : lookupKey (smartMergeKeys ask ay ctx rest stA).m kv.1 = some lv := by
          rw [smartKeys_m_preserve ask ay ctx rest _ kv.1 hnd1]
          exact hl
        have hstepB : smartMergeKeyStep ask ay ctx
            ⟨(smartMergeKeys ask ay ctx rest stA).m, gB, dB, qB⟩ kv =
            ⟨(smartMergeKeys ask ay ctx rest stA).m, gB, dB, qB⟩ := by
          unfold smartMergeKeyStep
          rw [hlB]
          dsimp only
          rw [if_pos hb]
        rw [hstepB]
        exact ih _ gB dB qB hnd2 ⟨hg1, hg2, hg3⟩
      · by_cases ha : (ay || stA.flags.useLocalForAll) = true
        · have hstepA : smartMergeKeyStep ask ay ctx stA kv = stA := by
            unfold smartMergeKeyStep
            rw [hl]
            dsimp only
            rw [if_neg hb, if_pos ha]
          rw [hstepA]
          have hlB : lookupKey (smartMergeKeys ask ay ctx rest stA).m kv.1 = some lv := by
            rw [smartKeys_m_preserve ask ay ctx rest _ kv.1 hnd1]
            exact hl
          have haB : (ay || gB.useLocalForAll) = true := by
            have ha2 : ay = true ∨ stA.flags.useLocalForAll = true := by simpa using ha
            rcases ha2 with hay | hal
            · rw [hay]
              rfl
            · by_cases hr : stA.flags.useRemoteForAll = true
              · rw [(hg3 hr).2] at hal
                cases hal
              · have hrf : stA.flags.useRemoteForAll = false := by
                  revert hr
                  cases stA.flags.useRemoteForAll <;> simp
                rw [hg2 hrf, hal, Bool.or_true]
          have hstepB : smartMergeKeyStep ask ay ctx
              ⟨(smartMergeKeys ask ay ctx rest stA).m, gB, dB, qB⟩ kv =
              ⟨(smartMergeKeys ask ay ctx rest stA).m, gB, dB, qB⟩ := by
            unfold smartMergeKeyStep
            rw [hlB]
            dsimp only
            rw [if_neg hb, if_pos haB]
          rw [hstepB]
          exact ih _ gB dB qB hnd2 ⟨hg1, hg2, hg3⟩
        · have hha : ay = false ∧ stA.flags.useLocalForAll = false := by
            revert ha
            cases ay <;> cases stA.flags.useLocalForAll <;> simp
          by_cases hr : stA.flags.useRemoteForAll = true
          · have hstepA : smartMergeKeyStep ask ay ctx stA kv =
                ⟨setKey stA.m kv.1 kv.2, stA.flags, true, stA.prompts⟩ := by
              unfold smartMergeKeyStep
              rw [hl]
              dsimp only
              rw [if_neg hb, if_neg ha, if_pos hr]
            rw [hstepA]
            have hlB : lookupKey (smartMergeKeys ask ay ctx rest
                ⟨setKey stA.m kv.1 kv.2, stA.flags, true, stA.prompts⟩).m kv.1 =
                some kv.2 := by
              rw [smartKeys_m_preserve ask ay ctx rest _ kv.1 hnd1]
              exact lookupKey_setKey_self _ _ _
            have hstepB : smartMergeKeyStep ask ay ctx
                ⟨(smartMergeKeys ask ay ctx rest
                  ⟨setKey stA.m kv.1 kv.2, stA.flags, true, stA.prompts⟩).m,
                  gB, dB, qB⟩ kv =
                ⟨(smartMergeKeys ask ay ctx rest
                  ⟨setKey stA.m kv.1 kv.2, stA.flags, true, stA.prompts⟩).m,
                  gB, dB, qB⟩ := by
              unfold smartMergeKeyStep
              rw [hlB]
              dsimp only
              rw [if_pos (JVal.beq_refl kv.2)]
            rw [hstepB]
            exact ih _ gB dB qB hnd2 ⟨hg1, hg2, hg3⟩
          · have hrf : stA.flags.useRemoteForAll = false := by
              revert hr
              cases stA.flags.useRemoteForAll <;> simp
            have hglB : gB.useLocalForAll = false := by rw [hg2 hrf, hha.2]
            have haB : ¬((ay || gB.useLocalForAll) = true) := by
              rw [hha.1, hglB]
              simp
            rcases hc : ask ctx kv.1 lv kv.2 with _ | _ | _ | _
            · have hstepA : smartMergeKeyStep ask ay ctx stA kv =
                  ⟨setKey stA.m kv.1 kv.2, stA.flags, true,
                    stA.prompts ++ [(ctx, kv.1)]⟩ := by
                unfold smartMergeKeyStep
                rw [hl]
                dsimp only
                rw [if_neg hb, if_neg ha, if_neg hr, hc]
              rw [hstepA]
              have hlB : lookupKey (smartMergeKeys ask ay ctx rest
                  ⟨setKey stA.m kv.1 kv.2, stA.flags, true,
                    stA.prompts ++ [(ctx, kv.1)]⟩).m kv.1 = some kv.2 := by
                rw [smartKeys_m_preserve ask ay ctx rest _ kv.1 hnd1]
                exact lookupKey_setKey_self _ _ _
              have hstepB : smartMergeKeyStep ask ay ctx
                  ⟨(smartMergeKeys ask ay ctx rest
                    ⟨setKey stA.m kv.1 kv.2, stA.flags, true,
                      stA.prompts ++ [(ctx, kv.1)]⟩).m, gB, dB, qB⟩ kv =
                  ⟨(smartMergeKeys ask ay ctx rest
                    ⟨setKey stA.m kv.1 kv.2, stA.flags, true,
                      stA.prompts ++ [(ctx, kv.1)]⟩).m, gB, dB, qB⟩ := by
                unfold smartMergeKeyStep
                rw [hlB]
                dsimp only
                rw [if_pos (JVal.beq_refl kv.2)]
              rw [hstepB]
              exact ih _ gB dB qB hnd2 ⟨hg1, hg2, hg3⟩
            · have hstepA : smartMergeKeyStep ask ay ctx stA kv =
                  ⟨stA.m, stA.flags, stA.changed, stA.prompts ++ [(ctx, kv.1)]⟩ := by
                unfold smartMergeKeyStep
                rw [hl]
                dsimp only
                rw [if_neg hb, if_neg ha, if_neg hr, hc]
              rw [hstepA]
              have hlB : lookupKey (smartMergeKeys ask ay ctx rest
                  ⟨stA.m, stA.flags, stA.changed,
                    stA.prompts ++ [(ctx, kv.1)]⟩).m kv.1 = some lv := by
                rw [smartKeys_m_preserve ask ay ctx rest _ kv.1 hnd1]
                exact hl
              have hstepB : smartMergeKeyStep ask ay ctx
                  ⟨(smartMergeKeys ask ay ctx rest
                    ⟨stA.m, stA.flags, stA.changed,
                      stA.prompts ++ [(ctx, kv.1)]⟩).m, gB, dB, qB⟩ kv =
                  ⟨(smartMergeKeys ask ay ctx rest
                    ⟨stA.m, stA.flags, stA.changed,
                      stA.prompts ++ [(ctx, kv.1)]⟩).m, gB, dB,
                    qB ++ [(ctx, kv.1)]⟩ := by
                unfold smartMergeKeyStep
                rw [hlB]
                dsimp only
                rw [if_neg hb, if_neg haB, if_neg (by rw [hg1]; simp), hc]
              rw [hstepB]
              exact ih _ gB dB (qB ++ [(ctx, kv.1)]) hnd2 ⟨hg1, hg2, hg3⟩
            · have hstepA : smartMergeKeyStep ask ay ctx stA kv =
                  ⟨setKey stA.m kv.1 kv.2,
                    ⟨true, stA.flags.useLocalForAll⟩, true,
                    stA.prompts ++ [(ctx, kv.1)]⟩ := by
                unfold smartMergeKeyStep
                rw [hl]
                dsimp only
                rw [if_neg hb, if_neg ha, if_neg hr, hc]
              rw [hstepA]
              have hlB : lookupKey (smartMergeKeys ask ay ctx rest
                  ⟨setKey stA.m kv.1 kv.2, ⟨true, stA.flags.useLocalForAll⟩, true,
                    stA.prompts ++ [(ctx, kv.1)]⟩).m kv.1 = some kv.2 := by
                rw [smartKeys_m_preserve ask ay ctx rest _ kv.1 hnd1]
                exact lookupKey_setKey_self _ _ _
              have hstepB : smartMergeKeyStep ask ay ctx
                  ⟨(smartMergeKeys ask ay ctx rest
                    ⟨setKey stA.m kv.1 kv.2, ⟨true, stA.flags.useLocalForAll⟩, true,
                      stA.prompts ++ [(ctx, kv.1)]⟩).m, gB, dB, qB⟩ kv =
                  ⟨(smartMergeKeys ask ay ctx rest
                    ⟨setKey stA.m kv.1 kv.2, ⟨true, stA.flags.useLocalForAll⟩, true,
                      stA.prompts ++ [(ctx, kv.1)]⟩).m, gB, dB, qB⟩ := by
                unfold smartMergeKeyStep
                rw [hlB]
                dsimp only
                rw [if_pos (JVal.beq_refl kv.2)]
              rw [hstepB]
              refine ih _ gB dB qB hnd2 ⟨hg1, ?_, ?_⟩
              · intro hcontr
                cases hcontr
              · intro _
                exact ⟨hglB, hha.2⟩
            · have hstepA : smartMergeKeyStep ask ay ctx stA kv =
                  ⟨stA.m, ⟨stA.flags.useRemoteForAll, true⟩, stA.changed,
                    stA.prompts ++ [(ctx, kv.1)]⟩ := by
                unfold smartMergeKeyStep
                rw [hl]
                dsimp only
                rw [if_neg hb, if_neg ha, if_neg hr, hc]
              rw [hstepA]
              have hlB : lookupKey (smartMergeKeys ask ay ctx rest
                  ⟨stA.m, ⟨stA.flags.useRemoteForAll, true⟩, stA.changed,
                    stA.prompts ++ [(ctx, kv.1)]⟩).m kv.1 = some lv := by
                rw [smartKeys_m_preserve ask ay ctx rest _ kv.1 hnd1]
                exact hl
              have hstepB : smartMergeKeyStep ask ay ctx
                  ⟨(smartMergeKeys ask ay ctx rest
                    ⟨stA.m, ⟨stA.flags.useRemoteForAll, true⟩, stA.changed,
                      stA.prompts ++ [(ctx, kv.1)]⟩).m, gB, dB, qB⟩ kv =
                  ⟨(smartMergeKeys ask ay ctx rest
                    ⟨stA.m, ⟨stA.flags.useRemoteForAll, true⟩, stA.changed,
                      stA.prompts ++ [(ctx, kv.1)]⟩).m,
                    ⟨gB.useRemoteForAll, true⟩, dB, qB ++ [(ctx, kv.1)]⟩ := by
                unfold smartMergeKeyStep
                rw [hlB]
                dsimp only
                rw [if_neg hb, if_neg haB, if_neg (by rw [hg1]; simp), hc]
              rw [hstepB]
              refine ih _ ⟨gB.useRemoteForAll, true⟩ dB (qB ++ [(ctx, kv.1)]) hnd2
                ⟨hg1, ?_, ?_⟩
              · intro _
                rfl
              · intro hcontr
                rw [hrf] at hcontr
                cases hcontr

theorem smartProjectStep_obj (ask : Oracle) (ay : Bool) (st : PState) (p : String)
    (rc : JObj) :
    smartProjectStep ask ay st (p, .obj rc) =
      ⟨setKey st.projects p (.obj (projCfg ask ay st p rc)),
        (projMS ask ay st p rc).flags, (projMS ask ay st p rc).changed,
        (projMS ask ay st p rc).prompts⟩ := rfl

theorem projCfg_mcp_field (ask : Oracle) (ay : Bool) (st : PState) (p : String)
    (rc : JObj) :
    getObjField (projCfg ask ay st p rc) "mcpServers" = (projMS ask ay st p rc).m := by
  unfold projCfg
  by_cases he : (projMS ask ay st p rc).m.isEmpty = true
  · rw [if_pos he]
    have hm : getObjField (asObj (lookupKey st.projects p)) "mcpServers" = [] := by
      by_contra hne
      exact smartKeys_m_ne_nil ask ay _ _ _ hne (List.isEmpty_iff.1 he)
    rw [List.isEmpty_iff.1 he, hm]
  · rw [if_neg he, getObjField_eq, lookupKey_setKey_self]
    rfl

theorem smartProj_replay (ask : Oracle) (ay : Bool) :
    ∀ (ks : JObj) (stA : PState) (gB : Flags) (dB : Bool)
      (qB : List (String × String)),
    (keysOf ks).Nodup →
    (∀ p rc, (p, JVal.obj rc) ∈ ks → (keysOf (getObjField rc "mcpServers")).Nodup) →
    FlagsRel stA.flags gB →
    (List.foldl (smartProjectStep ask ay)
        ⟨(List.foldl (smartProjectStep ask ay) stA ks).projects, gB, dB, qB⟩
        ks).projects =
      (List.foldl (smartProjectStep ask ay) stA ks).projects ∧
    FlagsRel (List.foldl (smartProjectStep ask ay) stA ks).flags
      (List.foldl (smartProjectStep ask ay)
        ⟨(List.foldl (smartProjectStep ask ay) stA ks).projects, gB, dB, qB⟩
        ks).flags := by
  intro ks
  induction ks with
  | nil => intro stA gB dB qB _ _ hrel; exact ⟨rfl, hrel⟩
  | cons pv rest ih =>
    intro stA gB dB qB hnd hnest hrel
    obtain ⟨p, v⟩ := pv
    obtain ⟨hnd1, hnd2⟩ := nodup_keysOf_cons hnd
    have hnest2 : ∀ q rc, (q, JVal.obj rc) ∈ rest →
        (keysOf (getObjField rc "mcpServers")).Nodup :=
      fun q rc hq => hnest q rc (List.mem_cons_of_mem _ hq)
    rcases v with _ | b | n | s | xs | rc
    · exact ih stA gB dB qB hnd2 hnest2 hrel
    · exact ih stA gB dB qB hnd2 hnest2 hrel
    · exact ih stA gB dB qB hnd2 hnest2 hrel
    · exact ih stA gB dB qB hnd2 hnest2 hrel
    · exact ih stA gB dB qB hnd2 hnest2 hrel
    · have hrcnd : (keysOf (getObjField rc "mcpServers")).Nodup :=
        hnest p rc (List.mem_cons_self _ _)
      simp only [List.foldl_cons]
      have hstepA : smartProjectStep ask ay stA (p, .obj rc) =
          ⟨setKey stA.projects p (.obj (projCfg ask ay stA p rc)),
            (projMS ask ay stA p rc).flags, (projMS ask ay stA p rc).changed,
            (projMS ask ay stA p rc).prompts⟩ := smartProjectStep_obj ask ay stA p rc
      have hP1 : lookupKey (List.foldl (smartProjectStep ask ay)
          (smartProjectStep ask ay stA (p, .obj rc)) rest).projects p =
          some (.obj (projCfg ask ay stA p rc)) := by
        rw [smartProj_preserve ask ay rest _ p hnd1, hstepA]
        exact lookupKey_setKey_self _ _ _
      have hrep := smartKeys_replay ask ay ("projects[" ++ p ++ "].mcpServers")
        (getObjField rc "mcpServers")
        ⟨getObjField (asObj (lookupKey stA.projects p)) "mcpServers", stA.flags,
          stA.changed, stA.prompts⟩ gB dB qB hrcnd hrel
      have hmsB : projMS ask ay ⟨(List.foldl (smartProjectStep ask ay)
          (smartProjectStep ask ay stA (p, .obj rc)) rest).projects, gB, dB, qB⟩
            p rc =
          smartMergeKeys ask ay ("projects[" ++ p ++ "].mcpServers")
            (getObjField rc "mcpServers")
            ⟨(projMS ask ay stA p rc).m, gB, dB, qB⟩ := by
        unfold projMS
        dsimp only
        rw [hP1]
        dsimp only [asObj]
        rw [projCfg_mcp_field]
        rfl
      have hmB : (projMS ask ay ⟨(List.foldl (smartProjectStep ask ay)
          (smartProjectStep ask ay stA (p, .obj rc)) rest).projects, gB, dB, qB⟩
            p rc).m = (projMS ask ay stA p rc).m := by
        rw [hmsB]
        exact hrep.1
      have hfB : FlagsRel (projMS ask ay stA p rc).flags
          (projMS ask ay ⟨(List.foldl (smartProjectStep ask ay)
            (smartProjectStep ask ay stA (p, .obj rc)) rest).projects, gB, dB, qB⟩
              p rc).flags := by
        rw [hmsB]
        exact hrep.2
      have hcfgB : projCfg ask ay ⟨(List.foldl (smartProjectStep ask ay)
          (smartProjectStep ask ay stA (p, .obj rc)) rest).projects, gB, dB, qB⟩
            p rc = projCfg ask ay stA p rc := by
        unfold projCfg
        dsimp only
        rw [hmB, hP1]
        dsimp only [asObj]
        exact writeback_id _ _ _ (projCfg_mcp_field ask ay stA p rc)
      have hstepB : smartProjectStep ask ay
          ⟨(List.foldl (smartProjectStep ask ay)
            (smartProjectStep ask ay stA (p, .obj rc)) rest).projects, gB, dB, qB⟩
          (p, .obj rc) =
          ⟨(List.foldl (smartProjectStep ask ay)
              (smartProjectStep ask ay stA (p, .obj rc)) rest).projects,
            (projMS ask ay ⟨(List.foldl (smartProjectStep ask ay)
              (smartProjectStep ask ay stA (p, .obj rc)) rest).projects,
                gB, dB, qB⟩ p rc).flags,
            (projMS ask ay ⟨(List.foldl (smartProjectStep ask ay)
              (smartProjectStep ask ay stA (p, .obj rc)) rest).projects,
                gB, dB, qB⟩ p rc).changed,
            (projMS ask ay ⟨(List.foldl (smartProjectStep ask ay)
              (smartProjectStep ask ay stA (p, .obj rc)) rest).projects,
                gB, dB, qB⟩ p rc).prompts⟩ := by
        rw [smartProjectStep_obj]
        dsimp only
        rw [hcfgB, setKey_self _ _ _ hP1]
      rw [hstepB]
      refine ih _ _ _ _ hnd2 hnest2 ?_
      rw [hstepA]
      exact hfB

theorem mergeMCPSmart_good (ask : Oracle) (ay : Bool) (lobj robj : JObj) :
    mergeMCPSmart ask (.good lobj) (.good robj) ay =
      (.good (smartOut ask ay lobj robj), (smartPS ask ay lobj robj).changed,
        (smartPS ask ay lobj robj).prompts) := rfl

theorem smartOut_mcp (ask : Oracle) (ay : Bool) (lobj robj : JObj) :
    getObjField (smartOut ask ay lobj robj) "mcpServers" =
      (smartMS ask ay lobj robj).m := by
  unfold smartOut smartL2
  rw [getObjField_eq, overlayOthers_preserve _ _ _ (Or.inr (Or.inl rfl))]
  rw [lookup_writeback_ne _ _ _ _ (by decide)]
  unfold smartL1
  by_cases he : (smartMS ask ay lobj robj).m.isEmpty = true
  · rw [if_pos he]
    have hm : getObjField lobj "mcpServers" = [] := by
      by_contra hne
      exact smartKeys_m_ne_nil ask ay "mcpServers" (getObjField robj "mcpServers")
        ⟨getObjField lobj "mcpServers", ⟨false, false⟩, false, []⟩ hne
        (List.isEmpty_iff.1 he)
    rw [← getObjField_eq, List.isEmpty_iff.1 he, hm]
  · rw [if_neg he, lookupKey_setKey_self]
    rfl

theorem smartOut_projects (ask : Oracle) (ay : Bool) (lobj robj : JObj) :
    getObjField (smartOut ask ay lobj robj) "projects" =
      (smartPS ask ay lobj robj).projects := by
  unfold smartOut smartL2
  rw [getObjField_eq, overlayOthers_preserve _ _ _ (Or.inr (Or.inr rfl))]
  by_cases he : (smartPS ask ay lobj robj).projects.isEmpty = true
  · rw [if_pos he]
    have hm : getObjField (smartL1 ask ay lobj robj) "projects" = [] := by
      by_contra hne
      exact smartProj_ne_nil ask ay (getObjField robj "projects")
        ⟨getObjField (smartL1 ask ay lobj robj) "projects",
          (smartMS ask ay lobj robj).flags, (smartMS ask ay lobj robj).changed,
          (smartMS ask ay lobj robj).prompts⟩ hne (List.isEmpty_iff.1 he)
    rw [← getObjField_eq, List.isEmpty_iff.1 he, hm]
  · rw [if_neg he, lookupKey_setKey_self]
    rfl

/-- C9: smart merge is idempotent under a fixed (deterministic) user
oracle: re-merging the merged document against the same remote document
yields the same document, including in the auto-confirm case.
Hypotheses: the remote document's key lists (top level, `mcpServers`
registry, `projects` map and each remote project's registry) have no
duplicate keys, as decoded Go maps do. -/
theorem c9_smart_merge_idempotent (ask : Oracle) (ay : Bool) (lobj robj : JObj)
    (h1 : (keysOf robj).Nodup)
    (h2 : (keysOf (getObjField robj "mcpServers")).Nodup)
    (h3 : (keysOf (getObjField robj "projects")).Nodup)
    (h4 : ∀ p rc, (p, JVal.obj rc) ∈ getObjField robj "projects" →
      (keysOf (getObjField rc "mcpServers")).Nodup) :
    (mergeMCPSmart ask (mergeMCPSmart ask (.good lobj) (.good robj) ay).1
        (.good robj) ay).1 =
      (mergeMCPSmart ask (.good lobj) (.good robj) ay).1 := by
  have hrepK := smartKeys_replay ask ay "mcpServers" (getObjField robj "mcpServers")
    ⟨getObjField lobj "mcpServers", ⟨false, false⟩, false, []⟩ ⟨false, false⟩ false []
    h2 ⟨rfl, fun _ => rfl, fun hcontr => by cases hcontr⟩
  have hMS2 : smartMS ask ay (smartOut ask ay lobj robj) robj =
      smartMergeKeys ask ay "mcpServers" (getObjField robj "mcpServers")
        ⟨(smartMS ask ay lobj robj).m, ⟨false, false⟩, false, []⟩ := by
    unfold smartMS
    rw [smartOut_mcp]
    rfl
  have hm2 : (smartMS ask ay (smartOut ask ay lobj robj) robj).m =
      (smartMS ask ay lobj robj).m := by
    rw [hMS2]
    exact hrepK.1
  have hf2 : FlagsRel (smartMS ask ay lobj robj).flags
      (smartMS ask ay (smartOut ask ay lobj robj) robj).flags := by
    rw [hMS2]
    exact hrepK.2
  have hL1 : smartL1 ask ay (smartOut ask ay lobj robj) robj =
      smartOut ask ay lobj robj := by
    unfold smartL1
    rw [hm2]
    exact writeback_id _ _ _ (smartOut_mcp ask ay lobj robj)
  have hPS2 : smartPS ask ay (smartOut ask ay lobj robj) robj =
      List.foldl (smartProjectStep ask ay)
        ⟨(smartPS ask ay lobj robj).projects,
          (smartMS ask ay (smartOut ask ay lobj robj) robj).flags,
          (smartMS ask ay (smartOut ask ay lobj robj) robj).changed,
          (smartMS ask ay (smartOut ask ay lobj robj) robj).prompts⟩
        (getObjField robj "projects") := by
    conv_lhs => unfold smartPS
    rw [hL1, smartOut_projects]
  have hrepP := smartProj_replay ask ay (getObjField robj "projects")
    ⟨getObjField (smartL1 ask ay lobj robj) "projects",
      (smartMS ask ay lobj robj).flags, (smartMS ask ay lobj robj).changed,
      (smartMS ask ay lobj robj).prompts⟩
    (smartMS ask ay (smartOut ask ay lobj robj) robj).flags
    (smartMS ask ay (smartOut ask ay lobj robj) robj).changed
    (smartMS ask ay (smartOut ask ay lobj robj) robj).prompts
    h3 h4 hf2
  have hproj2 : (smartPS ask ay (smartOut ask ay lobj robj) robj).projects =
      (smartPS ask ay lobj robj).projects := by
    rw [hPS2]
    exact hrepP.1
  have hL2 : smartL2 ask ay (smartOut ask ay lobj robj) robj =
      smartOut ask ay lobj robj := by
    unfold smartL2
    rw [hproj2, hL1]
    exact writeback_id _ _ _ (smartOut_projects ask ay lobj robj)
  have hmain : smartOut ask ay (smartOut ask ay lobj robj) robj =
      smartOut ask ay lobj robj := by
    rw [show smartOut ask ay (smartOut ask ay lobj robj) robj =
      overlayOthers robj (smartL2 ask ay (smartOut ask ay lobj robj) robj) from rfl]
    rw [hL2]
    refine overlayOthers_id robj _ ?_
    intro kv hkv hreg
    have hne1 : kv.1 ≠ "mcpServers" := fun he => hreg (Or.inl he)
    have hne2 : kv.1 ≠ "projects" := fun he => hreg (Or.inr he)
    exact overlayOthers_hit robj (smartL2 ask ay lobj robj) kv.1 kv.2 h1 hkv hne1 hne2
  rw [mergeMCPSmart_good]
  dsimp only
  rw [mergeMCPSmart_good]
  dsimp only
  rw [hmain]

theorem c9_witness :
    (mergeMCPSmart (fun _ _ _ _ => Choice.loc)
      (mergeMCPSmart (fun _ _ _ _ => Choice.loc)
        (.good [("mcpServers", JVal.obj [("a", .num 1)])])
        (.good [("mcpServers", JVal.obj [("a", .num 2), ("b", .num 3)]),
          ("theme", JVal.str "x")]) false).1
      (.good [("mcpServers", JVal.obj [("a", .num 2), ("b", .num 3)]),
        ("theme", JVal.str "x")]) false).1 =
    (mergeMCPSmart (fun _ _ _ _ => Choice.loc)
      (.good [("mcpServers", JVal.obj [("a", .num 1)])])
      (.good [("mcpServers", JVal.obj [("a", .num 2), ("b", .num 3)]),
        ("theme", JVal.str "x")]) false).1 :=
  c9_smart_merge_idempotent (fun _ _ _ _ => Choice.loc) false
    [("mcpServers", JVal.obj [("a", .num 1)])]
    [("mcpServers", JVal.obj [("a", .num 2), ("b", .num 3)]), ("theme", JVal.str "x")]
    (by decide) (by decide) (by decide) (by intro p rc h; cases h)

theorem mkdirAll_files (fs : FSR) (p : List String) :
    (mkdirAll fs p).files = fs.files := rfl

theorem mkdirAll_mem (fs : FSR) (p : List String) (h : p ≠ []) :
    p ∈ (mkdirAll fs p).dirs := by
  unfold mkdirAll
  dsimp only
  by_cases hin : p ∈ fs.dirs
  · exact List.mem_append_left _ hin
  · refine List.mem_append_right _ ?_
    refine List.mem_filter.2 ⟨?_, by simp [hin]⟩
    refine List.mem_map.2 ⟨p.length - 1, ?_, ?_⟩
    · refine List.mem_range.2 ?_
      have hp := List.length_pos.2 h
      omega
    · have hlen : p.length - 1 + 1 = p.length := by
        have hp := List.length_pos.2 h
        omega
      rw [hlen, List.take_length]

theorem unpackLoop_cons (dirPath : List String) (fs : FSR) (e : TarEntry)
    (rest : List TarEntry) :
    unpackLoop dirPath fs (e :: rest) =
      if (relComps (cleanComps dirPath)
          (cleanComps (dirPath ++ splitPath e.name))).head? = some ".." then
        (fs, some ("invalid file path in archive: " ++ e.name))
      else match e.kind with
        | .dir => unpackLoop dirPath
            (mkdirAll fs (cleanComps (dirPath ++ splitPath e.name))) rest
        | .reg => unpackLoop dirPath
            (writeFS (mkdirAll fs (cleanComps (dirPath ++ splitPath e.name)).dropLast)
              (cleanComps (dirPath ++ splitPath e.name)) e.content) rest
        | .other => unpackLoop dirPath fs rest := rfl

theorem unpackLoop_escape (dirPath : List String) :
    ∀ (entries : List TarEntry) (fs : FSR) (e : TarEntry), e ∈ entries →
    (relComps (cleanComps dirPath)
      (cleanComps (dirPath ++ splitPath e.name))).head? = some ".." →
    (unpackLoop dirPath fs entries).2 ≠ none := by
  intro entries
  induction entries with
  | nil => intro fs e h _; cases h
  | cons e0 rest ih =>
    intro fs e hmem hbad
    rw [unpackLoop_cons]
    by_cases h0 : (relComps (cleanComps dirPath)
        (cleanComps (dirPath ++ splitPath e0.name))).head? = some ".."
    · rw [if_pos h0]
      simp
    · rw [if_neg h0]
      have hr : e ∈ rest := by
        rcases List.mem_cons.1 hmem with he | he
        · rw [he] at hbad
          exact absurd hbad h0
        · exact he
      rcases hk : e0.kind with _ | _ | _
      · dsimp only
        exact ih _ e hr hbad
      · dsimp only
        exact ih _ e hr hbad
      · dsimp only
        exact ih _ e hr hbad

/-- C8 counterexample to "rather than partially extracting": an archive
whose second entry escapes the target directory makes the unpack return
the traversal error, yet the first entry's file has already been
written below the target directory. -/
theorem c8_counterexample :
    (UnpackDirectory (some [⟨"ok", .reg, "data"⟩, ⟨"../escape", .reg, "x"⟩])
      ["tmp", "target"] ⟨[], []⟩).2 =
      some "invalid file path in archive: ../escape" ∧
    lookupKey (UnpackDirectory
      (some [⟨"ok", .reg, "data"⟩, ⟨"../escape", .reg, "x"⟩])
      ["tmp", "target"] ⟨[], []⟩).1.files ["tmp", "target", "ok"] = some "data" :=
  ⟨by decide, by decide⟩

/-- C8 (amended): packing a nonexistent path yields the empty blob;
unpacking the empty blob only creates the target directory (no file is
touched); and an archive entry whose resolved path escapes the target
directory makes the whole unpack return an error — but entries
extracted before the offending one are not rolled back (see the
counterexample). -/
theorem c8_pack_unpack_guard (fs : FSR) (dirPath : List String) :
    (dirPath ∉ fs.dirs → lookupKey fs.files dirPath = none →
      PackDirectory fs dirPath = .ok none) ∧
    ((UnpackDirectory none dirPath fs).2 = none ∧
     (UnpackDirectory none dirPath fs).1.files = fs.files ∧
     (dirPath ≠ [] → dirPath ∈ (UnpackDirectory none dirPath fs).1.dirs)) ∧
    (∀ entries e, e ∈ entries →
      (relComps (cleanComps dirPath)
        (cleanComps (dirPath ++ splitPath e.name))).head? = some ".." →
      (UnpackDirectory (some entries) dirPath fs).2 ≠ none) := by
  refine ⟨?_, ⟨rfl, rfl, fun h => mkdirAll_mem fs dirPath h⟩, ?_⟩
  · intro h1 h2
    unfold PackDirectory
    rw [if_neg h1, if_neg (by rw [h2]; simp)]
  · intro entries e hmem hbad
    exact unpackLoop_escape dirPath entries _ e hmem hbad

theorem c8_witness :
    PackDirectory ⟨[["a"]], []⟩ ["tmp", "target"] = .ok none ∧
    (UnpackDirectory none ["tmp", "target"] ⟨[["a"]], []⟩).2 = none ∧
    ["tmp", "target"] ∈ (UnpackDirectory none ["tmp", "target"] ⟨[["a"]], []⟩).1.dirs ∧
    (UnpackDirectory (some [⟨"../escape", .reg, "x"⟩]) ["tmp", "target"]
      ⟨[["a"]], []⟩).2 ≠ none := by
  have h := c8_pack_unpack_guard ⟨[["a"]], []⟩ ["tmp", "target"]
  exact ⟨h.1 (by decide) rfl, h.2.1.1, h.2.1.2.2 (by decide),
    h.2.2 _ ⟨"../escape", .reg, "x"⟩ (List.mem_cons_self _ _) (by decide)⟩

theorem smartL1_projects (ask : Oracle) (ay : Bool) (lobj robj : JObj) :
    getObjField (smartL1 ask ay lobj robj) "projects" =
      getObjField lobj "projects" := by
  unfold smartL1
  rw [getObjField_eq, lookup_writeback_ne _ _ _ _ (by decide), ← getObjField_eq]

theorem smartMerge_projects_field (ask : Oracle) (ay : Bool) (lobj robj : JObj) :
    getObjField (docObj (mergeMCPSmart ask (.good lobj) (.good robj) ay).1)
      "projects" = (smartPS ask ay lobj robj).projects := by
  rw [mergeMCPSmart_good]
  dsimp only [docObj]
  exact smartOut_projects ask ay lobj robj

theorem smartProjStep_lookup_other (ask : Oracle) (ay : Bool) (st : PState)
    (pv : String × JVal) (p : String) (h : pv.1 ≠ p) :
    lookupKey (smartProjectStep ask ay st pv).projects p =
      lookupKey st.projects p := by
  rcases smartProjStep_projects_cases ask ay st pv with hc | ⟨c, hc⟩
  · rw [hc]
  · rw [hc, lookupKey_setKey_ne _ _ _ _ h]

theorem smartProjects_hit_present (ask : Oracle) :
    ∀ (remote : JObj) (st : PState) (p : String) (rc : JObj) (lpv : JVal),
    (keysOf remote).Nodup → (p, JVal.obj rc) ∈ remote →
    lookupKey st.projects p = some lpv →
    lookupKey (List.foldl (smartProjectStep ask true) st remote).projects p =
      some (.obj (klProjectCfg lpv rc)) := by
  intro remote
  induction remote with
  | nil => intro st p rc lpv _ hmem _; cases hmem
  | cons pv rest ih =>
    intro st p rc lpv hnd hmem h
    obtain ⟨hnd1, hnd2⟩ := nodup_keysOf_cons hnd
    rcases List.mem_cons.1 hmem with hh | hh
    · have hk : pv.1 = p := (Prod.ext_iff.1 hh.symm).1
      have hv : pv.2 = JVal.obj rc := (Prod.ext_iff.1 hh.symm).2
      have hnotin : p ∉ keysOf rest := hk ▸ hnd1
      rw [List.foldl_cons, smartProj_preserve ask true rest _ p hnotin]
      unfold smartProjectStep
      rw [hv]
      dsimp only
      rw [hk, h]
      rw [lookupKey_setKey_self, smartKeys_autoYes]
      dsimp only
      unfold klProjectCfg
      dsimp only
      rw [fst_addMissing_bool _ _ st.changed false]
    · have hk : pv.1 ≠ p := fun he => hnd1 (he ▸ mem_keysOf hh)
      rw [List.foldl_cons]
      exact ih _ p rc lpv hnd2 hh
        (by rw [smartProjStep_lookup_other ask true st pv p hk]; exact h)

theorem smartProjects_hit_absent (ask : Oracle) :
    ∀ (remote : JObj) (st : PState) (p : String) (rc : JObj),
    (keysOf remote).Nodup → (p, JVal.obj rc) ∈ remote →
    lookupKey st.projects p = none →
    lookupKey (List.foldl (smartProjectStep ask true) st remote).projects p =
      some (.obj (klProjectCfg JVal.null rc)) := by
  intro remote
  induction remote with
  | nil => intro st p rc _ hmem _; cases hmem
  | cons pv rest ih =>
    intro st p rc hnd hmem h
    obtain ⟨hnd1, hnd2⟩ := nodup_keysOf_cons hnd
    rcases List.mem_cons.1 hmem with hh | hh
    · have hk : pv.1 = p := (Prod.ext_iff.1 hh.symm).1
      have hv : pv.2 = JVal.obj rc := (Prod.ext_iff.1 hh.symm).2
      have hnotin : p ∉ keysOf rest := hk ▸ hnd1
      rw [List.foldl_cons, smartProj_preserve ask true rest _ p hnotin]
      unfold smartProjectStep
      rw [hv]
      dsimp only
      rw [hk, h]
      rw [lookupKey_setKey_self, smartKeys_autoYes]
      dsimp only
      unfold klProjectCfg
      dsimp only [asObj]
      rw [fst_addMissing_bool _ _ st.changed false]
    · have hk : pv.1 ≠ p := fun he => hnd1 (he ▸ mem_keysOf hh)
      rw [List.foldl_cons]
      exact ih _ p rc hnd2 hh
        (by rw [smartProjStep_lookup_other ask true st pv p hk]; exact h)

/-- C10: with auto-confirm (`autoYes = true`) the smart merge issues no
prompt; in the global `mcpServers` registry it keeps the local value of
every key the local side already has (in particular every key present
on both sides with differing values) and adds keys only the remote
side has; each remote project resolves to its keep-local configuration
(`klProjectCfg`) whether or not the project exists locally, whose
nested registry likewise keeps local values and adds remote-only keys;
and top-level fields outside the `mcpServers` / `projects` registries
are overwritten from remote. -/
theorem c10_auto_confirm_keeps_local (ask : Oracle) (lobj robj : JObj) :
    (mergeMCPSmart ask (.good lobj) (.good robj) true).2.2 = [] ∧
    (∀ k lv, lookupKey (getObjField lobj "mcpServers") k = some lv →
      lookupKey (getObjField (docObj (mergeMCPSmart ask (.good lobj) (.good robj)
        true).1) "mcpServers") k = some lv) ∧
    (∀ k v, (keysOf (getObjField robj "mcpServers")).Nodup →
      lookupKey (getObjField robj "mcpServers") k = some v →
      lookupKey (getObjField lobj "mcpServers") k = none →
      lookupKey (getObjField (docObj (mergeMCPSmart ask (.good lobj) (.good robj)
        true).1) "mcpServers") k = some v) ∧
    (∀ k v, (keysOf robj).Nodup → lookupKey robj k = some v →
      k ≠ "mcpServers" → k ≠ "projects" →
      lookupKey (docObj (mergeMCPSmart ask (.good lobj) (.good robj) true).1) k =
        some v) ∧
    (∀ p rc lpv, (keysOf (getObjField robj "projects")).Nodup →
      (p, JVal.obj rc) ∈ getObjField robj "projects" →
      lookupKey (getObjField lobj "projects") p = some lpv →
      lookupKey (getObjField (docObj (mergeMCPSmart ask (.good lobj) (.good robj)
        true).1) "projects") p = some (.obj (klProjectCfg lpv rc))) ∧
    (∀ p rc, (keysOf (getObjField robj "projects")).Nodup →
      (p, JVal.obj rc) ∈ getObjField robj "projects" →
      lookupKey (getObjField lobj "projects") p = none →
      lookupKey (getObjField (docObj (mergeMCPSmart ask (.good lobj) (.good robj)
        true).1) "projects") p = some (.obj (klProjectCfg JVal.null rc))) ∧
    (∀ lpv rc k v,
      lookupKey (getObjField (asObj (some lpv)) "mcpServers") k = some v →
      lookupKey (getObjField (klProjectCfg lpv rc) "mcpServers") k = some v) ∧
    (∀ lpv rc k v, (keysOf (getObjField rc "mcpServers")).Nodup →
      lookupKey (getObjField rc "mcpServers") k = some v →
      lookupKey (getObjField (asObj (some lpv)) "mcpServers") k = none →
      lookupKey (getObjField (klProjectCfg lpv rc) "mcpServers") k = some v) := by
  refine ⟨?_, ?_, ?_, ?_, ?_, ?_, ?_, ?_⟩
  · unfold mergeMCPSmart
    dsimp only
    rw [smartProj_prompts]
    dsimp only
    rw [smartKeys_autoYes]
  · intro k lv hv
    rw [smart_mcp_field]
    exact addMissing_keep _ _ _ _ hv
  · intro k v hnd hr hl
    rw [smart_mcp_field]
    exact addMissing_hit _ _ _ _ hnd (lookupKey_mem hr) hl
  · intro k v hnd hr h1 h2
    unfold mergeMCPSmart
    dsimp only [docObj]
    exact overlayOthers_hit _ _ _ _ hnd (lookupKey_mem hr) h1 h2
  · intro p rc lpv hnd hmem hlp
    rw [smartMerge_projects_field]
    unfold smartPS
    refine smartProjects_hit_present ask _ _ p rc lpv hnd hmem ?_
    dsimp only
    rw [smartL1_projects]
    exact hlp
  · intro p rc hnd hmem hlp
    rw [smartMerge_projects_field]
    unfold smartPS
    refine smartProjects_hit_absent ask _ _ p rc hnd hmem ?_
    dsimp only
    rw [smartL1_projects]
    exact hlp
  · intro lpv rc k v hv
    rw [klProjectCfg_mcp_field]
    exact addMissing_keep _ _ _ _ hv
  · intro lpv rc k v hnd hr hl
    rw [klProjectCfg_mcp_field]
    exact addMissing_hit _ _ _ _ hnd (lookupKey_mem hr) hl

theorem c10_witness :
    (mergeMCPSmart (fun _ _ _ _ => Choice.remote)
      (.good [("fontSize", JVal.num 10),
        ("mcpServers", JVal.obj [("a", .num 1), ("c", .num 5)]),
        ("projects", JVal.obj [("p", .obj [("mcpServers", .obj [("x", .num 1)])])])])
      (.good [("fontSize", JVal.num 12),
        ("mcpServers", JVal.obj [("a", .num 2), ("b", .num 3)]),
        ("projects", JVal.obj
          [("p", .obj [("mcpServers", .obj [("x", .num 9), ("y", .num 2)])]),
           ("q", .obj [("mcpServers", .obj [("z", .num 7)])])])]) true).2.2 = [] ∧
    lookupKey (getObjField (docObj (mergeMCPSmart (fun _ _ _ _ => Choice.remote)
      (.good [("fontSize", JVal.num 10),
        ("mcpServers", JVal.obj [("a", .num 1), ("c", .num 5)]),
        ("projects", JVal.obj [("p", .obj [("mcpServers", .obj [("x", .num 1)])])])])
      (.good [("fontSize", JVal.num 12),
        ("mcpServers", JVal.obj [("a", .num 2), ("b", .num 3)]),
        ("projects", JVal.obj
          [("p", .obj [("mcpServers", .obj [("x", .num 9), ("y", .num 2)])]),
           ("q", .obj [("mcpServers", .obj [("z", .num 7)])])])]) true).1)
      "mcpServers") "a" = some (.num 1) ∧
    lookupKey (getObjField (docObj (mergeMCPSmart (fun _ _ _ _ => Choice.remote)
      (.good [("fontSize", JVal.num 10),
        ("mcpServers", JVal.obj [("a", .num 1), ("c", .num 5)]),
        ("projects", JVal.obj [("p", .obj [("mcpServers", .obj [("x", .num 1)])])])])
      (.good [("fontSize", JVal.num 12),
        ("mcpServers", JVal.obj [("a", .num 2), ("b", .num 3)]),
        ("projects", JVal.obj
          [("p", .obj [("mcpServers", .obj [("x", .num 9), ("y", .num 2)])]),
           ("q", .obj [("mcpServers", .obj [("z", .num 7)])])])]) true).1)
      "mcpServers") "b" = some (.num 3) ∧
    lookupKey (docObj (mergeMCPSmart (fun _ _ _ _ => Choice.remote)
      (.good [("fontSize", JVal.num 10),
        ("mcpServers", JVal.obj [("a", .num 1), ("c", .num 5)]),
        ("projects", JVal.obj [("p", .obj [("mcpServers", .obj [("x", .num 1)])])])])
      (.good [("fontSize", JVal.num 12),
        ("mcpServers", JVal.obj [("a", .num 2), ("b", .num 3)]),
        ("projects", JVal.obj
          [("p", .obj [("mcpServers", .obj [("x", .num 9), ("y", .num 2)])]),
           ("q", .obj [("mcpServers", .obj [("z", .num 7)])])])]) true).1)
      "fontSize" = some (.num 12) ∧
    lookupKey (getObjField (docObj (mergeMCPSmart (fun _ _ _ _ => Choice.remote)
      (.good [("fontSize", JVal.num 10),
        ("mcpServers", JVal.obj [("a", .num 1), ("c", .num 5)]),
        ("projects", JVal.obj [("p", .obj [("mcpServers", .obj [("x", .num 1)])])])])
      (.good [("fontSize", JVal.num 12),
        ("mcpServers", JVal.obj [("a", .num 2), ("b", .num 3)]),
        ("projects", JVal.obj
          [("p", .obj [("mcpServers", .obj [("x", .num 9), ("y", .num 2)])]),
           ("q", .obj [("mcpServers", .obj [("z", .num 7)])])])]) true).1)
      "projects") "p" =
      some (.obj (klProjectCfg (JVal.obj [("mcpServers", .obj [("x", .num 1)])])
        [("mcpServers", .obj [("x", .num 9), ("y", .num 2)])])) ∧
    lookupKey (getObjField (docObj (mergeMCPSmart (fun _ _ _ _ => Choice.remote)
      (.good [("fontSize", JVal.num 10),
        ("mcpServers", JVal.obj [("a", .num 1), ("c", .num 5)]),
        ("projects", JVal.obj [("p", .obj [("mcpServers", .obj [("x", .num 1)])])])])
      (.good [("fontSize", JVal.num 12),
        ("mcpServers", JVal.obj [("a", .num 2), ("b", .num 3)]),
        ("projects", JVal.obj
          [("p", .obj [("mcpServers", .obj [("x", .num 9), ("y", .num 2)])]),
           ("q", .obj [("mcpServers", .obj [("z", .num 7)])])])]) true).1)
      "projects") "q" =
      some (.obj (klProjectCfg JVal.null [("mcpServers", .obj [("z", .num 7)])])) ∧
    lookupKey (getObjField (klProjectCfg
      (JVal.obj [("mcpServers", .obj [("x", .num 1)])])
      [("mcpServers", .obj [("x", .num 9), ("y", .num 2)])]) "mcpServers") "x" =
      some (.num 1) ∧
    lookupKey (getObjField (klProjectCfg
      (JVal.obj [("mcpServers", .obj [("x", .num 1)])])
      [("mcpServers", .obj [("x", .num 9), ("y", .num 2)])]) "mcpServers") "y" =
      some (.num 2) := by
  have h := c10_auto_confirm_keeps_local (fun _ _ _ _ => Choice.remote)
    [("fontSize", JVal.num 10),
      ("mcpServers", JVal.obj [("a", .num 1), ("c", .num 5)]),
      ("projects", JVal.obj [("p", .obj [("mcpServers", .obj [("x", .num 1)])])])]
    [("fontSize", JVal.num 12),
      ("mcpServers", JVal.obj [("a", .num 2), ("b", .num 3)]),
      ("projects", JVal.obj
        [("p", .obj [("mcpServers", .obj [("x", .num 9), ("y", .num 2)])]),
         ("q", .obj [("mcpServers", .obj [("z", .num 7)])])])]
  refine ⟨h.1, h.2.1 "a" _ rfl, h.2.2.1 "b" _ (by decide) rfl rfl,
    h.2.2.2.1 "fontSize" _ (by decide) rfl (by decide) (by decide),
    h.2.2.2.2.1 "p" _ _ (by decide) (List.mem_cons_self _ _) rfl,
    h.2.2.2.2.2.1 "q" _ (by decide) ?_ rfl,
    h.2.2.2.2.2.2.1 _ _ "x" _ rfl,
    h.2.2.2.2.2.2.2 _ _ "y" _ (by decide) rfl rfl⟩
  exact List.mem_cons.2 (Or.inr (List.mem_cons_self _ _))

/-- C4: the Version counter is never written smaller than its previous
value: push and pull only raise the persisted local `state.Version`,
and any meta blob they write carries a version at least the one read at
the start of the run (Invariant I2 across consecutive runs). -/
theorem c4_version_monotone :
    (∀ env state g d f out statuses info,
       computeStatus env state g = .ok (statuses, info) →
       push env state g d f = .ok out →
       state.version ≤ out.stateAfter.version ∧
       ∀ m, out.metaWritten = some m → info.remoteVersion ≤ m.version) ∧
    (∀ env oc state g d f out statuses info,
       computeStatus env state g = .ok (statuses, info) →
       pull env oc state g d f = .ok out →
       state.version ≤ out.stateAfter.version ∧
       ∀ m, out.metaWritten = some m → info.remoteVersion ≤ m.version) := by
  constructor
  · intro env state g d f out statuses info hstat hpush
    have h := push_ok_core d f hstat
    rw [hpush] at h
    have hout : out = pushCore env state d f (statuses, info) := by
      injection h
    subst hout
    obtain ⟨h1, h2⟩ := pushCore_monotone env state d f (statuses, info)
    refine ⟨h1, fun m hm => ?_⟩
    obtain ⟨meta0, hcore⟩ := computeStatus_ok hstat
    have hrv : info.remoteVersion = info.meta.version := by
      have hinfo : info = (computeStatusCore env state g meta0).2 :=
        congrArg Prod.snd hcore
      rw [hinfo]
      rfl
    rcases h2 m hm with ⟨h3a, h3b⟩ | h3
    · have h4 : info.meta.version ≤ m.version := h3a
      omega
    · have h4 : m.version =
        max (max info.meta.version state.version) info.remoteVersion + 1 := h3
      omega
  · intro env oc state g d f out statuses info hstat hpull
    have h := @pull_ok_core _ oc _ _ _ d f hstat
    rw [hpull] at h
    have hout : out = pullCore env oc state g d f (statuses, info) := by
      injection h
    subst hout
    obtain ⟨h1, h2⟩ := pullCore_monotone env oc state g d f (statuses, info)
    refine ⟨h1, fun m hm => ?_⟩
    rw [h2 m hm]
    obtain ⟨meta0, hcore⟩ := computeStatus_ok hstat
    have hinfo : info = (computeStatusCore env state g meta0).2 :=
      congrArg Prod.snd hcore
    rw [hinfo]
    exact core_eff_ge env state g meta0

/-- C4 witness: a concrete push (version 1 → 2) and a concrete dry
pull (version 1 kept) instantiate both halves. -/
theorem c4_witness :
    ((1 : Int) ≤ (2 : Int) ∧ (1 : Int) ≤ (2 : Int)) ∧ ((1 : Int) ≤ (1 : Int)) := by
  have hp := c4_version_monotone.1
    ⟨[⟨"settings", "settings.json", "file"⟩],
     fun _ => .ok ⟨1, repoURL⟩,
     fun c => "H(" ++ c ++ ")",
     fun _ => .ok "H(y)",
     fun _ => .ok (some "y"), "", false⟩
    ⟨1, [("settings", ⟨"H(x)", "H(x)"⟩)]⟩
    ⟨[("settings.json", "x"), (syncMetaFile, "m")]⟩
    false false
    ⟨[⟨"settings", .synced, "H(y)", "H(x)", none⟩],
     [("settings.json", "y")], [("settings", "y")],
     some ⟨2, repoURL⟩,
     ⟨2, [("settings", ⟨"H(y)", "H(y)"⟩)]⟩⟩
    [⟨"settings", .localAhead, "H(y)", "H(x)", none⟩]
    ⟨⟨1, repoURL⟩, false, 1, 1, 2, true, false, .localDir⟩
    (by rfl) (by rfl)
  have hq := c4_version_monotone.2
    ⟨[⟨"settings", "settings.json", "file"⟩],
     fun _ => .ok ⟨1, repoURL⟩,
     fun c => "H(" ++ c ++ ")",
     fun _ => .ok "H(y)",
     fun _ => .ok (some "y"), "", false⟩
    ⟨fun _ c => .ok (c, false), fun _ => some "x", fun _ _ => .ok (), fun _ => .ok "H(x)", []⟩
    ⟨1, [("settings", ⟨"H(x)", "H(x)"⟩)]⟩
    ⟨[("settings.json", "x"), (syncMetaFile, "m")]⟩
    true false
    ⟨[⟨"settings", .localAhead, "H(y)", "H(x)", none⟩], [], none,
     ⟨1, [("settings", ⟨"H(x)", "H(x)"⟩)]⟩, false⟩
    [⟨"settings", .localAhead, "H(y)", "H(x)", none⟩]
    ⟨⟨1, repoURL⟩, false, 1, 1, 2, true, false, .localDir⟩
    (by rfl) (by rfl)
  exact ⟨⟨hp.1, hp.2 ⟨2, repoURL⟩ rfl⟩, hq.1⟩


end ClaudeSync
